import Mathlib

/-!
# approx_log2: a bit-level model of `approx_log2.hpp`

A binary32 value is identified with its 32-bit pattern, a natural number below `2^32`;
`std::memcpy` between `float` and `uint32_t` is therefore the identity.  The floating-point
operators used by the source (`*`, `+`, `/ 2.0f`, `<`, `==`, `static_cast<float>`) are given
their IEEE-754 binary32 meaning with round-to-nearest, ties-to-even: the exact result is a
dyadic number `± m * 2^e`, which `f32_round` rounds to a bit pattern.
-/

namespace ApproxLog2

/-! ## binary32 bit patterns -/

/-- Sign bit (bit 31) of a pattern. -/
def f32_sign (x : Nat) : Bool := decide (x / 2 ^ 31 % 2 = 1)

/-- Stored exponent field (bits 30..23). -/
def f32_exp (x : Nat) : Nat := x / 2 ^ 23 % 256

/-- Stored mantissa field (bits 22..0). -/
def f32_man (x : Nat) : Nat := x % 2 ^ 23

/-- Not-a-number patterns. -/
def f32_isNaN (x : Nat) : Bool := f32_exp x == 255 && f32_man x != 0

/-- Infinite patterns. -/
def f32_isInf (x : Nat) : Bool := f32_exp x == 255 && f32_man x == 0

/-- Integer significand of a finite pattern: the value is `± f32_sig * 2 ^ f32_qexp`. -/
def f32_sig (x : Nat) : Nat := if f32_exp x = 0 then f32_man x else 2 ^ 23 + f32_man x

/-- Exponent of the unit in the last place of a finite pattern. -/
def f32_qexp (x : Nat) : Int := if f32_exp x = 0 then -149 else (f32_exp x : Int) - 150

/-- Rational value of a finite pattern. -/
def f32_toRat (x : Nat) : ℚ :=
  (if f32_sign x then -1 else 1) * (f32_sig x : ℚ) * (2 : ℚ) ^ f32_qexp x

/-- A positive, finite, normal pattern: sign 0 and exponent field in 1..254. -/
def f32_posNormal (x : Nat) : Prop := 2 ^ 23 ≤ x ∧ x < 255 * 2 ^ 23

instance (x : Nat) : Decidable (f32_posNormal x) := by
  unfold f32_posNormal
  exact inferInstance

/-- The canonical quiet NaN, produced by invalid operations. -/
def f32_nan : Nat := 0x7fc00000

/-- The pattern of `1.0f`. -/
def f32_one : Nat := 0x3f800000

/-- The pattern of `2.0f`. -/
def f32_two : Nat := 0x40000000

/-- The pattern of `4.0f`. -/
def f32_four : Nat := 0x40800000

/-- Round `m` to a multiple of `2^sh`, nearest with ties to even, counted in units of
`2^sh`. -/
def rne_shift (m sh : Nat) : Nat :=
  let n := m / 2 ^ sh
  let r := m % 2 ^ sh
  if 2 ^ sh < 2 * r ∨ (2 * r = 2 ^ sh ∧ n % 2 = 1) then n + 1 else n

/-- Search for the leading one bit of `m` with `fuel` halvings available. -/
def ilog2_aux : Nat → Nat → Nat
  | 0, _ => 0
  | fuel + 1, m => if m < 2 then 0 else ilog2_aux fuel (m / 2) + 1

/-- Position of the leading one bit: `2 ^ ilog2 m ≤ m < 2 ^ (ilog2 m + 1)` for `0 < m`. -/
def ilog2 (m : Nat) : Nat := ilog2_aux m m

/-- Exponent of the unit in the last place of the binary32 nearest to `m * 2^e`: 23 below the
leading bit, but never below the subnormal grid `2^-149`. -/
def rnd_q (m : Nat) (e : Int) : Int := max ((ilog2 m : Int) + e - 23) (-149)

/-- Significand of the binary32 nearest to `m * 2^e`, in units of `2 ^ rnd_q m e`. -/
def rnd_n (m : Nat) (e : Int) : Nat :=
  if rnd_q m e ≤ e then m * 2 ^ (e - rnd_q m e).toNat else rne_shift m (rnd_q m e - e).toNat

/-- Round the dyadic number `± m * 2^e` to binary32 (nearest, ties to even; overflow gives an
infinity, small values round on the subnormal grid `2^-149`).  The significand is added to
the exponent field so that a carry out of the significand bumps the exponent. -/
def f32_round (neg : Bool) (m : Nat) (e : Int) : Nat :=
  let s := if neg then 2 ^ 31 else 0
  if m = 0 then s
  else
    let b : Nat := (rnd_q m e + 149).toNat * 2 ^ 23 + rnd_n m e
    if 0x7f800000 ≤ b then s + 0x7f800000 else s + b

/-- The operator `*` on `float`. -/
def f32_mul (x y : Nat) : Nat :=
  if f32_isNaN x || f32_isNaN y then f32_nan
  else
    let neg := xor (f32_sign x) (f32_sign y)
    let s := if neg then 2 ^ 31 else 0
    if f32_isInf x then (if f32_sig y = 0 then f32_nan else s + 0x7f800000)
    else if f32_isInf y then (if f32_sig x = 0 then f32_nan else s + 0x7f800000)
    else f32_round neg (f32_sig x * f32_sig y) (f32_qexp x + f32_qexp y)

/-- Signed integer significand of a finite pattern scaled to the exponent `e ≤ f32_qexp x`. -/
def f32_scaled (x : Nat) (e : Int) : Int :=
  (if f32_sign x then -1 else 1) * ((f32_sig x * 2 ^ (f32_qexp x - e).toNat : Nat) : Int)

/-- The operator `+` on `float`. -/
def f32_add (x y : Nat) : Nat :=
  if f32_isNaN x || f32_isNaN y then f32_nan
  else if f32_isInf x then
    (if f32_isInf y && (f32_sign x != f32_sign y) then f32_nan else x)
  else if f32_isInf y then y
  else
    let e := min (f32_qexp x) (f32_qexp y)
    let a : Int := f32_scaled x e + f32_scaled y e
    if a = 0 then (if f32_sign x && f32_sign y then 2 ^ 31 else 0)
    else f32_round (decide (a < 0)) a.natAbs e

/-- The expression `f / 2.0f`: the exact quotient is dyadic. -/
def f32_half (x : Nat) : Nat :=
  if f32_isNaN x then f32_nan
  else if f32_isInf x then x
  else f32_round (f32_sign x) (f32_sig x) (f32_qexp x - 1)

/-- Sign-magnitude key: an order embedding of the non-NaN patterns (both zeros map to 0). -/
def f32_key (x : Nat) : Int := if f32_sign x then -((x % 2 ^ 31 : Nat) : Int) else ((x % 2 ^ 31 : Nat) : Int)

/-- The operator `<` on `float` (false when either side is a NaN). -/
def f32_lt (x y : Nat) : Bool := !f32_isNaN x && !f32_isNaN y && decide (f32_key x < f32_key y)

/-- The operator `==` on `float` (false when either side is a NaN; the two zeros are equal). -/
def f32_eq (x y : Nat) : Bool := !f32_isNaN x && !f32_isNaN y && decide (f32_key x = f32_key y)

/-- The operator `<=` on `float` (false when either side is a NaN). -/
def f32_le (x y : Nat) : Bool := !f32_isNaN x && !f32_isNaN y && decide (f32_key x ≤ f32_key y)

/-- The conversion `static_cast<float>` of an `int32_t`. -/
def f32_of_int (i : Int) : Nat := f32_round (decide (i < 0)) i.natAbs 0

/-! ## The program -/

/-- `get_exponent_and_normalize`: returns the exponent (as a float) and the overwritten `f`. -/
def get_exponent_and_normalize (f : Nat) : Nat × Nat :=
  let x := f
  let e := x >>> 23
  let m := x &&& 0x7fffff
  let new_exp := 0x3f800000
  let normalized := new_exp ||| m
  let res : Int := ((e &&& 0xff : Nat) : Int)
  let res := res - 0x7f
  (f32_of_int res, normalized)

/-- `pow_neg_two`: `uint32_t` arithmetic wraps modulo `2^32`. -/
def pow_neg_two (m : Nat) : Nat :=
  let m := (127 + 2 ^ 32 - m % 2 ^ 32) % 2 ^ 32
  let m := (m <<< 23) % 2 ^ 32
  m

/-- The `while` loop of `log2_step`, run for at most `fuel` tests of its condition; the
state is the float `f` and the counter `m`. -/
def log2_step_loop : Nat → Nat → Nat → Option (Nat × Nat)
  | 0, _, _ => none
  | fuel + 1, f, m =>
    if f32_lt f f32_two then log2_step_loop fuel (f32_mul f f) ((m + 1) % 2 ^ 32)
    else some (m, f32_half f)

/-- `log2_step`: returns the number of squarings and the overwritten `f`. -/
def log2_step (fuel : Nat) (f : Nat) : Option (Nat × Nat) :=
  log2_step_loop fuel f 0

/-- One record per pass of the `for` loop of `approx_log2`. -/
structure Pass where
  /-- the value handed to `log2_step` -/
  arg : Nat
  /-- the count returned by `log2_step` -/
  k : Nat
  /-- the value left in `f` -/
  out : Nat
  /-- the running total `m` after the pass -/
  m : Nat
  /-- the accumulator `res` after the pass -/
  res : Nat
deriving DecidableEq, Repr

/-- Outcome of a run of `approx_log2`: the returned float and the passes made. -/
structure Run where
  /-- the returned float -/
  ret : Nat
  /-- the passes of the loop, first to last -/
  passes : List Pass
deriving DecidableEq, Repr

/-- The `for` loop of `approx_log2` with `n` passes left (`n = 9 - i`). -/
def approx_log2_loop (fuel : Nat) : Nat → Nat → Nat → Nat → Option Run
  | 0, _, res, _ => some ⟨res, []⟩
  | n + 1, f, res, m =>
    match log2_step fuel f with
    | none => none
    | some (k, f') =>
      let m' := (m + k) % 2 ^ 32
      let res' := f32_add res (pow_neg_two m')
      let p : Pass := ⟨f, k, f', m', res'⟩
      if f32_eq f' f32_one then some ⟨res', [p]⟩
      else
        match approx_log2_loop fuel n f' res' m' with
        | none => none
        | some r => some ⟨r.ret, p :: r.passes⟩

/-- `approx_log2`, with its trace. -/
def approx_log2_run (fuel : Nat) (f : Nat) : Option Run :=
  let (e, f) := get_exponent_and_normalize f
  if f32_eq f f32_one then some ⟨e, []⟩
  else approx_log2_loop fuel 9 f e 0

/-- `approx_log2`. -/
def approx_log2 (fuel : Nat) (f : Nat) : Option Nat :=
  (approx_log2_run fuel f).map Run.ret

/-- The constant `inv_log2_e = 0.6931471805599453f`. -/
def inv_log2_e : Nat := 0x3f317218

/-- `approx_ln`. -/
def approx_ln (fuel : Nat) (f : Nat) : Option Nat :=
  (approx_log2 fuel f).map (fun r => f32_mul r inv_log2_e)

/-! ## Auxiliary functions used in the proofs

In the loops of the program `f` only takes values in `[1, 4)`.  Such a pattern is written
`0x3f000000 + t` with `2^23 ≤ t < 3 * 2^23`: for `t < 2^24` it stands for `t / 2^23`, and the
order of the patterns is the order of the values. -/

/-- Effect of `f = f*f` on the offset `t` of a pattern in `[1, 2)`. -/
def sq_pat (t : Nat) : Nat :=
  if t * t < 2 ^ 47 then rne_shift (t * t) 23 else 2 ^ 23 + rne_shift (t * t) 24

/-- The loop of `log2_step` on offsets, with the count `k` of squarings made so far. -/
def step_pat : Nat → Nat → Nat → Nat × Nat
  | 0, t, k => (k, t)
  | fuel + 1, t, k => if t < 2 ^ 24 then step_pat fuel (sq_pat t) (k + 1) else (k, t - 2 ^ 23)

/-- One call of `log2_step` on the offset of a pattern in `(1, 2)`: the count returned and
the offset left (24 tests of the loop condition always suffice). -/
def pass_pat (t : Nat) : Nat × Nat := step_pat 24 t 0

/-- Total number of squarings made by at most `n` passes of `log2_step` started at offset
`t`; the passes stop early when the value `1.0` (offset `2^23`) is left. -/
def total_k : Nat → Nat → Nat
  | 0, _ => 0
  | n + 1, t => (pass_pat t).1 + (if (pass_pat t).2 = 2 ^ 23 then 0 else total_k n (pass_pat t).2)

/-- Checks, for at most `n + 1` more passes from offset `t` with `m` squarings made before,
that after each pass the running total plus 12 for every pass still allowed is at most
119. -/
def budget_ok : Nat → Nat → Nat → Bool
  | 0, _, _ => true
  | n + 1, t, m =>
    decide (m + (pass_pat t).1 + 12 * n ≤ 119)
      && ((pass_pat t).2 == 2 ^ 23 || budget_ok n (pass_pat t).2 (m + (pass_pat t).1))

/-- `budget_ok 9 t 0` for all the `2^d` offsets `t` from `lo` on. -/
def budget_ok_range : Nat → Nat → Bool
  | 0, lo => budget_ok 9 lo 0
  | d + 1, lo => budget_ok_range d lo && budget_ok_range d (lo + 2 ^ d)

/-- A finite pattern: neither an infinity nor a NaN. -/
def f32_finite (x : Nat) : Prop := f32_exp x ≠ 255

/-- Rational value of the pattern `0x3f000000 + u`, for an offset `2^23 ≤ u < 3 * 2^23`. -/
def off_val (u : Nat) : ℚ :=
  if u < 2 ^ 24 then (u : ℚ) / 2 ^ 23 else 2 * ((u : ℚ) - 2 ^ 23) / 2 ^ 23

/-- State `(t, res, m)` in which the `for` loop of `approx_log2` ends, entered with `n`
passes left on the offset `t` of a value in `(1, 2)`, the accumulator `res` and the total
`m`. -/
def loop_final : Nat → Nat → Nat → Nat → Nat × Nat × Nat
  | 0, t, res, m => (t, res, m)
  | n + 1, t, res, m =>
    if (pass_pat t).2 = 2 ^ 23 then
      (2 ^ 23, f32_add res (pow_neg_two ((m + (pass_pat t).1) % 2 ^ 32)),
        (m + (pass_pat t).1) % 2 ^ 32)
    else
      loop_final n (pass_pat t).2 (f32_add res (pow_neg_two ((m + (pass_pat t).1) % 2 ^ 32)))
        ((m + (pass_pat t).1) % 2 ^ 32)

/-- Number of passes the `for` loop of `approx_log2` makes, entered with `n` passes left on
the offset `t`. -/
def pass_count : Nat → Nat → Nat
  | 0, _ => 0
  | n + 1, t => 1 + (if (pass_pat t).2 = 2 ^ 23 then 0 else pass_count n (pass_pat t).2)

/-- Exponent of the distance from a finite nonzero pattern to the next binary32 number above
it: the unit in the last place, except at a negative power of two, where the numbers above
(nearer to zero) are spaced by half of it. -/
def f32_grid (x : Nat) : Int :=
  if f32_sign x && f32_man x == 0 then f32_qexp x - 1 else f32_qexp x

/-- Room above the accumulator `x` for the terms still to come, all below `2^-μ`: a negative
`x` stays negative when `2^-μ` is added, and a positive `x` does not leave its binade. -/
def top_ok (x μ : Nat) : Prop :=
  (f32_toRat x < 0 → f32_toRat x + 1 / 2 ^ μ ≤ 0)
    ∧ (0 < f32_toRat x → f32_toRat x + 1 / 2 ^ μ ≤ (2 : ℚ) ^ (f32_qexp x + 24))

/-- The float returned by `approx_log2` on the pattern `x`, without fuel: the exponent when
the mantissa field is zero, and otherwise the accumulator in which the `for` loop ends. -/
def log2_result (x : Nat) : Nat :=
  if x % 2 ^ 23 = 0 then f32_of_int (((x / 2 ^ 23 % 256 : Nat) : Int) - 127)
  else (loop_final 9 (2 ^ 23 + x % 2 ^ 23) (f32_of_int (((x / 2 ^ 23 % 256 : Nat) : Int) - 127)) 0).2.1

/-- One pass of the `for` loop of `approx_log2`, made in the state the pass `p` left: the pass
`q` records the call `m += log2_step(f)` on the value `p.out` (the `uint32_t` sum wraps modulo
`2^32`) and the accumulation `res += pow_neg_two(m)`. -/
def loop_body (p q : Pass) : Prop :=
  q.arg = p.out ∧ (∀ fuel, 24 ≤ fuel → log2_step fuel q.arg = some (q.k, q.out))
    ∧ q.m = (p.m + q.k) % 2 ^ 32 ∧ q.res = f32_add p.res (pow_neg_two q.m)

/-! ## Basic facts about the model -/

theorem ilog2_aux_spec (fuel : Nat) : ∀ m : Nat, 0 < m → m ≤ fuel →
    2 ^ ilog2_aux fuel m ≤ m ∧ m < 2 ^ (ilog2_aux fuel m + 1) := by
  induction fuel with
  | zero => intro m h1 h2; omega
  | succ fuel ih =>
    intro m h1 h2
    unfold ilog2_aux
    by_cases hm : m < 2
    · simp only [hm, if_true]
      constructor <;> simp <;> omega
    · simp only [hm, if_false]
      have h := ih (m / 2) (by omega) (by omega)
      obtain ⟨ha, hb⟩ := h
      constructor
      · rw [pow_succ]; omega
      · rw [pow_succ]; omega

theorem ilog2_spec (m : Nat) (h : 0 < m) : 2 ^ ilog2 m ≤ m ∧ m < 2 ^ (ilog2 m + 1) :=
  ilog2_aux_spec m m h (le_refl m)

theorem ilog2_eq (m k : Nat) (h1 : 2 ^ k ≤ m) (h2 : m < 2 ^ (k + 1)) : ilog2 m = k := by
  have hpos : 0 < m := lt_of_lt_of_le (by positivity) h1
  obtain ⟨ha, hb⟩ := ilog2_spec m hpos
  have h3 : k < ilog2 m + 1 := (Nat.pow_lt_pow_iff_right (by norm_num : 1 < 2)).1 (lt_of_le_of_lt h1 hb)
  have h4 : ilog2 m < k + 1 := (Nat.pow_lt_pow_iff_right (by norm_num : 1 < 2)).1 (lt_of_le_of_lt ha h2)
  omega

theorem get_exponent_and_normalize_eq (x : Nat) :
    get_exponent_and_normalize x
      = (f32_of_int (((x / 2 ^ 23 % 256 : Nat) : Int) - 127), 0x3f800000 + x % 2 ^ 23) := by
  unfold get_exponent_and_normalize
  have h1 : x >>> 23 = x / 2 ^ 23 := Nat.shiftRight_eq_div_pow x 23
  have h2 : x &&& 0x7fffff = x % 2 ^ 23 := Nat.and_pow_two_sub_one_eq_mod x 23
  have h3 : (x / 2 ^ 23) &&& 0xff = x / 2 ^ 23 % 256 := Nat.and_pow_two_sub_one_eq_mod (x / 2 ^ 23) 8
  have h4 : 0x3f800000 ||| (x % 2 ^ 23) = 0x3f800000 + x % 2 ^ 23 := by
    have := Nat.mul_add_lt_is_or (Nat.mod_lt x (by positivity : 0 < 2 ^ 23)) 127
    rw [← this]
  simp only [h1, h2, h3, h4]

theorem rne_shift_ge (m sh : Nat) : m / 2 ^ sh ≤ rne_shift m sh := by
  unfold rne_shift
  simp only
  split <;> omega

theorem rne_shift_le (m sh : Nat) : rne_shift m sh ≤ m / 2 ^ sh + 1 := by
  unfold rne_shift
  simp only
  split <;> omega

theorem rnd_n_le (m : Nat) (e : Int) (hm : 0 < m) : rnd_n m e ≤ 2 ^ 24 := by
  obtain ⟨h1, h2⟩ := ilog2_spec m hm
  unfold rnd_n
  have hq : (ilog2 m : Int) + e - 23 ≤ rnd_q m e := le_max_left _ _
  split
  · rename_i h
    have hd : ilog2 m + (e - rnd_q m e).toNat ≤ 23 := by omega
    have : m * 2 ^ (e - rnd_q m e).toNat < 2 ^ (ilog2 m + 1) * 2 ^ (e - rnd_q m e).toNat :=
      Nat.mul_lt_mul_of_pos_right h2 (by positivity)
    rw [← pow_add] at this
    have h3 : 2 ^ (ilog2 m + 1 + (e - rnd_q m e).toNat) ≤ 2 ^ 24 :=
      Nat.pow_le_pow_right (by norm_num) (by omega)
    omega
  · rename_i h
    have hs : ilog2 m ≤ 23 + (rnd_q m e - e).toNat := by omega
    have h3 : m < 2 ^ 24 * 2 ^ (rnd_q m e - e).toNat := by
      rw [← pow_add]
      exact lt_of_lt_of_le h2 (Nat.pow_le_pow_right (by norm_num) (by omega))
    have h4 : m / 2 ^ (rnd_q m e - e).toNat < 2 ^ 24 :=
      Nat.div_lt_of_lt_mul (by rw [Nat.mul_comm]; exact h3)
    have := rne_shift_le m (rnd_q m e - e).toNat
    omega

theorem rnd_n_ge (m : Nat) (e : Int) (hm : 0 < m) (hq : -149 < rnd_q m e) :
    2 ^ 23 ≤ rnd_n m e := by
  obtain ⟨h1, h2⟩ := ilog2_spec m hm
  have hq2 : rnd_q m e = (ilog2 m : Int) + e - 23 := by
    unfold rnd_q at hq ⊢
    omega
  unfold rnd_n
  split
  · rename_i h
    have hd : ilog2 m + (e - rnd_q m e).toNat = 23 := by omega
    have : 2 ^ ilog2 m * 2 ^ (e - rnd_q m e).toNat ≤ m * 2 ^ (e - rnd_q m e).toNat :=
      Nat.mul_le_mul_right _ h1
    rw [← pow_add, hd] at this
    exact this
  · rename_i h
    have hs : ilog2 m = 23 + (rnd_q m e - e).toNat := by omega
    have h3 : 2 ^ 23 * 2 ^ (rnd_q m e - e).toNat ≤ m := by
      rw [← pow_add, ← hs]; exact h1
    have h4 : 2 ^ 23 ≤ m / 2 ^ (rnd_q m e - e).toNat :=
      (Nat.le_div_iff_mul_le (by positivity)).2 h3
    have := rne_shift_ge m (rnd_q m e - e).toNat
    omega

/-- Fields of a pattern assembled from a sign, an exponent field and a mantissa. -/
theorem f32_fields (s E a : Nat) (hs : s ≤ 1) (hE : E < 256) (ha : a < 2 ^ 23) :
    f32_sign (s * 2 ^ 31 + E * 2 ^ 23 + a) = decide (s = 1)
    ∧ f32_exp (s * 2 ^ 31 + E * 2 ^ 23 + a) = E
    ∧ f32_man (s * 2 ^ 31 + E * 2 ^ 23 + a) = a := by
  unfold f32_sign f32_exp f32_man
  refine ⟨?_, ?_, ?_⟩
  · congr 1
    apply propext
    constructor <;> intro h <;> omega
  · omega
  · omega

theorem rnd_q_ge (m : Nat) (e : Int) : -149 ≤ rnd_q m e := le_max_right _ _

/-- Value of a pattern given by its three fields. -/
theorem f32_toRat_fields (s E a : Nat) (hs : s ≤ 1) (hE : E < 256) (ha : a < 2 ^ 23) :
    f32_toRat (s * 2 ^ 31 + E * 2 ^ 23 + a)
      = (if s = 1 then -1 else 1) * ((if E = 0 then a else 2 ^ 23 + a : Nat) : ℚ)
          * (2 : ℚ) ^ (if E = 0 then (-149 : Int) else (E : Int) - 150) := by
  obtain ⟨h1, h2, h3⟩ := f32_fields s E a hs hE ha
  unfold f32_toRat f32_sig f32_qexp
  rw [h1, h2, h3]
  simp

/-- Decoding a rounded dyadic number: without overflow the result is `± rnd_n * 2 ^ rnd_q`. -/
theorem f32_round_toRat (neg : Bool) (m : Nat) (e : Int) (hm : 0 < m)
    (hb : (rnd_q m e + 149).toNat * 2 ^ 23 + rnd_n m e < 0x7f800000) :
    f32_toRat (f32_round neg m e)
      = (if neg then -1 else 1) * (rnd_n m e : ℚ) * (2 : ℚ) ^ rnd_q m e := by
  have hq := rnd_q_ge m e
  have hn := rnd_n_le m e hm
  have hn2 := rnd_n_ge m e hm
  unfold f32_round
  simp only [Nat.ne_of_gt hm, if_false]
  rw [if_neg (by omega)]
  generalize hQ : (rnd_q m e + 149).toNat = Q at hb
  generalize rnd_n m e = n at hb hn hn2
  have hqQ : rnd_q m e = (Q : Int) - 149 := by omega
  rw [hqQ] at hn2 ⊢
  have hs : (if neg = true then 2 ^ 31 else 0) = (if neg = true then 1 else 0) * 2 ^ 31 := by
    cases neg <;> simp
  rw [hs]
  have hs1 : (if neg = true then 1 else 0) ≤ 1 := by cases neg <;> simp
  have hsg : (if (if neg = true then 1 else 0) = 1 then (-1 : ℚ) else 1)
      = (if neg = true then -1 else 1) := by cases neg <;> simp
  rcases Nat.lt_or_ge n (2 ^ 23) with h | h
  · have hQ0 : Q = 0 := by
      by_contra hne
      have := hn2 (by omega)
      omega
    subst hQ0
    have e1 : (if neg = true then 1 else 0) * 2 ^ 31 + (0 * 2 ^ 23 + n)
        = (if neg = true then 1 else 0) * 2 ^ 31 + 0 * 2 ^ 23 + n := by omega
    rw [e1, f32_toRat_fields _ 0 n hs1 (by norm_num) h, hsg]
    simp
  · rcases Nat.lt_or_ge n (2 ^ 24) with h' | h'
    · have e1 : (if neg = true then 1 else 0) * 2 ^ 31 + (Q * 2 ^ 23 + n)
          = (if neg = true then 1 else 0) * 2 ^ 31 + (Q + 1) * 2 ^ 23 + (n - 2 ^ 23) := by omega
      rw [e1, f32_toRat_fields _ (Q + 1) (n - 2 ^ 23) hs1 (by omega) (by omega), hsg]
      simp only [Nat.succ_ne_zero, if_false]
      have e2 : 2 ^ 23 + (n - 2 ^ 23) = n := by omega
      have e3 : (((Q + 1 : Nat) : Int) - 150) = ((Q : Int) - 149) := by push_cast; ring
      rw [e2, e3]
    · have hn24 : n = 2 ^ 24 := by omega
      subst hn24
      have e1 : (if neg = true then 1 else 0) * 2 ^ 31 + (Q * 2 ^ 23 + 2 ^ 24)
          = (if neg = true then 1 else 0) * 2 ^ 31 + (Q + 2) * 2 ^ 23 + 0 := by omega
      rw [e1, f32_toRat_fields _ (Q + 2) 0 hs1 (by omega) (by norm_num), hsg]
      simp only [Nat.succ_ne_zero, if_false]
      have e3 : (((Q + 2 : Nat) : Int) - 150) = ((Q : Int) - 149) + 1 := by push_cast; ring
      rw [e3, zpow_add₀ (by norm_num : (2 : ℚ) ≠ 0)]
      push_cast
      ring

/-- No overflow when the unit in the last place is at most `2^103`. -/
theorem rnd_no_overflow (m : Nat) (e : Int) (hm : 0 < m) (hq : rnd_q m e ≤ 103) :
    (rnd_q m e + 149).toNat * 2 ^ 23 + rnd_n m e < 0x7f800000 := by
  have h1 := rnd_q_ge m e
  have h2 := rnd_n_le m e hm
  have h3 : (rnd_q m e + 149).toNat ≤ 252 := by omega
  omega

/-- A dyadic number on the grid of its binade is rounded to itself. -/
theorem f32_round_exact (neg : Bool) (m : Nat) (e : Int) (hm : 0 < m)
    (hq : rnd_q m e ≤ e) (hq2 : rnd_q m e ≤ 103) :
    f32_toRat (f32_round neg m e) = (if neg then -1 else 1) * (m : ℚ) * (2 : ℚ) ^ e := by
  rw [f32_round_toRat neg m e hm (rnd_no_overflow m e hm hq2)]
  unfold rnd_n
  rw [if_pos hq]
  have h2 : (2 : ℚ) ^ e = 2 ^ (e - rnd_q m e).toNat * 2 ^ rnd_q m e := by
    rw [← zpow_natCast, ← zpow_add₀ (by norm_num : (2 : ℚ) ≠ 0)]
    congr 1
    omega
  rw [h2]
  push_cast
  ring

theorem ilog2_lt (m k : Nat) (hm : 0 < m) (h : m < 2 ^ k) : ilog2 m < k := by
  obtain ⟨h1, _⟩ := ilog2_spec m hm
  exact (Nat.pow_lt_pow_iff_right (by norm_num : 1 < 2)).1 (lt_of_le_of_lt h1 h)

/-- Integers below `2^24` in magnitude convert exactly. -/
theorem f32_of_int_toRat (i : Int) (h : i.natAbs < 2 ^ 24) : f32_toRat (f32_of_int i) = i := by
  unfold f32_of_int
  rcases Nat.eq_zero_or_pos i.natAbs with h0 | hpos
  · have : i = 0 := Int.natAbs_eq_zero.1 h0
    subst this
    simp [f32_round, f32_toRat, f32_sig, f32_exp, f32_man]
  · have hl := ilog2_lt _ _ hpos h
    have hq : rnd_q i.natAbs 0 ≤ 0 := by unfold rnd_q; omega
    rw [f32_round_exact _ _ _ hpos hq (by omega)]
    rcases lt_or_le i 0 with hneg | hnn
    · simp only [hneg, decide_True, if_true, zpow_zero, mul_one]
      have : ((i.natAbs : Int) : ℚ) = ((-i : Int) : ℚ) := by
        congr 1; omega
      rw [show ((i.natAbs : ℕ) : ℚ) = ((i.natAbs : Int) : ℚ) from (Int.cast_natCast _).symm, this]
      push_cast; ring
    · have hn : ¬ i < 0 := not_lt.2 hnn
      simp only [hn, decide_False, zpow_zero, mul_one, one_mul]
      have : ((i.natAbs : Int) : ℚ) = ((i : Int) : ℚ) := by
        congr 1; omega
      rw [show ((i.natAbs : ℕ) : ℚ) = ((i.natAbs : Int) : ℚ) from (Int.cast_natCast _).symm, this]
      simp

/-- More fuel never changes the outcome of a `log2_step` loop that ended. -/
theorem log2_step_loop_mono (fuel : Nat) : ∀ (f m : Nat) (r : Nat × Nat),
    log2_step_loop fuel f m = some r → ∀ fuel', fuel ≤ fuel' →
    log2_step_loop fuel' f m = some r := by
  induction fuel with
  | zero => intro f m r h; simp [log2_step_loop] at h
  | succ fuel ih =>
    intro f m r h fuel' hle
    obtain ⟨g, rfl⟩ : ∃ g, fuel' = g + 1 := ⟨fuel' - 1, by omega⟩
    unfold log2_step_loop at h ⊢
    split
    · rename_i hlt
      rw [if_pos hlt] at h
      exact ih _ _ _ h g (by omega)
    · rename_i hlt
      rw [if_neg hlt] at h
      exact h

/-- Fields of a pattern `0x3f000000 + t` with `2^23 ≤ t < 3 * 2^23`. -/
theorem pat_fields (t : Nat) (h1 : 2 ^ 23 ≤ t) (h2 : t < 3 * 2 ^ 23) :
    f32_sign (0x3f000000 + t) = false
    ∧ f32_exp (0x3f000000 + t) = (if t < 2 ^ 24 then 127 else 128)
    ∧ f32_man (0x3f000000 + t) = (if t < 2 ^ 24 then t - 2 ^ 23 else t - 2 ^ 24) := by
  unfold f32_sign f32_exp f32_man
  simp only [Nat.reducePow, Nat.reduceMul] at h1 h2 ⊢
  refine ⟨?_, ?_, ?_⟩
  · simp only [decide_eq_false_iff_not]
    omega
  · split <;> omega
  · split <;> omega

theorem pat_not_special (t : Nat) (h1 : 2 ^ 23 ≤ t) (h2 : t < 3 * 2 ^ 23) :
    f32_isNaN (0x3f000000 + t) = false ∧ f32_isInf (0x3f000000 + t) = false := by
  obtain ⟨_, he, _⟩ := pat_fields t h1 h2
  unfold f32_isNaN f32_isInf
  rw [he]
  split <;> simp

theorem pat_key (t : Nat) (h1 : 2 ^ 23 ≤ t) (h2 : t < 3 * 2 ^ 23) :
    f32_key (0x3f000000 + t) = ((0x3f000000 + t : Nat) : Int) := by
  obtain ⟨hs, _, _⟩ := pat_fields t h1 h2
  unfold f32_key
  rw [hs]
  simp only [Bool.false_eq_true, if_false]
  congr 1
  omega

/-- The test `f < 2.0f` on a pattern in `[1, 4)`. -/
theorem pat_lt_two (t : Nat) (h1 : 2 ^ 23 ≤ t) (h2 : t < 3 * 2 ^ 23) :
    f32_lt (0x3f000000 + t) f32_two = decide (t < 2 ^ 24) := by
  have hk := pat_key t h1 h2
  have hk2 := pat_key (2 ^ 24) (by norm_num) (by norm_num)
  have hn := (pat_not_special t h1 h2).1
  have hn2 := (pat_not_special (2 ^ 24) (by norm_num) (by norm_num)).1
  have e2 : f32_two = 0x3f000000 + 2 ^ 24 := by norm_num [f32_two]
  unfold f32_lt
  rw [e2, hn, hn2, hk, hk2]
  simp only [Bool.not_false, Bool.true_and]
  congr 1
  apply propext
  constructor <;> intro h <;> omega

/-- The test `f == 1.0f` on a pattern in `[1, 4)`. -/
theorem pat_eq_one (t : Nat) (h1 : 2 ^ 23 ≤ t) (h2 : t < 3 * 2 ^ 23) :
    f32_eq (0x3f000000 + t) f32_one = decide (t = 2 ^ 23) := by
  have hk := pat_key t h1 h2
  have hk2 := pat_key (2 ^ 23) (by norm_num) (by norm_num)
  have hn := (pat_not_special t h1 h2).1
  have hn2 := (pat_not_special (2 ^ 23) (by norm_num) (by norm_num)).1
  have e2 : f32_one = 0x3f000000 + 2 ^ 23 := by norm_num [f32_one]
  unfold f32_eq
  rw [e2, hn, hn2, hk, hk2]
  simp only [Bool.not_false, Bool.true_and]
  congr 1
  apply propext
  constructor <;> intro h <;> omega

theorem pat_sig_qexp (t : Nat) (h1 : 2 ^ 23 ≤ t) (h2 : t < 3 * 2 ^ 23) :
    f32_sig (0x3f000000 + t) = (if t < 2 ^ 24 then t else t - 2 ^ 23)
    ∧ f32_qexp (0x3f000000 + t) = (if t < 2 ^ 24 then -23 else -22) := by
  obtain ⟨_, he, hm⟩ := pat_fields t h1 h2
  unfold f32_sig f32_qexp
  rw [he, hm]
  split <;> simp <;> omega

/-- The squaring `f*f` of a pattern in `[1, 2)`. -/
theorem pat_mul_self (t : Nat) (h1 : 2 ^ 23 ≤ t) (h2 : t < 2 ^ 24) :
    f32_mul (0x3f000000 + t) (0x3f000000 + t) = 0x3f000000 + sq_pat t := by
  obtain ⟨hn, hi⟩ := pat_not_special t h1 (by omega)
  obtain ⟨hs, hq⟩ := pat_sig_qexp t h1 (by omega)
  obtain ⟨hsg, _, _⟩ := pat_fields t h1 (by omega)
  rw [if_pos h2] at hs hq
  unfold f32_mul
  simp only [hn, hi, hs, hq, hsg, Bool.or_self, Bool.false_eq_true, if_false, Bool.xor_self,
    Nat.zero_add]
  have hlo : 2 ^ 46 ≤ t * t := by
    have := Nat.mul_le_mul h1 h1
    omega
  have hhi : t * t < 2 ^ 48 := by
    have := Nat.mul_lt_mul'' h2 h2
    omega
  have hpos : 0 < t * t := by omega
  unfold f32_round sq_pat
  simp only [Nat.ne_of_gt hpos, if_false, Bool.false_eq_true, Nat.zero_add]
  by_cases hc : t * t < 2 ^ 47
  · have hl : ilog2 (t * t) = 46 := ilog2_eq _ _ hlo hc
    have hq : rnd_q (t * t) (-23 + -23) = -23 := by unfold rnd_q; rw [hl]; norm_num
    have hnn : rnd_n (t * t) (-23 + -23) = rne_shift (t * t) 23 := by
      unfold rnd_n; rw [hq, if_neg (by norm_num)]; rfl
    have hQ : (rnd_q (t * t) (-23 + -23) + 149).toNat = 126 := by rw [hq]; rfl
    have hb := rne_shift_le (t * t) 23
    have hd : t * t / 2 ^ 23 < 2 ^ 24 := Nat.div_lt_of_lt_mul (by omega)
    rw [hQ, hnn, if_pos hc]
    simp only [Nat.reducePow, Nat.reduceMul] at hd hb ⊢
    rw [if_neg (by omega)]
  · have hl : ilog2 (t * t) = 47 := ilog2_eq _ _ (by omega) hhi
    have hq : rnd_q (t * t) (-23 + -23) = -22 := by unfold rnd_q; rw [hl]; norm_num
    have hnn : rnd_n (t * t) (-23 + -23) = rne_shift (t * t) 24 := by
      unfold rnd_n; rw [hq, if_neg (by norm_num)]; rfl
    have hQ : (rnd_q (t * t) (-23 + -23) + 149).toNat = 127 := by rw [hq]; rfl
    have hb := rne_shift_le (t * t) 24
    have hd : t * t / 2 ^ 24 < 2 ^ 24 := Nat.div_lt_of_lt_mul (by omega)
    rw [hQ, hnn, if_neg hc]
    simp only [Nat.reducePow, Nat.reduceMul] at hd hb ⊢
    rw [if_neg (by omega)]
    omega

/-- The halving `f / 2.0f` of a pattern in `[2, 4)`. -/
theorem pat_half (t : Nat) (h1 : 2 ^ 24 ≤ t) (h2 : t < 3 * 2 ^ 23) :
    f32_half (0x3f000000 + t) = 0x3f000000 + (t - 2 ^ 23) := by
  obtain ⟨hn, hi⟩ := pat_not_special t (by omega) h2
  obtain ⟨hs, hq⟩ := pat_sig_qexp t (by omega) h2
  obtain ⟨hsg, _, _⟩ := pat_fields t (by omega) h2
  rw [if_neg (by omega)] at hs hq
  unfold f32_half
  simp only [hn, hi, hs, hq, hsg, Bool.false_eq_true, if_false, Nat.zero_add]
  have hpos : 0 < t - 2 ^ 23 := by omega
  unfold f32_round
  simp only [Nat.ne_of_gt hpos, if_false, Bool.false_eq_true, Nat.zero_add]
  have hl : ilog2 (t - 2 ^ 23) = 23 := ilog2_eq _ _ (by omega) (by omega)
  have hq : rnd_q (t - 2 ^ 23) (-22 - 1) = -23 := by unfold rnd_q; rw [hl]; norm_num
  have hnn : rnd_n (t - 2 ^ 23) (-22 - 1) = t - 2 ^ 23 := by
    unfold rnd_n; rw [hq, if_pos (by norm_num)]
    show (t - 2 ^ 23) * 2 ^ 0 = t - 2 ^ 23
    omega
  have hQ : (rnd_q (t - 2 ^ 23) (-22 - 1) + 149).toNat = 126 := by rw [hq]; rfl
  rw [hQ, hnn]
  simp only [Nat.reducePow, Nat.reduceMul] at h1 h2 ⊢
  rw [if_neg (by omega)]

theorem rne_shift_mono (m m' sh : Nat) (h : m ≤ m') : rne_shift m sh ≤ rne_shift m' sh := by
  have hD : 0 < 2 ^ sh := by positivity
  have hdiv : m / 2 ^ sh ≤ m' / 2 ^ sh := Nat.div_le_div_right h
  rcases Nat.lt_or_ge (m / 2 ^ sh) (m' / 2 ^ sh) with hlt | hge
  · have h1 := rne_shift_le m sh
    have h2 := rne_shift_ge m' sh
    omega
  · have heq : m / 2 ^ sh = m' / 2 ^ sh := by omega
    have e1 := Nat.div_add_mod m (2 ^ sh)
    have e2 := Nat.div_add_mod m' (2 ^ sh)
    rw [heq] at e1
    have hr : m % 2 ^ sh ≤ m' % 2 ^ sh := by
      generalize 2 ^ sh * (m' / 2 ^ sh) = p at e1 e2
      omega
    unfold rne_shift
    simp only [heq]
    generalize m % 2 ^ sh = r at hr
    generalize m' % 2 ^ sh = r' at hr
    generalize 2 ^ sh = D at hD
    split <;> split <;> omega

theorem sq_pat_range (t : Nat) (h1 : 2 ^ 23 ≤ t) (h2 : t < 2 ^ 24) :
    2 ^ 23 ≤ sq_pat t ∧ sq_pat t < 3 * 2 ^ 23 := by
  have hlo : 2 ^ 46 ≤ t * t := by
    have := Nat.mul_le_mul h1 h1
    omega
  have hhi : t * t ≤ (2 ^ 24 - 1) * (2 ^ 24 - 1) :=
    Nat.mul_le_mul (by omega) (by omega)
  unfold sq_pat
  split
  · rename_i hc
    have h3 := rne_shift_ge (t * t) 23
    have h4 := rne_shift_le (t * t) 23
    have h5 : 2 ^ 23 ≤ t * t / 2 ^ 23 := (Nat.le_div_iff_mul_le (by positivity)).2 (by omega)
    have h6 : t * t / 2 ^ 23 < 2 ^ 24 := Nat.div_lt_of_lt_mul (by omega)
    omega
  · rename_i hc
    have h3 := rne_shift_ge (t * t) 24
    have h4 := rne_shift_le (t * t) 24
    have h6 : t * t / 2 ^ 24 < 2 ^ 24 - 1 := Nat.div_lt_of_lt_mul (by omega)
    omega

theorem sq_pat_ge_two (t : Nat) (h : ¬ t * t < 2 ^ 47) : 2 ^ 24 ≤ sq_pat t := by
  unfold sq_pat
  rw [if_neg h]
  have h3 := rne_shift_ge (t * t) 24
  have h5 : 2 ^ 23 ≤ t * t / 2 ^ 24 := (Nat.le_div_iff_mul_le (by positivity)).2 (by omega)
  omega

/-- A squaring at least doubles the distance to `1.0`, unless it reaches `2.0`. -/
theorem sq_pat_grow (t : Nat) (h1 : 2 ^ 23 ≤ t) :
    2 ^ 24 ≤ sq_pat t ∨ 2 * t - 2 ^ 23 ≤ sq_pat t := by
  by_cases hc : t * t < 2 ^ 47
  · right
    unfold sq_pat
    rw [if_pos hc]
    have h3 := rne_shift_ge (t * t) 23
    have h5 : 2 * t - 2 ^ 23 ≤ t * t / 2 ^ 23 := by
      apply (Nat.le_div_iff_mul_le (by positivity)).2
      obtain ⟨a, rfl⟩ : ∃ a, t = 2 ^ 23 + a := ⟨t - 2 ^ 23, by omega⟩
      have : (2 ^ 23 + a) * (2 ^ 23 + a) = 2 ^ 46 + 2 ^ 24 * a + a * a := by ring
      rw [this]
      have : 2 * (2 ^ 23 + a) - 2 ^ 23 = 2 ^ 23 + 2 * a := by omega
      rw [this]
      have : (2 ^ 23 + 2 * a) * 2 ^ 23 = 2 ^ 46 + 2 ^ 24 * a := by ring
      rw [this]
      omega
    omega
  · left
    exact sq_pat_ge_two t hc

theorem sq_pat_mono (t t' : Nat) (h : t ≤ t') :
    sq_pat t ≤ sq_pat t' := by
  have hm : t * t ≤ t' * t' := Nat.mul_le_mul h h
  by_cases hc' : t' * t' < 2 ^ 47
  · have hc : t * t < 2 ^ 47 := by omega
    unfold sq_pat
    rw [if_pos hc, if_pos hc']
    exact rne_shift_mono _ _ _ hm
  · by_cases hc : t * t < 2 ^ 47
    · have := sq_pat_ge_two t' hc'
      have h4 := rne_shift_le (t * t) 23
      have h6 : t * t / 2 ^ 23 < 2 ^ 24 := Nat.div_lt_of_lt_mul (by omega)
      unfold sq_pat at this ⊢
      rw [if_pos hc]
      rw [if_neg hc'] at this ⊢
      omega
    · unfold sq_pat
      rw [if_neg hc, if_neg hc']
      have := rne_shift_mono _ _ 24 hm
      omega

theorem sq_pat_one : sq_pat (2 ^ 23) = 2 ^ 23 := by decide

/-- While the squared value stays below `2.0`, its distance to `1.0` doubles each time. -/
theorem sq_iter_lower (t : Nat) (h1 : 2 ^ 23 ≤ t) (h2 : t < 3 * 2 ^ 23) : ∀ j : Nat,
    (∀ i, i < j → sq_pat^[i] t < 2 ^ 24) →
    2 ^ 23 ≤ sq_pat^[j] t ∧ sq_pat^[j] t < 3 * 2 ^ 23
      ∧ (2 ^ 24 ≤ sq_pat^[j] t ∨ 2 ^ 23 + 2 ^ j * (t - 2 ^ 23) ≤ sq_pat^[j] t) := by
  intro j
  induction j with
  | zero =>
    intro _
    simp only [Function.iterate_zero, id_eq, pow_zero, one_mul]
    omega
  | succ j ih =>
    intro h
    have hj := h j (Nat.lt_succ_self j)
    obtain ⟨a1, a2, a3⟩ := ih (fun i hi => h i (Nat.lt_succ_of_lt hi))
    rw [Function.iterate_succ_apply']
    obtain ⟨b1, b2⟩ := sq_pat_range _ a1 hj
    refine ⟨b1, b2, ?_⟩
    rcases sq_pat_grow _ a1 with g | g
    · left; exact g
    · right
      have a4 : 2 ^ 23 + 2 ^ j * (t - 2 ^ 23) ≤ sq_pat^[j] t := by omega
      have e : 2 ^ (j + 1) * (t - 2 ^ 23) = 2 * (2 ^ j * (t - 2 ^ 23)) := by
        rw [pow_succ]; ring
      rw [e]
      omega

/-- Starting strictly above `1.0`, at most 23 squarings reach `2.0`. -/
theorem sq_iter_reaches (t : Nat) (h1 : 2 ^ 23 < t) :
    ∃ k, k ≤ 23 ∧ 2 ^ 24 ≤ sq_pat^[k] t := by
  by_contra hne
  push_neg at hne
  have hall : ∀ i, i < 24 → sq_pat^[i] t < 2 ^ 24 := fun i hi => hne i (by omega)
  obtain ⟨_, _, a3⟩ := sq_iter_lower t (le_of_lt h1) (by have := hall 0 (by norm_num); simp only [Function.iterate_zero, id_eq] at this; omega) 23 (fun i hi => hall i (by omega))
  have h23 := hall 23 (by norm_num)
  have : 2 ^ 23 * 1 ≤ 2 ^ 23 * (t - 2 ^ 23) := Nat.mul_le_mul_left _ (by omega)
  omega

/-- The `while` loop of `log2_step` from a pattern in `[1, 4)`, when `k` squarings are
needed to reach `2.0`. -/
theorem log2_step_loop_run : ∀ (k t m fuel : Nat), 2 ^ 23 ≤ t → t < 3 * 2 ^ 23 →
    (∀ i, i < k → sq_pat^[i] t < 2 ^ 24) → 2 ^ 24 ≤ sq_pat^[k] t → k < fuel →
    m + k < 2 ^ 32 →
    log2_step_loop fuel (0x3f000000 + t) m
      = some (m + k, 0x3f000000 + (sq_pat^[k] t - 2 ^ 23)) := by
  intro k
  induction k with
  | zero =>
    intro t m fuel h1 h2 _ hk hf _
    obtain ⟨g, rfl⟩ : ∃ g, fuel = g + 1 := ⟨fuel - 1, by omega⟩
    simp only [Function.iterate_zero, id_eq] at hk
    unfold log2_step_loop
    rw [pat_lt_two t h1 h2, pat_half t hk h2]
    simp only [decide_eq_true_eq]
    rw [if_neg (by omega)]
    simp
  | succ k ih =>
    intro t m fuel h1 h2 hall hk hf hm
    obtain ⟨g, rfl⟩ : ∃ g, fuel = g + 1 := ⟨fuel - 1, by omega⟩
    have h0 : t < 2 ^ 24 := hall 0 (Nat.succ_pos k)
    obtain ⟨b1, b2⟩ := sq_pat_range t h1 h0
    unfold log2_step_loop
    rw [pat_lt_two t h1 h2, pat_mul_self t h1 h0]
    simp only [decide_eq_true_eq]
    rw [if_pos h0, Nat.mod_eq_of_lt (by omega)]
    have := ih (sq_pat t) (m + 1) g b1 b2
      (fun i hi => by
        have := hall (i + 1) (by omega)
        rwa [Function.iterate_succ_apply] at this)
      (by rwa [Function.iterate_succ_apply] at hk) (by omega) (by omega)
    rw [this, Function.iterate_succ_apply]
    congr 2
    omega

/-- Result of `log2_step` on a pattern strictly between `1.0` and `2.0`. -/
theorem log2_step_spec (t : Nat) (h1 : 2 ^ 23 < t) (h2 : t < 2 ^ 24) :
    ∃ k, 1 ≤ k ∧ k ≤ 23 ∧ (∀ i, i < k → sq_pat^[i] t < 2 ^ 24) ∧ 2 ^ 24 ≤ sq_pat^[k] t
      ∧ sq_pat^[k] t < 3 * 2 ^ 23
      ∧ ∀ fuel, k < fuel →
          log2_step fuel (0x3f000000 + t) = some (k, 0x3f000000 + (sq_pat^[k] t - 2 ^ 23)) := by
  classical
  have hex : ∃ k, 2 ^ 24 ≤ sq_pat^[k] t := by
    obtain ⟨k, _, hk⟩ := sq_iter_reaches t h1
    exact ⟨k, hk⟩
  let k := Nat.find hex
  have hk : 2 ^ 24 ≤ sq_pat^[k] t := Nat.find_spec hex
  have hmin : ∀ i, i < k → sq_pat^[i] t < 2 ^ 24 := fun i hi =>
    not_le.1 (Nat.find_min hex hi)
  have hk23 : k ≤ 23 := by
    obtain ⟨k', hk', h⟩ := sq_iter_reaches t h1
    exact le_trans (Nat.find_min' hex h) hk'
  have hk1 : 1 ≤ k := by
    by_contra h0
    have : k = 0 := by omega
    rw [this] at hk
    simp only [Function.iterate_zero, id_eq] at hk
    omega
  obtain ⟨_, a2, _⟩ := sq_iter_lower t (le_of_lt h1) (by omega) k hmin
  refine ⟨k, hk1, hk23, hmin, hk, a2, ?_⟩
  intro fuel hf
  unfold log2_step
  have := log2_step_loop_run k t 0 fuel (le_of_lt h1) (by omega) hmin hk hf (by omega)
  simpa using this

/-- From `1.0` the loop of `log2_step` never ends: the value stays `1.0`. -/
theorem log2_step_loop_one (fuel : Nat) : ∀ m, log2_step_loop fuel f32_one m = none := by
  have e1 : f32_one = 0x3f000000 + 2 ^ 23 := by norm_num [f32_one]
  induction fuel with
  | zero => intro m; rfl
  | succ fuel ih =>
    intro m
    unfold log2_step_loop
    rw [e1, pat_lt_two _ (le_refl _) (by norm_num), pat_mul_self _ (le_refl _) (by norm_num),
      sq_pat_one, ← e1]
    simp only [Nat.reducePow, Nat.reduceLT, decide_True, if_true]
    exact ih _

theorem step_pat_run : ∀ (k t m fuel : Nat),
    (∀ i, i < k → sq_pat^[i] t < 2 ^ 24) → 2 ^ 24 ≤ sq_pat^[k] t → k < fuel →
    step_pat fuel t m = (m + k, sq_pat^[k] t - 2 ^ 23) := by
  intro k
  induction k with
  | zero =>
    intro t m fuel _ hk hf
    obtain ⟨g, rfl⟩ : ∃ g, fuel = g + 1 := ⟨fuel - 1, by omega⟩
    simp only [Function.iterate_zero, id_eq] at hk
    unfold step_pat
    rw [if_neg (by omega)]
    simp
  | succ k ih =>
    intro t m fuel hall hk hf
    obtain ⟨g, rfl⟩ : ∃ g, fuel = g + 1 := ⟨fuel - 1, by omega⟩
    have h0 : t < 2 ^ 24 := hall 0 (Nat.succ_pos k)
    unfold step_pat
    rw [if_pos h0]
    have := ih (sq_pat t) (m + 1) g
      (fun i hi => by
        have := hall (i + 1) (by omega)
        rwa [Function.iterate_succ_apply] at this)
      (by rwa [Function.iterate_succ_apply] at hk) (by omega)
    rw [this, Function.iterate_succ_apply]
    congr 1
    omega

/-- `log2_step` on a pattern strictly between `1.0` and `2.0`, in terms of `pass_pat`. -/
theorem log2_step_pass (t : Nat) (h1 : 2 ^ 23 < t) (h2 : t < 2 ^ 24) :
    1 ≤ (pass_pat t).1 ∧ (pass_pat t).1 ≤ 23
      ∧ 2 ^ 23 ≤ (pass_pat t).2 ∧ (pass_pat t).2 < 2 ^ 24
      ∧ (pass_pat t).2 = sq_pat^[(pass_pat t).1] t - 2 ^ 23
      ∧ (∀ i, i < (pass_pat t).1 → sq_pat^[i] t < 2 ^ 24)
      ∧ 2 ^ 24 ≤ sq_pat^[(pass_pat t).1] t
      ∧ ∀ fuel, 24 ≤ fuel →
          log2_step fuel (0x3f000000 + t) = some ((pass_pat t).1, 0x3f000000 + (pass_pat t).2) := by
  obtain ⟨k, hk1, hk23, hmin, hk, hk3, hrun⟩ := log2_step_spec t h1 h2
  have hp : pass_pat t = (k, sq_pat^[k] t - 2 ^ 23) := by
    unfold pass_pat
    rw [step_pat_run k t 0 24 hmin hk (by omega)]
    simp
  rw [hp]
  refine ⟨hk1, hk23, by simp only; omega, by simp only; omega, rfl, hmin, hk, ?_⟩
  intro fuel hf
  exact hrun fuel (by omega)

/-- One pass of the `for` loop of `approx_log2` from a pattern strictly between `1.0` and
`2.0`. -/
theorem approx_log2_loop_succ (fuel n t res m : Nat) (hf : 24 ≤ fuel)
    (h1 : 2 ^ 23 < t) (h2 : t < 2 ^ 24) :
    approx_log2_loop fuel (n + 1) (0x3f000000 + t) res m
      = if (pass_pat t).2 = 2 ^ 23 then
          some ⟨f32_add res (pow_neg_two ((m + (pass_pat t).1) % 2 ^ 32)),
            [⟨0x3f000000 + t, (pass_pat t).1, 0x3f000000 + (pass_pat t).2,
              (m + (pass_pat t).1) % 2 ^ 32,
              f32_add res (pow_neg_two ((m + (pass_pat t).1) % 2 ^ 32))⟩]⟩
        else
          match approx_log2_loop fuel n (0x3f000000 + (pass_pat t).2)
              (f32_add res (pow_neg_two ((m + (pass_pat t).1) % 2 ^ 32)))
              ((m + (pass_pat t).1) % 2 ^ 32) with
          | none => none
          | some r => some ⟨r.ret,
              ⟨0x3f000000 + t, (pass_pat t).1, 0x3f000000 + (pass_pat t).2,
                (m + (pass_pat t).1) % 2 ^ 32,
                f32_add res (pow_neg_two ((m + (pass_pat t).1) % 2 ^ 32))⟩ :: r.passes⟩ := by
  obtain ⟨_, _, a1, a2, _, _, _, hrun⟩ := log2_step_pass t h1 h2
  rw [approx_log2_loop, hrun fuel hf]
  simp only
  rw [pat_eq_one _ a1 (by omega)]
  simp only [decide_eq_true_eq]

/-- The `for` loop of `approx_log2`, entered strictly between `1.0` and `2.0`, always
returns; every call of `log2_step` in it receives a value strictly between `1.0` and `2.0`. -/
theorem approx_log2_loop_total : ∀ (n t res m : Nat), 2 ^ 23 < t → t < 2 ^ 24 →
    ∃ r : Run, (∀ fuel, 24 ≤ fuel → approx_log2_loop fuel n (0x3f000000 + t) res m = some r)
      ∧ r.passes.length ≤ n
      ∧ (r.passes.length = n ∨ ∃ p, r.passes.getLast? = some p ∧ p.out = f32_one)
      ∧ ∀ p ∈ r.passes, f32_one < p.arg ∧ p.arg < f32_two ∧ 1 ≤ p.k ∧ p.k ≤ 23
          ∧ f32_one ≤ p.out ∧ p.out < f32_two := by
  intro n
  induction n with
  | zero =>
    intro t res m _ _
    refine ⟨⟨res, []⟩, fun fuel _ => rfl, by simp, Or.inl rfl, by simp⟩
  | succ n ih =>
    intro t res m h1 h2
    obtain ⟨k1, k2, a1, a2, _, _, _, _⟩ := log2_step_pass t h1 h2
    have hp : f32_one < 0x3f000000 + t ∧ 0x3f000000 + t < f32_two ∧ 1 ≤ (pass_pat t).1
        ∧ (pass_pat t).1 ≤ 23 ∧ f32_one ≤ 0x3f000000 + (pass_pat t).2
        ∧ 0x3f000000 + (pass_pat t).2 < f32_two := by
      unfold f32_one f32_two
      refine ⟨by omega, by omega, k1, k2, by omega, by omega⟩
    by_cases hone : (pass_pat t).2 = 2 ^ 23
    · refine ⟨⟨f32_add res (pow_neg_two ((m + (pass_pat t).1) % 2 ^ 32)),
            [⟨0x3f000000 + t, (pass_pat t).1, 0x3f000000 + (pass_pat t).2,
              (m + (pass_pat t).1) % 2 ^ 32,
              f32_add res (pow_neg_two ((m + (pass_pat t).1) % 2 ^ 32))⟩]⟩,
        fun fuel hf => by rw [approx_log2_loop_succ fuel n t res m hf h1 h2, if_pos hone],
        by simp, Or.inr ⟨_, rfl, ?_⟩, ?_⟩
      · show 0x3f000000 + (pass_pat t).2 = f32_one
        rw [hone]; rfl
      · intro p hpm
        simp only [List.mem_singleton] at hpm
        subst hpm
        exact hp
    · obtain ⟨r, hr, hlen, hstop, hall⟩ := ih (pass_pat t).2
        (f32_add res (pow_neg_two ((m + (pass_pat t).1) % 2 ^ 32)))
        ((m + (pass_pat t).1) % 2 ^ 32) (by omega) a2
      refine ⟨⟨r.ret, ⟨0x3f000000 + t, (pass_pat t).1, 0x3f000000 + (pass_pat t).2,
              (m + (pass_pat t).1) % 2 ^ 32,
              f32_add res (pow_neg_two ((m + (pass_pat t).1) % 2 ^ 32))⟩ :: r.passes⟩,
        fun fuel hf => by
          rw [approx_log2_loop_succ fuel n t res m hf h1 h2, if_neg hone, hr fuel hf], ?_, ?_, ?_⟩
      · simp only [List.length_cons]; omega
      · rcases hstop with hs | ⟨p, hp1, hp2⟩
        · left; simp only [List.length_cons]; omega
        · right
          refine ⟨p, ?_, hp2⟩
          simp only
          cases hrp : r.passes with
          | nil => rw [hrp] at hp1; simp at hp1
          | cons q qs =>
            rw [hrp] at hp1
            rw [List.getLast?_cons_cons]
            exact hp1
      · intro p hpm
        simp only [List.mem_cons] at hpm
        rcases hpm with rfl | hpm
        · exact hp
        · exact hall p hpm

/-- The run of `approx_log2` on any pattern. -/
theorem approx_log2_run_eq (fuel x : Nat) :
    approx_log2_run fuel x
      = if x % 2 ^ 23 = 0 then some ⟨f32_of_int (((x / 2 ^ 23 % 256 : Nat) : Int) - 127), []⟩
        else approx_log2_loop fuel 9 (0x3f000000 + (2 ^ 23 + x % 2 ^ 23))
          (f32_of_int (((x / 2 ^ 23 % 256 : Nat) : Int) - 127)) 0 := by
  unfold approx_log2_run
  rw [get_exponent_and_normalize_eq]
  simp only
  have hx : x % 2 ^ 23 < 2 ^ 23 := Nat.mod_lt _ (by positivity)
  have e : 0x3f800000 + x % 2 ^ 23 = 0x3f000000 + (2 ^ 23 + x % 2 ^ 23) := by omega
  rw [e, pat_eq_one _ (by omega) (by omega)]
  simp only [decide_eq_true_eq]
  by_cases h0 : x % 2 ^ 23 = 0
  · rw [if_pos h0, if_pos (by omega)]
  · rw [if_neg h0, if_neg (by omega)]

/-- Every run of `approx_log2` returns, after at most 9 calls of `log2_step`, each on a
value strictly between `1.0` and `2.0`. -/
theorem approx_log2_run_total (x : Nat) :
    ∃ r : Run, (∀ fuel, 24 ≤ fuel → approx_log2_run fuel x = some r)
      ∧ r.passes.length ≤ 9
      ∧ (r.passes.length = 9 ∨ r.passes = [] ∨ ∃ p, r.passes.getLast? = some p ∧ p.out = f32_one)
      ∧ ∀ p ∈ r.passes, f32_one < p.arg ∧ p.arg < f32_two ∧ 1 ≤ p.k ∧ p.k ≤ 23
          ∧ f32_one ≤ p.out ∧ p.out < f32_two := by
  have hx : x % 2 ^ 23 < 2 ^ 23 := Nat.mod_lt _ (by positivity)
  by_cases h0 : x % 2 ^ 23 = 0
  · refine ⟨⟨f32_of_int (((x / 2 ^ 23 % 256 : Nat) : Int) - 127), []⟩,
      fun fuel _ => by rw [approx_log2_run_eq, if_pos h0], by simp, Or.inr (Or.inl rfl), by simp⟩
  · obtain ⟨r, hr, hlen, hstop, hall⟩ := approx_log2_loop_total 9 (2 ^ 23 + x % 2 ^ 23)
      (f32_of_int (((x / 2 ^ 23 % 256 : Nat) : Int) - 127)) 0 (by omega) (by omega)
    refine ⟨r, fun fuel hf => by rw [approx_log2_run_eq, if_neg h0, hr fuel hf], hlen, ?_, hall⟩
    rcases hstop with h | h
    · exact Or.inl h
    · exact Or.inr (Or.inr h)

/-- Value of a pattern in `[1, 2)`. -/
theorem pat_toRat (t : Nat) (h1 : 2 ^ 23 ≤ t) (h2 : t < 2 ^ 24) :
    f32_toRat (0x3f000000 + t) = (t : ℚ) / 2 ^ 23 := by
  obtain ⟨hs, hq⟩ := pat_sig_qexp t h1 (by omega)
  obtain ⟨hsg, _, _⟩ := pat_fields t h1 (by omega)
  rw [if_pos h2] at hs hq
  unfold f32_toRat
  rw [hs, hq, hsg]
  simp only [Bool.false_eq_true, if_false, one_mul]
  rw [zpow_neg, div_eq_mul_inv]
  norm_num

/-- Value of a positive normal pattern. -/
theorem posNormal_toRat (x : Nat) (h : f32_posNormal x) :
    f32_toRat x = ((2 ^ 23 + x % 2 ^ 23 : Nat) : ℚ) * (2 : ℚ) ^ (((x / 2 ^ 23 : Nat) : Int) - 150)
    ∧ 1 ≤ x / 2 ^ 23 ∧ x / 2 ^ 23 ≤ 254 := by
  unfold f32_posNormal at h
  obtain ⟨h1, h2⟩ := h
  have hE1 : 1 ≤ x / 2 ^ 23 := (Nat.le_div_iff_mul_le (by positivity)).2 (by omega)
  have hE2 : x / 2 ^ 23 < 255 := Nat.div_lt_of_lt_mul (by omega)
  have hx : x = 0 * 2 ^ 31 + (x / 2 ^ 23) * 2 ^ 23 + x % 2 ^ 23 := by
    have := Nat.div_add_mod x (2 ^ 23)
    omega
  refine ⟨?_, hE1, by omega⟩
  have := f32_toRat_fields 0 (x / 2 ^ 23) (x % 2 ^ 23) (by norm_num) (by omega)
    (Nat.mod_lt _ (by positivity))
  rw [← hx] at this
  rw [this]
  have hne : x / 2 ^ 23 ≠ 0 := by omega
  simp only [hne, if_false, zero_ne_one, one_mul]

/-! ## The claims -/

/-- C5 (Decomposer contract): for a positive, finite, normal `v`, `get_exponent_and_normalize`
returns the float of an integer `e` (its exponent field minus 127) and overwrites the value
with `v'` such that `v' * 2^e = v` exactly and `1 ≤ v' < 2`. -/
theorem C5_decomposer_contract (v : Nat) (h : f32_posNormal v) :
    ∃ e : Int, -126 ≤ e ∧ e ≤ 127
      ∧ (get_exponent_and_normalize v).1 = f32_of_int e
      ∧ f32_toRat (get_exponent_and_normalize v).1 = (e : ℚ)
      ∧ f32_toRat (get_exponent_and_normalize v).2 * (2 : ℚ) ^ e = f32_toRat v
      ∧ 1 ≤ f32_toRat (get_exponent_and_normalize v).2
      ∧ f32_toRat (get_exponent_and_normalize v).2 < 2 := by
  obtain ⟨hv, hE1, hE2⟩ := posNormal_toRat v h
  have hm : v % 2 ^ 23 < 2 ^ 23 := Nat.mod_lt _ (by positivity)
  have hmod : v / 2 ^ 23 % 256 = v / 2 ^ 23 := Nat.mod_eq_of_lt (by omega)
  refine ⟨((v / 2 ^ 23 : Nat) : Int) - 127, by omega, by omega, ?_, ?_, ?_, ?_, ?_⟩
  · rw [get_exponent_and_normalize_eq, hmod]
  · rw [get_exponent_and_normalize_eq, hmod]
    simp only
    rw [f32_of_int_toRat _ (by omega)]
  · rw [get_exponent_and_normalize_eq]
    simp only
    have e : 0x3f800000 + v % 2 ^ 23 = 0x3f000000 + (2 ^ 23 + v % 2 ^ 23) := by omega
    rw [e, pat_toRat _ (by omega) (by omega), hv]
    have e2 : (((v / 2 ^ 23 : Nat) : Int) - 150) = -23 + (((v / 2 ^ 23 : Nat) : Int) - 127) := by
      ring
    rw [e2, zpow_add₀ (by norm_num : (2 : ℚ) ≠ 0), zpow_neg]
    norm_num
    ring
  · rw [get_exponent_and_normalize_eq]
    simp only
    have e : 0x3f800000 + v % 2 ^ 23 = 0x3f000000 + (2 ^ 23 + v % 2 ^ 23) := by omega
    rw [e, pat_toRat _ (by omega) (by omega), le_div_iff₀ (by positivity)]
    push_cast
    have : (0 : ℚ) ≤ ((v % 2 ^ 23 : Nat) : ℚ) := Nat.cast_nonneg _
    push_cast at this
    linarith
  · rw [get_exponent_and_normalize_eq]
    simp only
    have e : 0x3f800000 + v % 2 ^ 23 = 0x3f000000 + (2 ^ 23 + v % 2 ^ 23) := by omega
    rw [e, pat_toRat _ (by omega) (by omega), div_lt_iff₀ (by positivity)]
    have : ((v % 2 ^ 23 : Nat) : ℚ) < ((2 ^ 23 : Nat) : ℚ) := Nat.cast_lt.2 hm
    push_cast at this ⊢
    linarith

/-- Witness for C5 at `v = 6.0f` (pattern `0x40c00000`). -/
theorem C5_decomposer_contract_witness :
    f32_posNormal 0x40c00000 ∧ ∃ e : Int, -126 ≤ e ∧ e ≤ 127
      ∧ (get_exponent_and_normalize 0x40c00000).1 = f32_of_int e
      ∧ f32_toRat (get_exponent_and_normalize 0x40c00000).1 = (e : ℚ)
      ∧ f32_toRat (get_exponent_and_normalize 0x40c00000).2 * (2 : ℚ) ^ e = f32_toRat 0x40c00000
      ∧ 1 ≤ f32_toRat (get_exponent_and_normalize 0x40c00000).2
      ∧ f32_toRat (get_exponent_and_normalize 0x40c00000).2 < 2 :=
  ⟨by decide, C5_decomposer_contract 0x40c00000 (by decide)⟩


/-- C1 (exactness on powers of two): for `-126 ≤ n ≤ 127` the pattern of `2^n` is
`(n + 127) * 2^23`, and `approx_log2` returns on it the float of `n`, whose value is exactly
`n`, without any pass of the loop (whatever the fuel, `log2_step` is never called); in
particular `approx_log2(4.0) = 2.0` and `approx_log2(1.0) = 0.0`. -/
theorem C1_pow2_exact (n : Int) (h1 : -126 ≤ n) (h2 : n ≤ 127) (fuel : Nat) :
    f32_posNormal ((n + 127).toNat * 2 ^ 23)
      ∧ f32_toRat ((n + 127).toNat * 2 ^ 23) = (2 : ℚ) ^ n
      ∧ approx_log2_run fuel ((n + 127).toNat * 2 ^ 23) = some ⟨f32_of_int n, []⟩
      ∧ approx_log2 fuel ((n + 127).toNat * 2 ^ 23) = some (f32_of_int n)
      ∧ f32_toRat (f32_of_int n) = (n : ℚ)
      ∧ approx_log2 fuel 0x40800000 = some 0x40000000
      ∧ approx_log2 fuel 0x3f800000 = some 0 := by
  obtain ⟨E, hE⟩ : ∃ E : Nat, (n + 127).toNat = E := ⟨_, rfl⟩
  have hE1 : 1 ≤ E := by omega
  have hE2 : E ≤ 254 := by omega
  have hn : n = (E : Int) - 127 := by omega
  have hpn : f32_posNormal (E * 2 ^ 23) := by
    unfold f32_posNormal
    constructor <;> omega
  have hdiv : E * 2 ^ 23 / 2 ^ 23 = E := Nat.mul_div_cancel _ (by positivity)
  have hmod : E * 2 ^ 23 % 2 ^ 23 = 0 := Nat.mul_mod_left _ _
  have hrun : ∀ y : Nat, y % 2 ^ 23 = 0 →
      approx_log2_run fuel y = some ⟨f32_of_int (((y / 2 ^ 23 % 256 : Nat) : Int) - 127), []⟩ := by
    intro y hy
    rw [approx_log2_run_eq, if_pos hy]
  have hrunE := hrun (E * 2 ^ 23) hmod
  rw [hdiv, Nat.mod_eq_of_lt (by omega : E < 256), ← hn] at hrunE
  rw [hE]
  refine ⟨hpn, ?_, hrunE, ?_, f32_of_int_toRat n (by omega), ?_, ?_⟩
  · obtain ⟨hv, _, _⟩ := posNormal_toRat _ hpn
    rw [hv, hdiv, hmod, hn]
    have e2 : ((E : Int) - 150) = -23 + ((E : Int) - 127) := by ring
    rw [e2, zpow_add₀ (by norm_num : (2 : ℚ) ≠ 0), zpow_neg]
    norm_num
    ring
  · unfold approx_log2
    rw [hrunE]
    rfl
  · unfold approx_log2
    rw [hrun 0x40800000 (by norm_num)]
    rfl
  · unfold approx_log2
    rw [hrun 0x3f800000 (by norm_num)]
    rfl

/-- Witness for C1 at `n = 2` (the input `4.0f`), with no fuel at all. -/
theorem C1_pow2_exact_witness :
    (-126 : Int) ≤ 2 ∧ (2 : Int) ≤ 127
      ∧ approx_log2 0 (((2 : Int) + 127).toNat * 2 ^ 23) = some (f32_of_int 2)
      ∧ f32_toRat (f32_of_int 2) = ((2 : Int) : ℚ) :=
  ⟨by decide, by decide, (C1_pow2_exact 2 (by decide) (by decide) 0).2.2.2.1,
    (C1_pow2_exact 2 (by decide) (by decide) 0).2.2.2.2.1⟩

/-- C7, counterexample: `pow_neg_two(127)` is the pattern of `+0.0`, not of `2^-127`. -/
theorem C7_counterexample :
    pow_neg_two 127 = 0 ∧ f32_toRat (pow_neg_two 127) = 0
      ∧ f32_toRat (pow_neg_two 127) ≠ (2 : ℚ) ^ (-(127 : Int)) := by
  have h0 : pow_neg_two 127 = 0 := by decide
  have hv : f32_toRat (pow_neg_two 127) = 0 := by
    rw [h0]
    simp [f32_toRat, f32_sig, f32_exp, f32_man]
  refine ⟨h0, hv, ?_⟩
  rw [hv]
  exact (zpow_ne_zero _ (by norm_num)).symm

/-- C7 (power-of-two helper, amended): for `0 ≤ m ≤ 126`, `pow_neg_two(m)` is the positive
normal pattern `(127 - m) * 2^23`, whose value is exactly `2^(-m)`. -/
theorem C7_pow_neg_two (m : Nat) (h : m ≤ 126) :
    pow_neg_two m = (127 - m) * 2 ^ 23 ∧ f32_posNormal (pow_neg_two m)
      ∧ f32_toRat (pow_neg_two m) = (2 : ℚ) ^ (-(m : Int)) := by
  have hp : pow_neg_two m = (127 - m) * 2 ^ 23 := by
    unfold pow_neg_two
    simp only [Nat.shiftLeft_eq]
    omega
  have hpn : f32_posNormal ((127 - m) * 2 ^ 23) := by
    unfold f32_posNormal
    constructor <;> omega
  rw [hp]
  refine ⟨rfl, hpn, ?_⟩
  obtain ⟨hv, _, _⟩ := posNormal_toRat _ hpn
  rw [hv, Nat.mul_div_cancel _ (by positivity), Nat.mul_mod_left]
  have e2 : (((127 - m : Nat) : Int) - 150) = -23 + (-(m : Int)) := by omega
  rw [e2, zpow_add₀ (by norm_num : (2 : ℚ) ≠ 0), zpow_neg]
  norm_num
  ring

/-- Witness for C7 at `m = 3`: `pow_neg_two(3)` is `0.125f`. -/
theorem C7_pow_neg_two_witness :
    3 ≤ 126 ∧ pow_neg_two 3 = 0x3e000000
      ∧ f32_toRat (pow_neg_two 3) = (2 : ℚ) ^ (-((3 : Nat) : Int)) :=
  ⟨by decide, (C7_pow_neg_two 3 (by decide)).1, (C7_pow_neg_two 3 (by decide)).2.2⟩

/-- Repeated squaring of a pattern in `[1, 2)`, as long as the value stays below `2.0`. -/
theorem mul_self_iter (t : Nat) (h1 : 2 ^ 23 ≤ t) (h2 : t < 2 ^ 24) : ∀ i : Nat,
    (∀ j, j < i → sq_pat^[j] t < 2 ^ 24) →
    (fun f => f32_mul f f)^[i] (0x3f000000 + t) = 0x3f000000 + sq_pat^[i] t := by
  intro i
  induction i with
  | zero => intro _; rfl
  | succ i ih =>
    intro h
    have hi := h i (Nat.lt_succ_self i)
    obtain ⟨a1, _, _⟩ := sq_iter_lower t h1 (by omega) i (fun j hj => h j (Nat.lt_succ_of_lt hj))
    rw [Function.iterate_succ_apply', Function.iterate_succ_apply',
      ih (fun j hj => h j (Nat.lt_succ_of_lt hj))]
    exact pat_mul_self _ a1 hi

/-- The floats strictly between `1.0` and `2.0` are the patterns strictly between theirs. -/
theorem between_one_two (v : Nat) (hv : v < 2 ^ 32) :
    (f32_lt f32_one v = true ∧ f32_lt v f32_two = true) ↔ (f32_one < v ∧ v < f32_two) := by
  constructor
  · rintro ⟨ha, hb⟩
    unfold f32_lt at ha hb
    simp only [Bool.and_eq_true, Bool.not_eq_true', decide_eq_true_eq] at ha hb
    obtain ⟨_, ha⟩ := ha
    obtain ⟨_, hb⟩ := hb
    have k1 : f32_key f32_one = 0x3f800000 := by decide
    have k2 : f32_key f32_two = 0x40000000 := by decide
    rw [k1] at ha
    rw [k2] at hb
    unfold f32_key f32_sign at ha hb
    unfold f32_one f32_two
    by_cases hs : v / 2 ^ 31 % 2 = 1
    · simp only [hs, decide_True, if_true] at ha
      omega
    · simp only [hs, decide_False, Bool.false_eq_true, if_false] at ha hb
      omega
  · rintro ⟨ha, hb⟩
    unfold f32_one at ha
    unfold f32_two at hb
    have e : v = 0x3f000000 + (v - 0x3f000000) := by omega
    have hb' := pat_lt_two (v - 0x3f000000) (by omega) (by omega)
    rw [← e] at hb'
    have hk := pat_key (v - 0x3f000000) (by omega) (by omega)
    have hn := (pat_not_special (v - 0x3f000000) (by omega) (by omega)).1
    rw [← e] at hk hn
    constructor
    · unfold f32_lt
      have k1 : f32_key f32_one = 0x3f800000 := by decide
      have n1 : f32_isNaN f32_one = false := by decide
      rw [k1, hk, hn, n1]
      simp only [Bool.not_false, Bool.true_and, decide_eq_true_eq]
      omega
    · rw [hb']
      simp only [decide_eq_true_eq]
      omega

/-- C6, counterexample: on exactly `1.0f` the call of `log2_step` does not complete.  The
loop condition `f < 2.0f` holds, the squaring leaves `1.0f` unchanged, and no number of
tests of the condition ends the loop. -/
theorem C6_counterexample :
    (∀ fuel, log2_step fuel f32_one = none)
      ∧ f32_lt f32_one f32_two = true ∧ f32_mul f32_one f32_one = f32_one :=
  ⟨fun fuel => log2_step_loop_one fuel 0, by decide, by decide⟩

/-- C6 (Step Reducer contract, amended): for a float `v` with `1 < v < 2`, `log2_step`
returns after `k` squarings, `1 ≤ k ≤ 23`: the value squared `i < k` times is still below
`2.0`, squared `k` times it is not, and the value left is half of that, in `[1, 2)`. -/
theorem C6_step_reducer (v : Nat) (hv : v < 2 ^ 32)
    (h1 : f32_lt f32_one v = true) (h2 : f32_lt v f32_two = true) :
    ∃ k f', 1 ≤ k ∧ k ≤ 23
      ∧ (∀ fuel, 24 ≤ fuel → log2_step fuel v = some (k, f'))
      ∧ (∀ i, i < k → f32_lt ((fun f => f32_mul f f)^[i] v) f32_two = true)
      ∧ f32_lt ((fun f => f32_mul f f)^[k] v) f32_two = false
      ∧ f' = f32_half ((fun f => f32_mul f f)^[k] v)
      ∧ f32_one ≤ f' ∧ f' < f32_two ∧ 1 ≤ f32_toRat f' ∧ f32_toRat f' < 2 := by
  obtain ⟨ha, hb⟩ := (between_one_two v hv).1 ⟨h1, h2⟩
  unfold f32_one at ha
  unfold f32_two at hb
  obtain ⟨t, rfl⟩ : ∃ t, v = 0x3f000000 + t := ⟨v - 0x3f000000, by omega⟩
  have t1 : 2 ^ 23 < t := by omega
  have t2 : t < 2 ^ 24 := by omega
  obtain ⟨k1, k2, a1, a2, a3, hmin, hk, hrun⟩ := log2_step_pass t t1 t2
  obtain ⟨_, b2, _⟩ := sq_iter_lower t (le_of_lt t1) (by omega) (pass_pat t).1 hmin
  refine ⟨(pass_pat t).1, 0x3f000000 + (pass_pat t).2, k1, k2, hrun, ?_, ?_, ?_, ?_, ?_, ?_, ?_⟩
  · intro i hi
    obtain ⟨c1, c2, _⟩ := sq_iter_lower t (le_of_lt t1) (by omega) i
      (fun j hj => hmin j (lt_trans hj hi))
    rw [mul_self_iter t (le_of_lt t1) t2 i (fun j hj => hmin j (lt_trans hj hi)),
      pat_lt_two _ c1 c2]
    simp only [decide_eq_true_eq]
    exact hmin i hi
  · rw [mul_self_iter t (le_of_lt t1) t2 _ hmin, pat_lt_two _ (by omega) b2]
    simp only [decide_eq_false_iff_not]
    omega
  · rw [mul_self_iter t (le_of_lt t1) t2 _ hmin, pat_half _ hk b2, a3]
  · unfold f32_one; omega
  · unfold f32_two; omega
  · rw [pat_toRat _ a1 a2, le_div_iff₀ (by positivity)]
    have : ((2 ^ 23 : Nat) : ℚ) ≤ (((pass_pat t).2 : Nat) : ℚ) := Nat.cast_le.2 a1
    push_cast at this
    linarith
  · rw [pat_toRat _ a1 a2, div_lt_iff₀ (by positivity)]
    have : (((pass_pat t).2 : Nat) : ℚ) < ((2 ^ 24 : Nat) : ℚ) := Nat.cast_lt.2 a2
    push_cast at this
    linarith

/-- Witness for C6 at `v = 1.5f` (pattern `0x3fc00000`): one squaring gives `2.25`. -/
theorem C6_step_reducer_witness :
    0x3fc00000 < 2 ^ 32 ∧ f32_lt f32_one 0x3fc00000 = true ∧ f32_lt 0x3fc00000 f32_two = true
      ∧ ∃ k f', 1 ≤ k ∧ k ≤ 23
      ∧ (∀ fuel, 24 ≤ fuel → log2_step fuel 0x3fc00000 = some (k, f'))
      ∧ (∀ i, i < k → f32_lt ((fun f => f32_mul f f)^[i] 0x3fc00000) f32_two = true)
      ∧ f32_lt ((fun f => f32_mul f f)^[k] 0x3fc00000) f32_two = false
      ∧ f' = f32_half ((fun f => f32_mul f f)^[k] 0x3fc00000)
      ∧ f32_one ≤ f' ∧ f' < f32_two ∧ 1 ≤ f32_toRat f' ∧ f32_toRat f' < 2 :=
  ⟨by decide, by decide, by decide, C6_step_reducer 0x3fc00000 (by decide) (by decide) (by decide)⟩

/-- C10 (loop invariant of the Accumulator): for every input pattern, each value handed to
`log2_step` inside `approx_log2` is strictly greater than `1.0` and strictly less than
`2.0`, so `log2_step` is never entered on exactly `1.0`. -/
theorem C10_loop_invariant (x : Nat) :
    ∃ r : Run, (∀ fuel, 24 ≤ fuel → approx_log2_run fuel x = some r)
      ∧ ∀ p ∈ r.passes, f32_lt f32_one p.arg = true ∧ f32_lt p.arg f32_two = true
          ∧ f32_eq p.arg f32_one = false
          ∧ 1 < f32_toRat p.arg ∧ f32_toRat p.arg < 2 := by
  obtain ⟨r, hr, _, _, hall⟩ := approx_log2_run_total x
  refine ⟨r, hr, ?_⟩
  intro p hp
  obtain ⟨ha, hb, _⟩ := hall p hp
  have hlt := (between_one_two p.arg (by unfold f32_two at hb; omega)).2 ⟨ha, hb⟩
  unfold f32_one at ha
  unfold f32_two at hb
  obtain ⟨t, ht⟩ : ∃ t, p.arg = 0x3f000000 + t := ⟨p.arg - 0x3f000000, by omega⟩
  have t1 : 2 ^ 23 < t := by omega
  have t2 : t < 2 ^ 24 := by omega
  refine ⟨hlt.1, hlt.2, ?_, ?_, ?_⟩
  · rw [ht, pat_eq_one _ (le_of_lt t1) (by omega)]
    simp only [decide_eq_false_iff_not]
    omega
  · rw [ht, pat_toRat _ (le_of_lt t1) t2, lt_div_iff₀ (by positivity)]
    have : ((2 ^ 23 : Nat) : ℚ) < ((t : Nat) : ℚ) := Nat.cast_lt.2 t1
    push_cast at this
    linarith
  · rw [ht, pat_toRat _ (le_of_lt t1) t2, div_lt_iff₀ (by positivity)]
    have : ((t : Nat) : ℚ) < ((2 ^ 24 : Nat) : ℚ) := Nat.cast_lt.2 t2
    push_cast at this
    linarith

set_option maxRecDepth 20000 in
/-- The run of `approx_log2` on `1.2345f`, evaluated with 24 units of fuel. -/
theorem run_sample :
    approx_log2_run 24 0x3F9E0419 = some ⟨0x3e9b9c00,
      [⟨0x3f9e0419, 2, 0x3f94a49b, 2, 0x3e800000⟩,
       ⟨0x3f94a49b, 3, 0x3fd3ab11, 5, 0x3e900000⟩,
       ⟨0x3fd3ab11, 1, 0x3faf0370, 6, 0x3e980000⟩,
       ⟨0x3faf0370, 2, 0x3fdfaddf, 8, 0x3e9a0000⟩,
       ⟨0x3fdfaddf, 1, 0x3fc37061, 9, 0x3e9b0000⟩,
       ⟨0x3fc37061, 1, 0x3f953465, 10, 0x3e9b8000⟩,
       ⟨0x3f953465, 3, 0x3fda26f3, 13, 0x3e9b9000⟩,
       ⟨0x3fda26f3, 1, 0x3fb9e65c, 14, 0x3e9b9800⟩,
       ⟨0x3fb9e65c, 1, 0x3f86fec0, 15, 0x3e9b9c00⟩]⟩ := by
  decide

/-- C9 (concrete scenario): `0x3F9E0419` is the binary32 nearest to `1.2345`; on it
`approx_log2` returns the pattern `0x3e9b9c00`, whose value `9959 / 32768` is within `2^-9`
of `0.30392596`. -/
theorem C9_sample_input :
    (|f32_toRat 0x3F9E0419 - 12345 / 10000| < |f32_toRat (0x3F9E0419 - 1) - 12345 / 10000|
      ∧ |f32_toRat 0x3F9E0419 - 12345 / 10000| < |f32_toRat (0x3F9E0419 + 1) - 12345 / 10000|)
      ∧ (∀ fuel, 24 ≤ fuel → approx_log2 fuel 0x3F9E0419 = some 0x3e9b9c00)
      ∧ f32_toRat 0x3e9b9c00 = 9959 / 32768
      ∧ |f32_toRat 0x3e9b9c00 - 30392596 / 100000000| < (2 : ℚ) ^ (-(9 : Int)) := by
  have v0 : f32_toRat 0x3F9E0419 = 10355737 / 2 ^ 23 := by
    have e : (0x3F9E0419 : Nat) = 0x3f000000 + 10355737 := by norm_num
    rw [e, pat_toRat 10355737 (by norm_num) (by norm_num)]
    norm_num
  have v1 : f32_toRat (0x3F9E0419 - 1) = 10355736 / 2 ^ 23 := by
    have e : ((0x3F9E0419 - 1) : Nat) = 0x3f000000 + 10355736 := by norm_num
    rw [e, pat_toRat 10355736 (by norm_num) (by norm_num)]
    norm_num
  have v2 : f32_toRat (0x3F9E0419 + 1) = 10355738 / 2 ^ 23 := by
    have e : ((0x3F9E0419 + 1) : Nat) = 0x3f000000 + 10355738 := by norm_num
    rw [e, pat_toRat 10355738 (by norm_num) (by norm_num)]
    norm_num
  have vr : f32_toRat 0x3e9b9c00 = 9959 / 32768 := by
    have e : (0x3e9b9c00 : Nat) = 0 * 2 ^ 31 + 125 * 2 ^ 23 + 1809408 := by norm_num
    rw [e, f32_toRat_fields 0 125 1809408 (by norm_num) (by norm_num) (by norm_num)]
    norm_num
  refine ⟨⟨?_, ?_⟩, ?_, vr, ?_⟩
  · rw [v0, v1]
    norm_num [abs_lt, abs_of_neg, abs_of_pos]
  · rw [v0, v2]
    norm_num [abs_lt, abs_of_neg, abs_of_pos]
  · intro fuel hf
    obtain ⟨r, hr, _⟩ := approx_log2_run_total 0x3F9E0419
    have h24 := hr 24 (le_refl _)
    rw [run_sample] at h24
    unfold approx_log2
    rw [hr fuel hf, ← h24]
    rfl
  · rw [vr]
    norm_num [abs_lt]

/-- C4 (consistency of the derived function): on every input, in particular every valid
one, `approx_ln` returns the binary32 product of the result of `approx_log2` and the
constant `inv_log2_e`, which is the binary32 nearest to `0.6931471805599453`; in particular
`approx_ln(4.0)` is the binary32 product `2.0f * 0.6931471805599453f`, the pattern
`0x3fb17218`, whose value is exactly twice that of the constant. -/
theorem C4_approx_ln_consistent (x : Nat) :
    (∃ r : Nat, ∀ fuel, 24 ≤ fuel →
        approx_log2 fuel x = some r ∧ approx_ln fuel x = some (f32_mul r inv_log2_e))
      ∧ (|f32_toRat inv_log2_e - 6931471805599453 / 10 ^ 16|
            < |f32_toRat (inv_log2_e - 1) - 6931471805599453 / 10 ^ 16|
          ∧ |f32_toRat inv_log2_e - 6931471805599453 / 10 ^ 16|
            < |f32_toRat (inv_log2_e + 1) - 6931471805599453 / 10 ^ 16|)
      ∧ (∀ fuel, approx_log2 fuel 0x40800000 = some 0x40000000
          ∧ approx_ln fuel 0x40800000 = some (f32_mul 0x40000000 inv_log2_e))
      ∧ f32_mul 0x40000000 inv_log2_e = 0x3fb17218
      ∧ f32_toRat (f32_mul 0x40000000 inv_log2_e) = 2 * f32_toRat inv_log2_e := by
  have c0 : f32_toRat inv_log2_e = 11629080 / 2 ^ 24 := by
    have e : inv_log2_e = 0 * 2 ^ 31 + 126 * 2 ^ 23 + 3240472 := by norm_num [inv_log2_e]
    rw [e, f32_toRat_fields 0 126 3240472 (by norm_num) (by norm_num) (by norm_num)]
    norm_num
  have c1 : f32_toRat (inv_log2_e - 1) = 11629079 / 2 ^ 24 := by
    have e : inv_log2_e - 1 = 0 * 2 ^ 31 + 126 * 2 ^ 23 + 3240471 := by norm_num [inv_log2_e]
    rw [e, f32_toRat_fields 0 126 3240471 (by norm_num) (by norm_num) (by norm_num)]
    norm_num
  have c2 : f32_toRat (inv_log2_e + 1) = 11629081 / 2 ^ 24 := by
    have e : inv_log2_e + 1 = 0 * 2 ^ 31 + 126 * 2 ^ 23 + 3240473 := by norm_num [inv_log2_e]
    rw [e, f32_toRat_fields 0 126 3240473 (by norm_num) (by norm_num) (by norm_num)]
    norm_num
  have hm : f32_mul 0x40000000 inv_log2_e = 0x3fb17218 := by decide
  have hrun4 : ∀ fuel, approx_log2 fuel 0x40800000 = some 0x40000000 := by
    intro fuel
    unfold approx_log2
    rw [approx_log2_run_eq, if_pos (by norm_num)]
    rfl
  refine ⟨?_, ⟨?_, ?_⟩, ?_, hm, ?_⟩
  · obtain ⟨r, hr, _⟩ := approx_log2_run_total x
    refine ⟨r.ret, fun fuel hf => ?_⟩
    have h1 : approx_log2 fuel x = some r.ret := by
      unfold approx_log2
      rw [hr fuel hf]
      rfl
    refine ⟨h1, ?_⟩
    unfold approx_ln
    rw [h1]
    rfl
  · rw [c0, c1]
    norm_num [abs_lt, abs_of_neg, abs_of_pos]
  · rw [c0, c2]
    norm_num [abs_lt, abs_of_neg, abs_of_pos]
  · intro fuel
    refine ⟨hrun4 fuel, ?_⟩
    unfold approx_ln
    rw [hrun4 fuel]
    rfl
  · rw [hm, c0]
    have e : (0x3fb17218 : Nat) = 0 * 2 ^ 31 + 127 * 2 ^ 23 + 3240472 := by norm_num
    rw [e, f32_toRat_fields 0 127 3240472 (by norm_num) (by norm_num) (by norm_num)]
    norm_num

theorem budget_ok_range_spec : ∀ (d lo : Nat), budget_ok_range d lo = true →
    ∀ t, lo ≤ t → t < lo + 2 ^ d → budget_ok 9 t 0 = true := by
  intro d
  induction d with
  | zero =>
    intro lo h t h1 h2
    have : t = lo := by simp at h2; omega
    subst this
    exact h
  | succ d ih =>
    intro lo h t h1 h2
    unfold budget_ok_range at h
    simp only [Bool.and_eq_true] at h
    rw [pow_succ] at h2
    rcases Nat.lt_or_ge t (lo + 2 ^ d) with h3 | h3
    · exact ih lo h.1 t h1 h3
    · exact ih (lo + 2 ^ d) h.2 t h3 (by omega)

/-- Evaluation of `budget_ok` on the 128 offsets from `2^23 + 1 + 0` on. -/
theorem budget_ok_chunk_0 : budget_ok_range 7 (2 ^ 23 + 1 + 0) = true := by
  decide!

/-- Evaluation of `budget_ok` on the 128 offsets from `2^23 + 1 + 128` on. -/
theorem budget_ok_chunk_1 : budget_ok_range 7 (2 ^ 23 + 1 + 128) = true := by
  decide!

/-- Evaluation of `budget_ok` on the 128 offsets from `2^23 + 1 + 256` on. -/
theorem budget_ok_chunk_2 : budget_ok_range 7 (2 ^ 23 + 1 + 256) = true := by
  decide!

/-- Evaluation of `budget_ok` on the 128 offsets from `2^23 + 1 + 384` on. -/
theorem budget_ok_chunk_3 : budget_ok_range 7 (2 ^ 23 + 1 + 384) = true := by
  decide!

/-- Evaluation of `budget_ok` on the 128 offsets from `2^23 + 1 + 512` on. -/
theorem budget_ok_chunk_4 : budget_ok_range 7 (2 ^ 23 + 1 + 512) = true := by
  decide!

/-- Evaluation of `budget_ok` on the 128 offsets from `2^23 + 1 + 640` on. -/
theorem budget_ok_chunk_5 : budget_ok_range 7 (2 ^ 23 + 1 + 640) = true := by
  decide!

/-- Evaluation of `budget_ok` on the 128 offsets from `2^23 + 1 + 768` on. -/
theorem budget_ok_chunk_6 : budget_ok_range 7 (2 ^ 23 + 1 + 768) = true := by
  decide!

/-- Evaluation of `budget_ok` on the 128 offsets from `2^23 + 1 + 896` on. -/
theorem budget_ok_chunk_7 : budget_ok_range 7 (2 ^ 23 + 1 + 896) = true := by
  decide!

/-- Evaluation of `budget_ok` on the 128 offsets from `2^23 + 1 + 1024` on. -/
theorem budget_ok_chunk_8 : budget_ok_range 7 (2 ^ 23 + 1 + 1024) = true := by
  decide!

/-- Evaluation of `budget_ok` on the 128 offsets from `2^23 + 1 + 1152` on. -/
theorem budget_ok_chunk_9 : budget_ok_range 7 (2 ^ 23 + 1 + 1152) = true := by
  decide!

/-- Evaluation of `budget_ok` on the 128 offsets from `2^23 + 1 + 1280` on. -/
theorem budget_ok_chunk_10 : budget_ok_range 7 (2 ^ 23 + 1 + 1280) = true := by
  decide!

/-- Evaluation of `budget_ok` on the 128 offsets from `2^23 + 1 + 1408` on. -/
theorem budget_ok_chunk_11 : budget_ok_range 7 (2 ^ 23 + 1 + 1408) = true := by
  decide!

/-- Evaluation of `budget_ok` on the 128 offsets from `2^23 + 1 + 1536` on. -/
theorem budget_ok_chunk_12 : budget_ok_range 7 (2 ^ 23 + 1 + 1536) = true := by
  decide!

/-- Evaluation of `budget_ok` on the 128 offsets from `2^23 + 1 + 1664` on. -/
theorem budget_ok_chunk_13 : budget_ok_range 7 (2 ^ 23 + 1 + 1664) = true := by
  decide!

/-- Evaluation of `budget_ok` on the 128 offsets from `2^23 + 1 + 1792` on. -/
theorem budget_ok_chunk_14 : budget_ok_range 7 (2 ^ 23 + 1 + 1792) = true := by
  decide!

/-- Evaluation of `budget_ok` on the 128 offsets from `2^23 + 1 + 1920` on. -/
theorem budget_ok_chunk_15 : budget_ok_range 7 (2 ^ 23 + 1 + 1920) = true := by
  decide!

/-- The 2047 offsets next to `1.0` pass `budget_ok`, by evaluation in 16 chunks. -/
theorem budget_ok_small (t : Nat) (h1 : 2 ^ 23 < t) (h2 : t < 2 ^ 23 + 2 ^ 11) :
    budget_ok 9 t 0 = true := by
  have hc : ∀ i, i < 16 → budget_ok_range 7 (2 ^ 23 + 1 + 128 * i) = true := by
    intro i hi
    interval_cases i
    · exact budget_ok_chunk_0
    · exact budget_ok_chunk_1
    · exact budget_ok_chunk_2
    · exact budget_ok_chunk_3
    · exact budget_ok_chunk_4
    · exact budget_ok_chunk_5
    · exact budget_ok_chunk_6
    · exact budget_ok_chunk_7
    · exact budget_ok_chunk_8
    · exact budget_ok_chunk_9
    · exact budget_ok_chunk_10
    · exact budget_ok_chunk_11
    · exact budget_ok_chunk_12
    · exact budget_ok_chunk_13
    · exact budget_ok_chunk_14
    · exact budget_ok_chunk_15
  have hi : (t - (2 ^ 23 + 1)) / 128 < 16 := Nat.div_lt_of_lt_mul (by omega)
  exact budget_ok_range_spec 7 _ (hc _ hi) t (by omega) (by omega)

theorem budget_ok_spec : ∀ (N t m : Nat), budget_ok N t m = true →
    ∀ n, 1 ≤ n → n ≤ N → m + total_k n t + 12 * (N - n) ≤ 119 := by
  intro N
  induction N with
  | zero => intro t m _ n h1 h2; omega
  | succ N ih =>
    intro t m h n h1 h2
    unfold budget_ok at h
    simp only [Bool.and_eq_true, Bool.or_eq_true, decide_eq_true_eq, beq_iff_eq] at h
    obtain ⟨hb, hc⟩ := h
    obtain ⟨n', rfl⟩ : ∃ n', n = n' + 1 := ⟨n - 1, by omega⟩
    unfold total_k
    by_cases hone : (pass_pat t).2 = 2 ^ 23
    · rw [if_pos hone]
      omega
    · rw [if_neg hone]
      have hc' : budget_ok N (pass_pat t).2 (m + (pass_pat t).1) = true := by
        rcases hc with h | h
        · exact absurd h hone
        · exact h
      rcases Nat.eq_zero_or_pos n' with h0 | hpos
      · subst h0
        simp only [total_k]
        omega
      · have := ih _ _ hc' n' hpos (by omega)
        omega

/-- At least `2^-12` above `1.0`, twelve squarings reach `2.0`. -/
theorem pass_pat_k_le (t : Nat) (h1 : 2 ^ 23 + 2 ^ 11 ≤ t) (h2 : t < 2 ^ 24) :
    (pass_pat t).1 ≤ 12 := by
  obtain ⟨_, _, _, _, _, hmin, _, _⟩ := log2_step_pass t (by omega) h2
  by_contra hgt
  have h12 := hmin 12 (by omega)
  obtain ⟨_, _, a3⟩ := sq_iter_lower t (by omega) (by omega) 12
    (fun i hi => hmin i (by omega))
  have : 2 ^ 12 * 2 ^ 11 ≤ 2 ^ 12 * (t - 2 ^ 23) := Nat.mul_le_mul_left _ (by omega)
  omega

/-- Over at most nine passes the total number of squarings is at most `12 n + 11`. -/
theorem total_k_bound : ∀ (n t : Nat), n ≤ 9 → 2 ^ 23 < t → t < 2 ^ 24 →
    total_k n t ≤ 12 * n + 11 := by
  intro n
  induction n with
  | zero => intro t _ _ _; simp [total_k]
  | succ n ih =>
    intro t hn h1 h2
    rcases Nat.lt_or_ge t (2 ^ 23 + 2 ^ 11) with hs | hs
    · have hb := budget_ok_small t h1 hs
      have := budget_ok_spec 9 t 0 hb (n + 1) (by omega) hn
      omega
    · have hk := pass_pat_k_le t hs h2
      obtain ⟨_, _, a1, a2, _⟩ := log2_step_pass t h1 h2
      unfold total_k
      by_cases hone : (pass_pat t).2 = 2 ^ 23
      · rw [if_pos hone]; omega
      · rw [if_neg hone]
        have := ih (pass_pat t).2 (by omega) (by omega) a2
        omega

/-- Rounding to a multiple of `2^sh` moves a number by at most half of `2^sh`. -/
theorem rne_shift_err (m sh : Nat) :
    2 * (rne_shift m sh * 2 ^ sh) ≤ 2 * m + 2 ^ sh ∧ 2 * m ≤ 2 * (rne_shift m sh * 2 ^ sh) + 2 ^ sh := by
  have hD : 0 < 2 ^ sh := by positivity
  have e1 := Nat.div_add_mod m (2 ^ sh)
  have hr := Nat.mod_lt m hD
  unfold rne_shift
  simp only
  generalize m % 2 ^ sh = r at e1 hr ⊢
  generalize m / 2 ^ sh = n at e1 ⊢
  generalize 2 ^ sh = D at hD e1 hr ⊢
  have e2 : D * n = n * D := Nat.mul_comm _ _
  split
  · rename_i h
    rw [Nat.add_mul, Nat.one_mul]
    generalize n * D = p at e2
    omega
  · rename_i h
    generalize n * D = p at e2
    omega

/-- A multiple of `2^sh` is rounded to itself. -/
theorem rne_shift_exact (c sh : Nat) : rne_shift (c * 2 ^ sh) sh = c := by
  have hD : 0 < 2 ^ sh := by positivity
  unfold rne_shift
  simp only [Nat.mul_mod_left, Nat.mul_div_cancel _ hD]
  rw [if_neg]
  omega

theorem finite_not_special (x : Nat) (h : f32_finite x) :
    f32_isNaN x = false ∧ f32_isInf x = false := by
  unfold f32_finite at h
  unfold f32_isNaN f32_isInf
  simp [h]

/-- The value of a finite pattern, from its significand scaled to a smaller exponent. -/
theorem toRat_eq_scaled (x : Nat) (e : Int) (h : e ≤ f32_qexp x) :
    f32_toRat x = (f32_scaled x e : ℚ) * (2 : ℚ) ^ e := by
  unfold f32_toRat f32_scaled
  have h2 : (2 : ℚ) ^ f32_qexp x = 2 ^ (f32_qexp x - e).toNat * 2 ^ e := by
    rw [← zpow_natCast, ← zpow_add₀ (by norm_num : (2 : ℚ) ≠ 0)]
    congr 1
    omega
  rw [h2]
  split <;> push_cast <;> ring

/-- The result of rounding without overflow is finite. -/
theorem f32_round_finite (neg : Bool) (m : Nat) (e : Int) (hq : rnd_q m e ≤ 103) :
    f32_finite (f32_round neg m e) := by
  unfold f32_finite f32_round
  simp only
  by_cases hm : m = 0
  · rw [if_pos hm]
    cases neg <;> decide
  · rw [if_neg hm]
    have hno := rnd_no_overflow m e (Nat.pos_of_ne_zero hm) hq
    rw [if_neg (by omega)]
    unfold f32_exp
    simp only [Nat.reducePow, Nat.reduceMul] at hno ⊢
    cases neg <;> simp only [if_true, if_false, Bool.false_eq_true] <;> omega

/-- Error of rounding: none when the unit in the last place is not above `2^e`, else at
most half a unit in the last place. -/
theorem f32_round_err (neg : Bool) (m : Nat) (e : Int) (hm : 0 < m) (hq : rnd_q m e ≤ 103) :
    |f32_toRat (f32_round neg m e) - (if neg then -1 else 1) * (m : ℚ) * (2 : ℚ) ^ e|
      ≤ if rnd_q m e ≤ e then 0 else (2 : ℚ) ^ (rnd_q m e - 1) := by
  by_cases hqe : rnd_q m e ≤ e
  · rw [if_pos hqe, f32_round_exact neg m e hm hqe hq]
    simp
  · rw [if_neg hqe, f32_round_toRat neg m e hm (rnd_no_overflow m e hm hq)]
    unfold rnd_n
    rw [if_neg hqe]
    obtain ⟨sh, hsh⟩ : ∃ sh : Nat, (rnd_q m e - e).toNat = sh := ⟨_, rfl⟩
    have hq2 : rnd_q m e = e + sh := by omega
    have hsh1 : 1 ≤ sh := by omega
    rw [hsh, hq2]
    obtain ⟨h1, h2⟩ := rne_shift_err m sh
    generalize rne_shift m sh = n at h1 h2
    have h1q : (2 : ℚ) * (n * 2 ^ sh) ≤ 2 * m + 2 ^ sh := by exact_mod_cast h1
    have h2q : (2 : ℚ) * m ≤ 2 * (n * 2 ^ sh) + 2 ^ sh := by exact_mod_cast h2
    have hz : (2 : ℚ) ^ (e + (sh : Int)) = 2 ^ sh * 2 ^ e := by
      rw [zpow_add₀ (by norm_num : (2 : ℚ) ≠ 0), zpow_natCast]; ring
    have hz2 : (2 : ℚ) ^ (e + (sh : Int) - 1) = 2 ^ sh / 2 * 2 ^ e := by
      rw [show e + (sh : Int) - 1 = e + sh + (-1) by ring,
        zpow_add₀ (by norm_num : (2 : ℚ) ≠ 0), hz, zpow_neg, zpow_one]
      ring
    rw [hz, hz2]
    have hpos : (0 : ℚ) < 2 ^ e := by positivity
    have key : |(n : ℚ) * 2 ^ sh - m| ≤ 2 ^ sh / 2 := by
      rw [abs_le]
      constructor <;> linarith
    have e3 : (if neg = true then (-1 : ℚ) else 1) * n * (2 ^ sh * 2 ^ e)
        - (if neg = true then -1 else 1) * m * 2 ^ e
        = (if neg = true then (-1 : ℚ) else 1) * (((n : ℚ) * 2 ^ sh - m) * 2 ^ e) := by ring
    rw [e3, abs_mul, abs_mul, abs_of_pos hpos]
    have hs : |(if neg = true then (-1 : ℚ) else 1)| = 1 := by cases neg <;> simp
    rw [hs, one_mul]
    exact mul_le_mul_of_nonneg_right key (le_of_lt hpos)

/-- The sum of two finite patterns is a dyadic number on the finer of their two grids, and
`f32_add` rounds it. -/
theorem f32_add_repr (x y : Nat) (hx : f32_finite x) (hy : f32_finite y) :
    f32_toRat x + f32_toRat y
        = ((f32_scaled x (min (f32_qexp x) (f32_qexp y))
            + f32_scaled y (min (f32_qexp x) (f32_qexp y)) : Int) : ℚ)
          * (2 : ℚ) ^ (min (f32_qexp x) (f32_qexp y))
    ∧ f32_add x y
        = if f32_scaled x (min (f32_qexp x) (f32_qexp y))
              + f32_scaled y (min (f32_qexp x) (f32_qexp y)) = 0 then
            (if f32_sign x && f32_sign y then 2 ^ 31 else 0)
          else f32_round
            (decide (f32_scaled x (min (f32_qexp x) (f32_qexp y))
              + f32_scaled y (min (f32_qexp x) (f32_qexp y)) < 0))
            (f32_scaled x (min (f32_qexp x) (f32_qexp y))
              + f32_scaled y (min (f32_qexp x) (f32_qexp y))).natAbs
            (min (f32_qexp x) (f32_qexp y)) := by
  constructor
  · rw [toRat_eq_scaled x _ (min_le_left _ _), toRat_eq_scaled y _ (min_le_right _ _)]
    push_cast
    ring
  · obtain ⟨n1, i1⟩ := finite_not_special x hx
    obtain ⟨n2, i2⟩ := finite_not_special y hy
    unfold f32_add
    simp only [n1, n2, i1, i2, Bool.or_self, Bool.false_eq_true, if_false]

theorem zpow_two_lt_iff (a b : Int) : (2 : ℚ) ^ a < 2 ^ b ↔ a < b :=
  zpow_lt_zpow_iff_right₀ (by norm_num : (1 : ℚ) < 2)

theorem zpow_two_le_iff (a b : Int) : (2 : ℚ) ^ a ≤ 2 ^ b ↔ a ≤ b :=
  zpow_le_zpow_iff_right₀ (by norm_num : (1 : ℚ) < 2)

/-- A bound on the magnitude bounds the unit in the last place. -/
theorem rnd_q_le (m : Nat) (e g : Int) (hm : 0 < m) (hg : -149 ≤ g)
    (h : (m : ℚ) * (2 : ℚ) ^ e < 2 ^ (g + 24)) : rnd_q m e ≤ g := by
  obtain ⟨h1, _⟩ := ilog2_spec m hm
  have h1q : ((2 : ℚ) ^ (ilog2 m)) ≤ (m : ℚ) := by exact_mod_cast h1
  have hpos : (0 : ℚ) < 2 ^ e := by positivity
  have h2 : (2 : ℚ) ^ ((ilog2 m : Int) + e) ≤ (m : ℚ) * 2 ^ e := by
    rw [zpow_add₀ (by norm_num : (2 : ℚ) ≠ 0), zpow_natCast]
    exact mul_le_mul_of_nonneg_right h1q (le_of_lt hpos)
  have h3 := (zpow_two_lt_iff _ _).1 (lt_of_le_of_lt h2 h)
  unfold rnd_q
  omega

theorem zero_pattern_finite (b : Bool) : f32_finite (if b then 2 ^ 31 else 0)
    ∧ f32_toRat (if b then 2 ^ 31 else 0) = 0 := by
  cases b
  · refine ⟨by unfold f32_finite; decide, ?_⟩
    simp [f32_toRat, f32_sig, f32_exp, f32_man]
  · refine ⟨by unfold f32_finite; decide, ?_⟩
    simp [f32_toRat, f32_sig, f32_exp, f32_man]

theorem int_sign_natAbs (a : Int) :
    (if decide (a < 0) = true then (-1 : ℚ) else 1) * (a.natAbs : ℚ) = (a : ℚ) := by
  rcases lt_or_le a 0 with h | h
  · simp only [h, decide_True, if_true]
    have : ((a.natAbs : Int) : ℚ) = ((-a : Int) : ℚ) := by congr 1; omega
    rw [show ((a.natAbs : ℕ) : ℚ) = ((a.natAbs : Int) : ℚ) from (Int.cast_natCast _).symm, this]
    push_cast; ring
  · have hn : ¬ a < 0 := not_lt.2 h
    simp only [hn, decide_False, Bool.false_eq_true, if_false, one_mul]
    have : ((a.natAbs : Int) : ℚ) = ((a : Int) : ℚ) := by congr 1; omega
    rw [show ((a.natAbs : ℕ) : ℚ) = ((a.natAbs : Int) : ℚ) from (Int.cast_natCast _).symm, this]

theorem natAbs_cast_abs (a : Int) : ((a.natAbs : ℕ) : ℚ) = |(a : ℚ)| := by
  rw [show ((a.natAbs : ℕ) : ℚ) = ((a.natAbs : Int) : ℚ) from (Int.cast_natCast _).symm,
    Int.natCast_natAbs, Int.cast_abs]

/-- Error of `f32_add` on finite patterns whose exact sum is below `2^(g+24)` in
magnitude: at most `2^(g-1)`, and the result is finite. -/
theorem f32_add_err (x y : Nat) (g : Int) (hx : f32_finite x) (hy : f32_finite y)
    (hg1 : -149 ≤ g) (hg2 : g ≤ 103)
    (hs : |f32_toRat x + f32_toRat y| < (2 : ℚ) ^ (g + 24)) :
    f32_finite (f32_add x y)
      ∧ |f32_toRat (f32_add x y) - (f32_toRat x + f32_toRat y)| ≤ (2 : ℚ) ^ (g - 1) := by
  obtain ⟨hsum, hadd⟩ := f32_add_repr x y hx hy
  generalize min (f32_qexp x) (f32_qexp y) = e at hsum hadd
  generalize f32_scaled x e + f32_scaled y e = a at hsum hadd
  rw [hadd, hsum]
  by_cases ha : a = 0
  · rw [if_pos ha]
    obtain ⟨z1, z2⟩ := zero_pattern_finite (f32_sign x && f32_sign y)
    refine ⟨z1, ?_⟩
    rw [z2, ha]
    simp only [Int.cast_zero, zero_mul, sub_zero, abs_zero]
    positivity
  · rw [if_neg ha]
    have hm : 0 < a.natAbs := Int.natAbs_pos.2 ha
    have hpos : (0 : ℚ) < 2 ^ e := by positivity
    have hmag : (a.natAbs : ℚ) * (2 : ℚ) ^ e < 2 ^ (g + 24) := by
      rw [natAbs_cast_abs, ← abs_of_pos hpos, ← abs_mul, ← hsum]
      exact hs
    have hq := rnd_q_le a.natAbs e g hm hg1 hmag
    refine ⟨f32_round_finite _ _ _ (by omega), ?_⟩
    have herr := f32_round_err (decide (a < 0)) a.natAbs e hm (by omega)
    rw [int_sign_natAbs a] at herr
    refine le_trans herr ?_
    split
    · positivity
    · exact (zpow_two_le_iff _ _).2 (by omega)

/-- `f32_add` is exact on finite patterns whose sum is `c * 2^G` with `|c| < 2^24`. -/
theorem f32_add_exact (x y : Nat) (G c : Int) (hx : f32_finite x) (hy : f32_finite y)
    (hG1 : -149 ≤ G) (hG2 : G ≤ 103) (hc : c.natAbs < 2 ^ 24)
    (hs : f32_toRat x + f32_toRat y = (c : ℚ) * (2 : ℚ) ^ G) :
    f32_finite (f32_add x y) ∧ f32_toRat (f32_add x y) = f32_toRat x + f32_toRat y := by
  obtain ⟨hsum, hadd⟩ := f32_add_repr x y hx hy
  generalize min (f32_qexp x) (f32_qexp y) = e at hsum hadd
  generalize f32_scaled x e + f32_scaled y e = a at hsum hadd
  rw [hadd]
  by_cases ha : a = 0
  · rw [if_pos ha]
    obtain ⟨z1, z2⟩ := zero_pattern_finite (f32_sign x && f32_sign y)
    refine ⟨z1, ?_⟩
    rw [z2, hsum, ha]
    simp
  · rw [if_neg ha]
    have hm : 0 < a.natAbs := Int.natAbs_pos.2 ha
    have hpos : (0 : ℚ) < 2 ^ e := by positivity
    have hposG : (0 : ℚ) < 2 ^ G := by positivity
    have hcq : |(c : ℚ)| < 2 ^ 24 := by
      rw [← natAbs_cast_abs]
      exact_mod_cast hc
    have hmagG : (a.natAbs : ℚ) * (2 : ℚ) ^ e = |(c : ℚ)| * 2 ^ G := by
      rw [natAbs_cast_abs, ← abs_of_pos hpos, ← abs_mul, ← hsum, hs, abs_mul, abs_of_pos hposG]
    have hmag : (a.natAbs : ℚ) * (2 : ℚ) ^ e < 2 ^ (G + 24) := by
      rw [hmagG, zpow_add₀ (by norm_num : (2 : ℚ) ≠ 0), mul_comm ((2 : ℚ) ^ G)]
      exact mul_lt_mul_of_pos_right (by exact_mod_cast hcq) hposG
    have hq := rnd_q_le a.natAbs e G hm hG1 hmag
    refine ⟨f32_round_finite _ _ _ (by omega), ?_⟩
    by_cases hqe : rnd_q a.natAbs e ≤ e
    · rw [f32_round_exact _ _ _ hm hqe (by omega), int_sign_natAbs a, hsum]
    · -- the sum is a multiple of the unit in the last place
      obtain ⟨sh, hsh⟩ : ∃ sh : Nat, (rnd_q a.natAbs e - e).toNat = sh := ⟨_, rfl⟩
      obtain ⟨d, hd⟩ : ∃ d : Nat, (G - rnd_q a.natAbs e).toNat = d := ⟨_, rfl⟩
      have hq2 : rnd_q a.natAbs e = e + sh := by omega
      have hG : G = e + sh + d := by omega
      have hnat : a.natAbs = (c.natAbs * 2 ^ d) * 2 ^ sh := by
        have h1 : (a.natAbs : ℚ) * (2 : ℚ) ^ e = ((c.natAbs * 2 ^ d * 2 ^ sh : Nat) : ℚ) * 2 ^ e := by
          rw [hmagG, ← natAbs_cast_abs, hG, zpow_add₀ (by norm_num : (2 : ℚ) ≠ 0),
            zpow_add₀ (by norm_num : (2 : ℚ) ≠ 0), zpow_natCast, zpow_natCast]
          push_cast
          ring
        have h2 := mul_right_cancel₀ (ne_of_gt hpos) h1
        exact_mod_cast h2
      rw [f32_round_toRat _ _ _ hm (rnd_no_overflow _ _ hm (by omega))]
      unfold rnd_n
      rw [if_neg hqe, hsh]
      rw [hq2]
      have hr : rne_shift a.natAbs sh = c.natAbs * 2 ^ d := by
        rw [hnat]; exact rne_shift_exact _ _
      rw [hr, hsum]
      have e4 : (a : ℚ) = (if decide (a < 0) = true then (-1 : ℚ) else 1) * (a.natAbs : ℚ) :=
        (int_sign_natAbs a).symm
      rw [e4, hnat, zpow_add₀ (by norm_num : (2 : ℚ) ≠ 0), zpow_natCast]
      push_cast
      ring

/-- A relative perturbation of at most `2^-24` moves the base-2 logarithm by at most
`2^-22`. -/
theorem logb_perturb (a b : ℝ) (ha : 0 < a) (hb : |b - a| ≤ (2 : ℝ) ^ (-(24 : Int)) * a) :
    |Real.logb 2 b - Real.logb 2 a| ≤ (2 : ℝ) ^ (-(22 : Int)) := by
  have h24 : (2 : ℝ) ^ (-(24 : Int)) = 1 / 16777216 := by norm_num
  have h22 : (2 : ℝ) ^ (-(22 : Int)) = 1 / 4194304 := by norm_num
  rw [h24] at hb
  rw [h22]
  obtain ⟨hb1, hb2⟩ := abs_le.1 hb
  have hbpos : 0 < b := by nlinarith
  set w := b / a with hw
  have hwpos : 0 < w := div_pos hbpos ha
  have hw1 : w ≤ 1 + 1 / 16777216 := by
    rw [hw, div_le_iff₀ ha]; nlinarith
  have hw2 : 1 - 1 / 16777216 ≤ w := by
    rw [hw, le_div_iff₀ ha]; nlinarith
  have hlog : Real.logb 2 b - Real.logb 2 a = Real.log w / Real.log 2 := by
    rw [hw, Real.log_div (ne_of_gt hbpos) (ne_of_gt ha)]
    unfold Real.logb
    ring
  have hl2 : (1 / 2 : ℝ) < Real.log 2 := by
    have := Real.log_two_gt_d9
    norm_num at this ⊢
    linarith
  have hup : Real.log w ≤ 1 / 16777216 := by
    have := Real.log_le_sub_one_of_pos hwpos
    linarith
  have hlo : -(1 / 8388608) ≤ Real.log w := by
    have h1 := Real.one_sub_inv_le_log_of_pos hwpos
    have h2 : w⁻¹ ≤ 1 + 1 / 8388608 := by
      rw [inv_le_comm₀ hwpos (by norm_num)]
      have : ((1 : ℝ) + 1 / 8388608)⁻¹ ≤ 1 - 1 / 16777216 := by
        rw [inv_le_comm₀ (by norm_num) (by norm_num)]
        norm_num
      linarith
    linarith
  rw [hlog, abs_le]
  have hl2pos : 0 < Real.log 2 := by linarith
  constructor
  · rw [le_div_iff₀ hl2pos]
    nlinarith
  · rw [div_le_iff₀ hl2pos]
    nlinarith

theorem off_val_lt (u : Nat) (h : u ≤ 2 ^ 24) : off_val u = (u : ℚ) / 2 ^ 23 := by
  unfold off_val
  rcases Nat.lt_or_ge u (2 ^ 24) with h1 | h1
  · rw [if_pos h1]
  · have : u = 2 ^ 24 := by omega
    subst this
    norm_num

/-- The rounded square of a value in `[1, 2)` has relative error at most `2^-24`. -/
theorem off_val_sq (t : Nat) (h1 : 2 ^ 23 ≤ t) (h2 : t < 2 ^ 24) :
    |off_val (sq_pat t) - off_val t ^ 2| ≤ 1 / 16777216 * off_val t ^ 2 := by
  have hlo : 2 ^ 46 ≤ t * t := by
    have := Nat.mul_le_mul h1 h1
    omega
  have hloq : (2 : ℚ) ^ 46 ≤ (t : ℚ) * t := by exact_mod_cast hlo
  rw [off_val_lt t (le_of_lt h2)]
  by_cases hc : t * t < 2 ^ 47
  · have hsq : sq_pat t = rne_shift (t * t) 23 := by unfold sq_pat; rw [if_pos hc]
    have hle : sq_pat t ≤ 2 ^ 24 := by
      have h4 := rne_shift_le (t * t) 23
      have h6 : t * t / 2 ^ 23 < 2 ^ 24 := Nat.div_lt_of_lt_mul (by omega)
      omega
    rw [off_val_lt _ hle, hsq]
    obtain ⟨e1, e2⟩ := rne_shift_err (t * t) 23
    generalize rne_shift (t * t) 23 = n at e1 e2
    have e1q : (2 : ℚ) * (n * 2 ^ 23) ≤ 2 * (t * t) + 2 ^ 23 := by exact_mod_cast e1
    have e2q : (2 : ℚ) * (t * t) ≤ 2 * (n * 2 ^ 23) + 2 ^ 23 := by exact_mod_cast e2
    rw [abs_le]
    constructor
    · have : (n : ℚ) / 2 ^ 23 - ((t : ℚ) / 2 ^ 23) ^ 2
          = ((n : ℚ) * 2 ^ 23 - t * t) / 2 ^ 46 := by field_simp; ring
      rw [this, show ((t : ℚ) / 2 ^ 23) ^ 2 = (t : ℚ) * t / 2 ^ 46 by field_simp; ring]
      rw [le_div_iff₀ (by positivity)]
      norm_num at e1q e2q hloq ⊢
      linarith
    · have : (n : ℚ) / 2 ^ 23 - ((t : ℚ) / 2 ^ 23) ^ 2
          = ((n : ℚ) * 2 ^ 23 - t * t) / 2 ^ 46 := by field_simp; ring
      rw [this, show ((t : ℚ) / 2 ^ 23) ^ 2 = (t : ℚ) * t / 2 ^ 46 by field_simp; ring]
      rw [div_le_iff₀ (by positivity)]
      norm_num at e1q e2q hloq ⊢
      linarith
  · have hsq : sq_pat t = 2 ^ 23 + rne_shift (t * t) 24 := by unfold sq_pat; rw [if_neg hc]
    have hge : 2 ^ 24 ≤ sq_pat t := sq_pat_ge_two t hc
    have hhiq : (2 : ℚ) ^ 47 ≤ (t : ℚ) * t := by
      have : 2 ^ 47 ≤ t * t := by omega
      exact_mod_cast this
    have hov : off_val (sq_pat t) = 2 * (rne_shift (t * t) 24 : ℚ) / 2 ^ 23 := by
      unfold off_val
      rw [if_neg (by omega), hsq]
      push_cast
      ring
    rw [hov]
    obtain ⟨e1, e2⟩ := rne_shift_err (t * t) 24
    generalize rne_shift (t * t) 24 = n at e1 e2
    have e1q : (2 : ℚ) * (n * 2 ^ 24) ≤ 2 * (t * t) + 2 ^ 24 := by exact_mod_cast e1
    have e2q : (2 : ℚ) * (t * t) ≤ 2 * (n * 2 ^ 24) + 2 ^ 24 := by exact_mod_cast e2
    rw [abs_le]
    constructor
    · have : 2 * (n : ℚ) / 2 ^ 23 - ((t : ℚ) / 2 ^ 23) ^ 2
          = ((n : ℚ) * 2 ^ 24 - t * t) / 2 ^ 46 := by field_simp; ring
      rw [this, show ((t : ℚ) / 2 ^ 23) ^ 2 = (t : ℚ) * t / 2 ^ 46 by field_simp; ring]
      rw [le_div_iff₀ (by positivity)]
      norm_num at e1q e2q hhiq ⊢
      linarith
    · have : 2 * (n : ℚ) / 2 ^ 23 - ((t : ℚ) / 2 ^ 23) ^ 2
          = ((n : ℚ) * 2 ^ 24 - t * t) / 2 ^ 46 := by field_simp; ring
      rw [this, show ((t : ℚ) / 2 ^ 23) ^ 2 = (t : ℚ) * t / 2 ^ 46 by field_simp; ring]
      rw [div_le_iff₀ (by positivity)]
      norm_num at e1q e2q hhiq ⊢
      linarith

theorem off_val_pos (u : Nat) (h1 : 2 ^ 23 ≤ u) : 1 ≤ off_val u := by
  unfold off_val
  have hq : (2 : ℚ) ^ 23 ≤ (u : ℚ) := by exact_mod_cast h1
  split
  · rw [le_div_iff₀ (by positivity)]; linarith
  · rename_i h
    have h24 : (16777216 : ℚ) ≤ (u : ℚ) := by
      have : 16777216 ≤ u := by omega
      exact_mod_cast this
    rw [le_div_iff₀ (by positivity)]
    norm_num
    linarith

/-- Halving a value in `[2, 4)`. -/
theorem off_val_half (u : Nat) (h1 : 2 ^ 24 ≤ u) :
    off_val u = 2 * ((u - 2 ^ 23 : Nat) : ℚ) / 2 ^ 23 := by
  unfold off_val
  rw [if_neg (by omega), Nat.cast_sub (by omega)]
  push_cast
  ring

/-- After `i` rounded squarings below `2.0`, the logarithm is `2^i` times the initial one,
up to `2^-22 * (2^i - 1)`. -/
theorem iter_log (t : Nat) (h1 : 2 ^ 23 ≤ t) (h2 : t < 2 ^ 24) : ∀ i : Nat,
    (∀ j, j < i → sq_pat^[j] t < 2 ^ 24) →
    |Real.logb 2 ((off_val (sq_pat^[i] t) : ℚ) : ℝ) - 2 ^ i * Real.logb 2 ((off_val t : ℚ) : ℝ)|
      ≤ (2 : ℝ) ^ (-(22 : Int)) * (2 ^ i - 1) := by
  intro i
  induction i with
  | zero => intro _; simp
  | succ i ih =>
    intro h
    have hi := h i (Nat.lt_succ_self i)
    have ih' := ih (fun j hj => h j (Nat.lt_succ_of_lt hj))
    obtain ⟨a1, _, _⟩ := sq_iter_lower t h1 (by omega) i (fun j hj => h j (Nat.lt_succ_of_lt hj))
    rw [Function.iterate_succ_apply']
    generalize sq_pat^[i] t = u at hi ih' a1
    have hsq := off_val_sq u a1 hi
    have hpos : (0 : ℚ) < off_val u := lt_of_lt_of_le (by norm_num) (off_val_pos u a1)
    have hsqR : |((off_val (sq_pat u) : ℚ) : ℝ) - ((off_val u : ℚ) : ℝ) ^ 2|
        ≤ (2 : ℝ) ^ (-(24 : Int)) * ((off_val u : ℚ) : ℝ) ^ 2 := by
      have : (2 : ℝ) ^ (-(24 : Int)) = ((1 / 16777216 : ℚ) : ℝ) := by norm_num
      rw [this]
      exact_mod_cast hsq
    have hposR : (0 : ℝ) < ((off_val u : ℚ) : ℝ) ^ 2 := by
      have : (0 : ℝ) < ((off_val u : ℚ) : ℝ) := by exact_mod_cast hpos
      positivity
    have hp := logb_perturb _ _ hposR hsqR
    rw [Real.logb_pow] at hp
    have e1 : Real.logb 2 ((off_val (sq_pat u) : ℚ) : ℝ)
          - 2 ^ (i + 1) * Real.logb 2 ((off_val t : ℚ) : ℝ)
        = (Real.logb 2 ((off_val (sq_pat u) : ℚ) : ℝ) - (2 : ℕ) * Real.logb 2 ((off_val u : ℚ) : ℝ))
          + 2 * (Real.logb 2 ((off_val u : ℚ) : ℝ) - 2 ^ i * Real.logb 2 ((off_val t : ℚ) : ℝ)) := by
      push_cast
      ring
    rw [e1]
    refine le_trans (abs_add _ _) ?_
    rw [abs_mul, abs_of_pos (by norm_num : (0 : ℝ) < 2)]
    have : (2 : ℝ) ^ (-(22 : Int)) * (2 ^ (i + 1) - 1)
        = (2 : ℝ) ^ (-(22 : Int)) + 2 * ((2 : ℝ) ^ (-(22 : Int)) * (2 ^ i - 1)) := by
      rw [pow_succ]; ring
    rw [this]
    linarith

/-- One pass of `log2_step` with `k` squarings: `log2 v = 2^-k * (1 + log2 v')` up to
`2^-22 * (1 - 2^-k)`. -/
theorem pass_log (t : Nat) (h1 : 2 ^ 23 < t) (h2 : t < 2 ^ 24) :
    |Real.logb 2 ((off_val t : ℚ) : ℝ)
        - (1 + Real.logb 2 ((off_val (pass_pat t).2 : ℚ) : ℝ)) / 2 ^ (pass_pat t).1|
      ≤ (2 : ℝ) ^ (-(22 : Int)) * (1 - 1 / 2 ^ (pass_pat t).1) := by
  obtain ⟨_, _, a1, a2, a3, hmin, hk, _⟩ := log2_step_pass t h1 h2
  have hit := iter_log t (le_of_lt h1) h2 (pass_pat t).1 hmin
  have hv : ((off_val (sq_pat^[(pass_pat t).1] t) : ℚ) : ℝ)
      = 2 * ((off_val (pass_pat t).2 : ℚ) : ℝ) := by
    rw [off_val_half _ hk, ← a3, off_val_lt _ (le_of_lt a2)]
    push_cast
    ring
  have hpos : (0 : ℝ) < ((off_val (pass_pat t).2 : ℚ) : ℝ) := by
    have : (0 : ℚ) < off_val (pass_pat t).2 := lt_of_lt_of_le (by norm_num) (off_val_pos _ a1)
    exact_mod_cast this
  rw [hv, Real.logb_mul (by norm_num) (ne_of_gt hpos),
    Real.logb_self_eq_one (by norm_num)] at hit
  generalize Real.logb 2 ((off_val (pass_pat t).2 : ℚ) : ℝ) = L' at hit ⊢
  generalize Real.logb 2 ((off_val t : ℚ) : ℝ) = L at hit ⊢
  generalize (pass_pat t).1 = k at hit ⊢
  have hk2 : (0 : ℝ) < 2 ^ k := by positivity
  have e : L - (1 + L') / 2 ^ k = -((1 + L' - 2 ^ k * L) / 2 ^ k) := by
    field_simp
    ring
  rw [e, abs_neg, abs_div, abs_of_pos hk2, div_le_iff₀ hk2]
  have : (2 : ℝ) ^ (-(22 : Int)) * (1 - 1 / 2 ^ k) * 2 ^ k = (2 : ℝ) ^ (-(22 : Int)) * (2 ^ k - 1) := by
    field_simp
    ring
  rw [this]
  exact hit

/-- For `m ≤ 126`, `pow_neg_two m` is the finite pattern of `2^-m`. -/
theorem pow_neg_two_spec (m : Nat) (h : m ≤ 126) :
    f32_finite (pow_neg_two m) ∧ f32_toRat (pow_neg_two m) = 1 / 2 ^ m := by
  have hp : pow_neg_two m = (127 - m) * 2 ^ 23 := by
    unfold pow_neg_two
    simp only [Nat.shiftLeft_eq]
    omega
  have hpn : f32_posNormal ((127 - m) * 2 ^ 23) := by
    unfold f32_posNormal
    constructor <;> omega
  obtain ⟨hv, _, _⟩ := posNormal_toRat _ hpn
  rw [hp]
  constructor
  · unfold f32_finite f32_exp
    rw [Nat.mul_div_cancel _ (by positivity)]
    omega
  · rw [hv, Nat.mul_div_cancel _ (by positivity), Nat.mul_mod_left]
    have e2 : (((127 - m : Nat) : Int) - 150) = -23 + (-(m : Int)) := by omega
    rw [e2, zpow_add₀ (by norm_num : (2 : ℚ) ≠ 0), zpow_neg, zpow_neg, zpow_natCast]
    norm_num
    ring

/-- One accumulation `res += pow_neg_two(m)` on a finite accumulator of magnitude at most
140: the result is finite and off the exact sum by at most `2^-17`. -/
theorem acc_step (res m : Nat) (hres : f32_finite res) (hm1 : 1 ≤ m) (hm : m ≤ 126)
    (hb : |f32_toRat res| ≤ 140) :
    f32_finite (f32_add res (pow_neg_two m))
      ∧ |f32_toRat (f32_add res (pow_neg_two m)) - (f32_toRat res + 1 / 2 ^ m)| ≤ 1 / 2 ^ 17
      ∧ |f32_toRat (f32_add res (pow_neg_two m))| ≤ |f32_toRat res| + 1 := by
  obtain ⟨pf, pv⟩ := pow_neg_two_spec m hm
  have h1 : (0 : ℚ) < 1 / 2 ^ m := by positivity
  have h2 : (1 : ℚ) / 2 ^ m ≤ 1 / 2 := by
    rw [div_le_div_iff₀ (by positivity) (by norm_num)]
    have : (2 : ℚ) ^ 1 ≤ 2 ^ m := pow_le_pow_right₀ (by norm_num) hm1
    linarith
  generalize (1 : ℚ) / 2 ^ m = p at h1 h2 pv ⊢
  have t2 : |f32_toRat res + p| ≤ |f32_toRat res| + |p| := abs_add _ _
  rw [abs_of_pos h1] at t2
  have hs : |f32_toRat res + f32_toRat (pow_neg_two m)| < (2 : ℚ) ^ ((-16 : Int) + 24) := by
    rw [pv]
    have e8 : (2 : ℚ) ^ ((-16 : Int) + 24) = 256 := by norm_num
    rw [e8]
    linarith
  obtain ⟨f1, f2⟩ := f32_add_err res (pow_neg_two m) (-16) hres pf (by norm_num) (by norm_num) hs
  rw [pv] at f2
  have e17 : (2 : ℚ) ^ ((-16 : Int) - 1) = 1 / 2 ^ 17 := by norm_num
  rw [e17] at f2
  refine ⟨f1, f2, ?_⟩
  have t1 : f32_toRat (f32_add res (pow_neg_two m))
      = (f32_toRat (f32_add res (pow_neg_two m)) - (f32_toRat res + p))
        + (f32_toRat res + p) := by ring
  rw [t1]
  refine le_trans (abs_add _ _) ?_
  have e17' : (1 : ℚ) / 2 ^ 17 ≤ 1 / 2 := by norm_num
  linarith

theorem logb_off_val_one : Real.logb 2 ((off_val (2 ^ 23) : ℚ) : ℝ) = 0 := by
  have : off_val (2 ^ 23) = 1 := by
    rw [off_val_lt _ (by norm_num)]
    norm_num
  rw [this]
  simp

theorem cast_abs_le (a b : ℚ) (h : |a| ≤ b) : |(a : ℝ)| ≤ (b : ℝ) := by
  exact_mod_cast h

theorem abs_self_sub (x c y nd : ℝ) (h : 0 ≤ nd) : |x - x| ≤ c * (y - y) + nd := by
  rw [sub_self, abs_zero, sub_self, mul_zero, zero_add]
  exact h

/-- The arithmetic of one pass: the errors of the squarings, scaled by `A = 2^-m`, and of
the accumulation add up. -/
theorem real_step (VR LT Mi V V' L L' A B c d nd : ℝ) (hA : 0 ≤ A)
    (h1 : |L - (1 + L') * B| ≤ c * (1 - B)) (h2 : |V' - (V + A * B)| ≤ d)
    (h3 : |VR + LT * Mi - (V' + L' * (A * B))| ≤ c * (A * B - Mi) + nd) :
    |VR + LT * Mi - (V + L * A)| ≤ c * (A - Mi) + (nd + d) := by
  obtain ⟨l1, u1⟩ := abs_le.1 h1
  obtain ⟨l2, u2⟩ := abs_le.1 h2
  obtain ⟨l3, u3⟩ := abs_le.1 h3
  have l1a := mul_le_mul_of_nonneg_left l1 hA
  have u1a := mul_le_mul_of_nonneg_left u1 hA
  rw [abs_le]
  constructor
  · nlinarith
  · nlinarith

/-- Along the `for` loop of `approx_log2` the quantity `res + 2^-m * log2 f` is preserved
up to the rounding errors of the squarings (`2^-22 * (2^-m - 2^-M)` in all) and of the
accumulations (`2^-17` each). -/
theorem loop_final_inv : ∀ (n t res m : Nat), 2 ^ 23 < t → t < 2 ^ 24 → f32_finite res →
    |f32_toRat res| + n ≤ 140 → m + total_k n t ≤ 126 →
    f32_finite (loop_final n t res m).2.1
      ∧ 2 ^ 23 ≤ (loop_final n t res m).1 ∧ (loop_final n t res m).1 < 2 ^ 24
      ∧ (loop_final n t res m).2.2 = m + total_k n t
      ∧ m + pass_count n t ≤ (loop_final n t res m).2.2
      ∧ ((loop_final n t res m).1 = 2 ^ 23 ∨ pass_count n t = n)
      ∧ |(((f32_toRat (loop_final n t res m).2.1 : ℚ) : ℝ)
            + Real.logb 2 ((off_val (loop_final n t res m).1 : ℚ) : ℝ)
              * (1 / 2 ^ (loop_final n t res m).2.2))
          - (((f32_toRat res : ℚ) : ℝ) + Real.logb 2 ((off_val t : ℚ) : ℝ) * (1 / 2 ^ m))|
        ≤ (2 : ℝ) ^ (-(22 : Int)) * (1 / 2 ^ m - 1 / 2 ^ (loop_final n t res m).2.2)
          + n * (1 / 2 ^ 17) := by
  intro n
  induction n with
  | zero =>
    intro t res m h1 h2 hf _ _
    have e0 : loop_final 0 t res m = (t, res, m) := rfl
    have e1 : total_k 0 t = 0 := rfl
    have e2 : pass_count 0 t = 0 := rfl
    rw [e0, e1, e2]
    dsimp only
    refine ⟨hf, by omega, h2, by omega, by omega, Or.inr rfl, ?_⟩
    simp
  | succ n ih =>
    intro t res m h1 h2 hf hb hm
    obtain ⟨k1, k2, a1, a2, _, _, _, _⟩ := log2_step_pass t h1 h2
    have hpl := pass_log t h1 h2
    have etk : total_k (n + 1) t = (pass_pat t).1
        + (if (pass_pat t).2 = 2 ^ 23 then 0 else total_k n (pass_pat t).2) := rfl
    have epc : pass_count (n + 1) t
        = 1 + (if (pass_pat t).2 = 2 ^ 23 then 0 else pass_count n (pass_pat t).2) := rfl
    have hmk : m + (pass_pat t).1 ≤ 126 := by
      rw [etk] at hm
      omega
    have hmod : (m + (pass_pat t).1) % 2 ^ 32 = m + (pass_pat t).1 :=
      Nat.mod_eq_of_lt (by omega)
    have hn0 : (0 : ℚ) ≤ (n : ℚ) := Nat.cast_nonneg _
    have hb' : |f32_toRat res| ≤ 140 := by
      push_cast at hb
      linarith
    obtain ⟨s1, s2, s3⟩ := acc_step res (m + (pass_pat t).1) hf (by omega) hmk hb'
    have s2R := cast_abs_le _ _ s2
    push_cast at s2R
    have elf : loop_final (n + 1) t res m
        = if (pass_pat t).2 = 2 ^ 23 then
            (2 ^ 23, f32_add res (pow_neg_two (m + (pass_pat t).1)), m + (pass_pat t).1)
          else loop_final n (pass_pat t).2 (f32_add res (pow_neg_two (m + (pass_pat t).1)))
            (m + (pass_pat t).1) := by
      rw [loop_final, hmod]
    rw [elf, etk, epc]
    generalize f32_add res (pow_neg_two (m + (pass_pat t).1)) = res' at s1 s2 s3 s2R ⊢
    have hA : (0 : ℝ) ≤ 1 / 2 ^ m := by positivity
    have eAB : (1 : ℝ) / 2 ^ (m + (pass_pat t).1) = 1 / 2 ^ m * (1 / 2 ^ (pass_pat t).1) := by
      rw [pow_add]; ring
    rw [eAB] at s2R
    have hpl' : |Real.logb 2 ((off_val t : ℚ) : ℝ)
        - (1 + Real.logb 2 ((off_val (pass_pat t).2 : ℚ) : ℝ)) * (1 / 2 ^ (pass_pat t).1)|
        ≤ (2 : ℝ) ^ (-(22 : Int)) * (1 - 1 / 2 ^ (pass_pat t).1) := by
      have : (1 + Real.logb 2 ((off_val (pass_pat t).2 : ℚ) : ℝ)) * (1 / 2 ^ (pass_pat t).1)
          = (1 + Real.logb 2 ((off_val (pass_pat t).2 : ℚ) : ℝ)) / 2 ^ (pass_pat t).1 := by ring
      rw [this]
      exact hpl
    by_cases hone : (pass_pat t).2 = 2 ^ 23
    · rw [if_pos hone, if_pos hone, if_pos hone]
      dsimp only
      refine ⟨s1, le_refl _, by norm_num, by omega, by omega, Or.inl rfl, ?_⟩
      rw [hone, logb_off_val_one] at hpl'
      rw [logb_off_val_one, eAB]
      have h3 : |((f32_toRat res' : ℚ) : ℝ) + 0 * (1 / 2 ^ m * (1 / 2 ^ (pass_pat t).1))
          - (((f32_toRat res' : ℚ) : ℝ) + 0 * (1 / 2 ^ m * (1 / 2 ^ (pass_pat t).1)))|
          ≤ (2 : ℝ) ^ (-(22 : Int)) * (1 / 2 ^ m * (1 / 2 ^ (pass_pat t).1)
              - 1 / 2 ^ m * (1 / 2 ^ (pass_pat t).1)) + n * (1 / 2 ^ 17) := by
        exact abs_self_sub _ _ _ _ (mul_nonneg (Nat.cast_nonneg n) (by norm_num))
      have := real_step _ _ _ _ _ _ _ _ _ _ _ _ hA hpl' s2R h3
      have e4 : (((n + 1 : Nat) : ℝ)) * (1 / 2 ^ 17) = n * (1 / 2 ^ 17) + 1 / 2 ^ 17 := by
        push_cast; ring
      rw [e4]
      exact this
    · rw [if_neg hone, if_neg hone, if_neg hone]
      have hb2 : |f32_toRat res'| + n ≤ 140 := by
        push_cast at hb
        linarith
      have hm2 : m + (pass_pat t).1 + total_k n (pass_pat t).2 ≤ 126 := by
        rw [etk, if_neg hone] at hm
        omega
      obtain ⟨c1, c2, c3, c4, c5, c6, c7⟩ := ih (pass_pat t).2 res' (m + (pass_pat t).1)
        (by omega) a2 s1 hb2 hm2
      refine ⟨c1, c2, c3, by omega, by omega, ?_, ?_⟩
      · rcases c6 with c6 | c6
        · exact Or.inl c6
        · right; omega
      · rw [eAB] at c7
        have := real_step _ _ _ _ _ _ _ _ _ _ _ _ hA hpl' s2R c7
        have e4 : (((n + 1 : Nat) : ℝ)) * (1 / 2 ^ 17) = n * (1 / 2 ^ 17) + 1 / 2 ^ 17 := by
          push_cast; ring
        rw [e4]
        exact this

/-- The float returned by the `for` loop of `approx_log2` is the accumulator of
`loop_final`, and the number of passes is `pass_count`. -/
theorem loop_ret : ∀ (n t res m : Nat), 2 ^ 23 < t → t < 2 ^ 24 →
    ∃ r : Run, (∀ fuel, 24 ≤ fuel → approx_log2_loop fuel n (0x3f000000 + t) res m = some r)
      ∧ r.ret = (loop_final n t res m).2.1 ∧ r.passes.length = pass_count n t := by
  intro n
  induction n with
  | zero =>
    intro t res m _ _
    exact ⟨⟨res, []⟩, fun fuel _ => rfl, rfl, rfl⟩
  | succ n ih =>
    intro t res m h1 h2
    obtain ⟨_, _, a1, a2, _⟩ := log2_step_pass t h1 h2
    have elf : loop_final (n + 1) t res m
        = if (pass_pat t).2 = 2 ^ 23 then
            (2 ^ 23, f32_add res (pow_neg_two ((m + (pass_pat t).1) % 2 ^ 32)),
              (m + (pass_pat t).1) % 2 ^ 32)
          else loop_final n (pass_pat t).2
            (f32_add res (pow_neg_two ((m + (pass_pat t).1) % 2 ^ 32)))
            ((m + (pass_pat t).1) % 2 ^ 32) := rfl
    have epc : pass_count (n + 1) t
        = 1 + (if (pass_pat t).2 = 2 ^ 23 then 0 else pass_count n (pass_pat t).2) := rfl
    rw [elf, epc]
    by_cases hone : (pass_pat t).2 = 2 ^ 23
    · rw [if_pos hone, if_pos hone]
      exact ⟨⟨f32_add res (pow_neg_two ((m + (pass_pat t).1) % 2 ^ 32)),
            [⟨0x3f000000 + t, (pass_pat t).1, 0x3f000000 + (pass_pat t).2,
              (m + (pass_pat t).1) % 2 ^ 32,
              f32_add res (pow_neg_two ((m + (pass_pat t).1) % 2 ^ 32))⟩]⟩,
        fun fuel hf => by rw [approx_log2_loop_succ fuel n t res m hf h1 h2, if_pos hone],
        rfl, rfl⟩
    · rw [if_neg hone, if_neg hone]
      obtain ⟨r, hr, hret, hlen⟩ := ih (pass_pat t).2
        (f32_add res (pow_neg_two ((m + (pass_pat t).1) % 2 ^ 32)))
        ((m + (pass_pat t).1) % 2 ^ 32) (by omega) a2
      refine ⟨⟨r.ret, ⟨0x3f000000 + t, (pass_pat t).1, 0x3f000000 + (pass_pat t).2,
              (m + (pass_pat t).1) % 2 ^ 32,
              f32_add res (pow_neg_two ((m + (pass_pat t).1) % 2 ^ 32))⟩ :: r.passes⟩,
        fun fuel hf => by
          rw [approx_log2_loop_succ fuel n t res m hf h1 h2, if_neg hone, hr fuel hf],
        hret, ?_⟩
      simp only [List.length_cons, hlen]
      omega

theorem pass_count_le_total : ∀ (n t : Nat), 2 ^ 23 < t → t < 2 ^ 24 →
    pass_count n t ≤ total_k n t := by
  intro n
  induction n with
  | zero => intro t _ _; exact le_refl _
  | succ n ih =>
    intro t h1 h2
    obtain ⟨k1, _, a1, a2, _⟩ := log2_step_pass t h1 h2
    have etk : total_k (n + 1) t = (pass_pat t).1
        + (if (pass_pat t).2 = 2 ^ 23 then 0 else total_k n (pass_pat t).2) := rfl
    have epc : pass_count (n + 1) t
        = 1 + (if (pass_pat t).2 = 2 ^ 23 then 0 else pass_count n (pass_pat t).2) := rfl
    rw [etk, epc]
    by_cases hone : (pass_pat t).2 = 2 ^ 23
    · rw [if_pos hone, if_pos hone]; omega
    · rw [if_neg hone, if_neg hone]
      have := ih (pass_pat t).2 (by omega) a2
      omega

/-- When every pass makes exactly one squaring, the accumulations are exact:
`res` grows by `2^-m - 2^-(m+n)`. -/
theorem loop_final_all_ones : ∀ (n t res m : Nat) (w : Int), 2 ^ 23 < t → t < 2 ^ 24 →
    f32_finite res → total_k n t = n → pass_count n t = n →
    f32_toRat res = (w : ℚ) / 2 ^ m → w.natAbs + 1 ≤ 2 ^ (7 + m) → m + n ≤ 16 →
    f32_toRat (loop_final n t res m).2.1 = f32_toRat res + 1 / 2 ^ m - 1 / 2 ^ (m + n) := by
  intro n
  induction n with
  | zero =>
    intro t res m w _ _ _ _ _ _ _ _
    show f32_toRat res = _
    simp
  | succ n ih =>
    intro t res m w h1 h2 hf htk hpc hv hw hmn
    obtain ⟨k1, _, a1, a2, _⟩ := log2_step_pass t h1 h2
    have etk : total_k (n + 1) t = (pass_pat t).1
        + (if (pass_pat t).2 = 2 ^ 23 then 0 else total_k n (pass_pat t).2) := rfl
    have epc : pass_count (n + 1) t
        = 1 + (if (pass_pat t).2 = 2 ^ 23 then 0 else pass_count n (pass_pat t).2) := rfl
    rw [etk] at htk
    rw [epc] at hpc
    have hk : (pass_pat t).1 = 1 := by
      by_cases hone : (pass_pat t).2 = 2 ^ 23
      · rw [if_pos hone] at htk hpc; omega
      · rw [if_neg hone] at htk hpc
        have := pass_count_le_total n (pass_pat t).2 (by omega) a2
        omega
    have hmod : (m + (pass_pat t).1) % 2 ^ 32 = m + 1 := by
      rw [hk]; exact Nat.mod_eq_of_lt (by omega)
    have elf : loop_final (n + 1) t res m
        = if (pass_pat t).2 = 2 ^ 23 then
            (2 ^ 23, f32_add res (pow_neg_two (m + 1)), m + 1)
          else loop_final n (pass_pat t).2 (f32_add res (pow_neg_two (m + 1))) (m + 1) := by
      rw [loop_final, hmod]
    obtain ⟨pf, pv⟩ := pow_neg_two_spec (m + 1) (by omega)
    have hsum : f32_toRat res + f32_toRat (pow_neg_two (m + 1))
        = ((2 * w + 1 : Int) : ℚ) * (2 : ℚ) ^ (-((m + 1 : Nat) : Int)) := by
      rw [hv, pv, zpow_neg, zpow_natCast]
      push_cast
      field_simp
      ring
    have hpow : 2 ^ (7 + m) * 2 ≤ 2 ^ 24 := by
      rw [← pow_succ]
      exact Nat.pow_le_pow_right (by norm_num) (by omega)
    have hc : (2 * w + 1).natAbs < 2 ^ 24 := by omega
    obtain ⟨x1, x2⟩ := f32_add_exact res (pow_neg_two (m + 1)) (-((m + 1 : Nat) : Int))
      (2 * w + 1) hf pf (by omega) (by omega) hc hsum
    rw [pv] at x2
    rw [elf]
    by_cases hone : (pass_pat t).2 = 2 ^ 23
    · rw [if_pos hone] at htk hpc ⊢
      have hn0 : n = 0 := by omega
      subst hn0
      show f32_toRat (f32_add res (pow_neg_two (m + 1))) = _
      rw [x2]
      have : (1 : ℚ) / 2 ^ m = 2 * (1 / 2 ^ (m + 1)) := by
        rw [pow_succ]; field_simp
      rw [this]
      simp only [Nat.zero_add]
      ring
    · rw [if_neg hone] at htk hpc ⊢
      have hv' : f32_toRat (f32_add res (pow_neg_two (m + 1)))
          = ((2 * w + 1 : Int) : ℚ) / 2 ^ (m + 1) := by
        rw [x2, hv]
        push_cast
        rw [pow_succ]
        field_simp
        ring
      have hw' : (2 * w + 1).natAbs + 1 ≤ 2 ^ (7 + (m + 1)) := by
        have : 2 ^ (7 + (m + 1)) = 2 ^ (7 + m) * 2 := by rw [← pow_succ]; rfl
        omega
      have := ih (pass_pat t).2 (f32_add res (pow_neg_two (m + 1))) (m + 1) (2 * w + 1)
        (by omega) a2 x1 (by omega) (by omega) hv' hw' (by omega)
      rw [this, x2]
      have e1 : (1 : ℚ) / 2 ^ m = 2 * (1 / 2 ^ (m + 1)) := by
        rw [pow_succ]; field_simp
      have e2 : m + 1 + n = m + (n + 1) := by omega
      rw [e1, e2]
      ring

theorem f32_of_int_finite (i : Int) (h : i.natAbs < 2 ^ 24) : f32_finite (f32_of_int i) := by
  unfold f32_of_int
  rcases Nat.eq_zero_or_pos i.natAbs with h0 | hpos
  · rw [h0]
    unfold f32_round
    rw [if_pos rfl]
    exact (zero_pattern_finite _).1
  · have hl := ilog2_lt _ _ hpos h
    exact f32_round_finite _ _ _ (by unfold rnd_q; omega)

/-- Logarithm of a positive normal value: exponent plus logarithm of the normalised
mantissa. -/
theorem logb_posNormal (x : Nat) (h : f32_posNormal x) :
    Real.logb 2 ((f32_toRat x : ℚ) : ℝ)
      = (((x / 2 ^ 23 : Nat) : Int) - 127 : Int) + Real.logb 2 ((off_val (2 ^ 23 + x % 2 ^ 23) : ℚ) : ℝ) := by
  obtain ⟨hv, _, _⟩ := posNormal_toRat x h
  have hm : x % 2 ^ 23 < 2 ^ 23 := Nat.mod_lt _ (by positivity)
  have hov : off_val (2 ^ 23 + x % 2 ^ 23) = ((2 ^ 23 + x % 2 ^ 23 : Nat) : ℚ) / 2 ^ 23 :=
    off_val_lt _ (by omega)
  have hpos : (0 : ℚ) < off_val (2 ^ 23 + x % 2 ^ 23) :=
    lt_of_lt_of_le (by norm_num) (off_val_pos _ (by omega))
  have hx : f32_toRat x
      = off_val (2 ^ 23 + x % 2 ^ 23) * (2 : ℚ) ^ (((x / 2 ^ 23 : Nat) : Int) - 127) := by
    rw [hv, hov]
    have e2 : (((x / 2 ^ 23 : Nat) : Int) - 150) = (((x / 2 ^ 23 : Nat) : Int) - 127) + (-23) := by
      ring
    rw [e2, zpow_add₀ (by norm_num : (2 : ℚ) ≠ 0)]
    norm_num
    ring
  rw [hx]
  generalize (((x / 2 ^ 23 : Nat) : Int) - 127) = z
  generalize off_val (2 ^ 23 + x % 2 ^ 23) = v at hpos
  have hposR : (0 : ℝ) < ((v : ℚ) : ℝ) := by exact_mod_cast hpos
  have hc : (((v * (2 : ℚ) ^ z : ℚ)) : ℝ) = (v : ℝ) * (2 : ℝ) ^ z := by
    push_cast
    ring
  rw [hc, Real.logb_mul (ne_of_gt hposR) (by positivity)]
  have hz : Real.logb 2 ((2 : ℝ) ^ z) = (z : ℝ) := by
    unfold Real.logb
    rw [Real.log_zpow]
    have : Real.log 2 ≠ 0 := by
      have := Real.log_two_gt_d9
      have h0 : (0 : ℝ) < Real.log 2 := by linarith
      exact ne_of_gt h0
    field_simp
  rw [hz]
  ring

theorem logb_off_val_range (u : Nat) (h1 : 2 ^ 23 ≤ u) (h2 : u < 2 ^ 24) :
    0 ≤ Real.logb 2 ((off_val u : ℚ) : ℝ) ∧ Real.logb 2 ((off_val u : ℚ) : ℝ) < 1 := by
  have hlo : (1 : ℚ) ≤ off_val u := off_val_pos u h1
  have hhi : off_val u < 2 := by
    rw [off_val_lt u (le_of_lt h2), div_lt_iff₀ (by positivity)]
    have : (u : ℚ) < ((2 ^ 24 : Nat) : ℚ) := Nat.cast_lt.2 h2
    push_cast at this
    linarith
  have hloR : (1 : ℝ) ≤ ((off_val u : ℚ) : ℝ) := by exact_mod_cast hlo
  have hhiR : ((off_val u : ℚ) : ℝ) < 2 := by exact_mod_cast hhi
  constructor
  · exact Real.logb_nonneg (by norm_num) hloR
  · have := Real.logb_lt_logb (by norm_num : (1 : ℝ) < 2) (by linarith) hhiR
    rwa [Real.logb_self_eq_one (by norm_num)] at this

/-- C2 (bounded error): for every finite positive normal `x` (in particular every `x` in
`[1, 2)`), `approx_log2` returns a finite float whose value differs from the true base-2
logarithm of `x` by strictly less than `2^-9`. -/
theorem C2_bounded_error (x : Nat) (h : f32_posNormal x) :
    ∃ r : Nat, (∀ fuel, 24 ≤ fuel → approx_log2 fuel x = some r) ∧ f32_finite r
      ∧ |((f32_toRat r : ℚ) : ℝ) - Real.logb 2 ((f32_toRat x : ℚ) : ℝ)| < 1 / 2 ^ 9 := by
  obtain ⟨_, hE1, hE2⟩ := posNormal_toRat x h
  have hlog := logb_posNormal x h
  have hm : x % 2 ^ 23 < 2 ^ 23 := Nat.mod_lt _ (by positivity)
  have hmod : x / 2 ^ 23 % 256 = x / 2 ^ 23 := Nat.mod_eq_of_lt (by omega)
  have hrun : ∀ fuel, approx_log2_run fuel x
      = if x % 2 ^ 23 = 0 then some ⟨f32_of_int (((x / 2 ^ 23 : Nat) : Int) - 127), []⟩
        else approx_log2_loop fuel 9 (0x3f000000 + (2 ^ 23 + x % 2 ^ 23))
          (f32_of_int (((x / 2 ^ 23 : Nat) : Int) - 127)) 0 := by
    intro fuel
    rw [approx_log2_run_eq, hmod]
  generalize he : (((x / 2 ^ 23 : Nat) : Int) - 127) = e at hlog hrun
  have heb : e.natAbs ≤ 127 := by omega
  have hfin := f32_of_int_finite e (by omega)
  have hval := f32_of_int_toRat e (by omega)
  by_cases h0 : x % 2 ^ 23 = 0
  · refine ⟨f32_of_int e, fun fuel _ => ?_, hfin, ?_⟩
    · unfold approx_log2
      rw [hrun, if_pos h0]
      rfl
    · rw [hlog, h0, hval]
      simp only [Nat.add_zero]
      rw [logb_off_val_one]
      simp
  · have t1 : 2 ^ 23 < 2 ^ 23 + x % 2 ^ 23 := by omega
    have t2 : 2 ^ 23 + x % 2 ^ 23 < 2 ^ 24 := by omega
    generalize 2 ^ 23 + x % 2 ^ 23 = t at hlog hrun t1 t2
    obtain ⟨r, hr, hret, _⟩ := loop_ret 9 t (f32_of_int e) 0 t1 t2
    have hbnd := total_k_bound 9 t (le_refl _) t1 t2
    have habs : |f32_toRat (f32_of_int e)| + ((9 : Nat) : ℚ) ≤ 140 := by
      rw [hval]
      have : |(e : ℚ)| ≤ 127 := by
        rw [← natAbs_cast_abs]
        exact_mod_cast heb
      push_cast
      linarith
    obtain ⟨c1, c2, c3, c4, c5, c6, c7⟩ := loop_final_inv 9 t (f32_of_int e) 0 t1 t2 hfin habs
      (by omega)
    refine ⟨r.ret, fun fuel hf => ?_, by rw [hret]; exact c1, ?_⟩
    · unfold approx_log2
      rw [hrun, if_neg h0, hr fuel hf]
      rfl
    · obtain ⟨l1, l2⟩ := logb_off_val_range t (le_of_lt t1) t2
      obtain ⟨q1, q2⟩ := logb_off_val_range _ c2 c3
      rw [hret, hlog]
      rw [hval] at c7
      have hc22 : (2 : ℝ) ^ (-(22 : Int)) = 1 / 4194304 := by norm_num
      rw [hc22] at c7
      simp only [Nat.zero_add, pow_zero, div_one, mul_one] at c7 c4 c5
      generalize hM : (loop_final 9 t (f32_of_int e) 0).2.2 = M at c4 c5 c7
      generalize hVR : ((f32_toRat (loop_final 9 t (f32_of_int e) 0).2.1 : ℚ) : ℝ) = VR at c7
      generalize hLT : Real.logb 2 ((off_val (loop_final 9 t (f32_of_int e) 0).1 : ℚ) : ℝ) = LT
        at c7 q1 q2
      generalize hL0 : Real.logb 2 ((off_val t : ℚ) : ℝ) = L0 at c7 l1 l2
      have hMpos : (0 : ℝ) < 1 / 2 ^ M := by positivity
      have hu10 : 9 < M → (1 : ℝ) / 2 ^ M ≤ 1 / 1024 := by
        intro hM10
        have : (1 : ℝ) / 2 ^ M ≤ 1 / 2 ^ 10 := by
          apply one_div_le_one_div_of_le (by positivity)
          exact pow_le_pow_right₀ (by norm_num) hM10
        norm_num at this ⊢
        exact this
      have e9 : ((9 : Nat) : ℝ) * (1 / 2 ^ 17) = 9 / 131072 := by norm_num
      rw [e9] at c7
      have e0 : (((e : ℚ)) : ℝ) = (e : ℝ) := by push_cast; rfl
      rw [e0] at c7
      generalize (1 : ℝ) / 2 ^ M = u at c7 hMpos hu10
      obtain ⟨c7l, c7u⟩ := abs_le.1 c7
      have hprod : 0 ≤ LT * u := mul_nonneg q1 (le_of_lt hMpos)
      have hprod2 : LT * u ≤ u := by nlinarith
      rw [abs_lt]
      constructor
      · -- lower bound
        rcases c6 with hT | hcount
        · rw [hT, logb_off_val_one] at hLT
          rw [← hLT] at c7l c7u
          norm_num at c7l ⊢
          linarith
        · rcases Nat.lt_or_ge 9 M with hM10 | hM9
          · have hu := hu10 hM10
            norm_num at c7l ⊢
            linarith
          · have hM9' : M = 9 := by omega
            have htk : total_k 9 t = 9 := by omega
            have hex := loop_final_all_ones 9 t (f32_of_int e) 0 e t1 t2 hfin htk hcount
              (by rw [hval]; simp) (by simp only [Nat.add_zero]; omega) (by norm_num)
            rw [hval] at hex
            have hexR : VR = (e : ℝ) + 1 / 2 ^ 0 - 1 / 2 ^ (0 + 9) := by
              rw [← hVR, hex]
              push_cast
              ring
            rw [hexR]
            norm_num
            linarith
      · -- upper bound
        norm_num at c7u ⊢
        linarith

/-- Witness for C2 at `x = 1.5f` (pattern `0x3fc00000`). -/
theorem C2_bounded_error_witness :
    f32_posNormal 0x3fc00000 ∧ ∃ r : Nat,
      (∀ fuel, 24 ≤ fuel → approx_log2 fuel 0x3fc00000 = some r) ∧ f32_finite r
      ∧ |((f32_toRat r : ℚ) : ℝ) - Real.logb 2 ((f32_toRat 0x3fc00000 : ℚ) : ℝ)| < 1 / 2 ^ 9 :=
  ⟨by decide, C2_bounded_error 0x3fc00000 (by decide)⟩

/-! ## Monotonicity -/

/-- Rounding when the remainder is below one half of the unit. -/
theorem rne_shift_lo (c r sh : Nat) (h : 2 * r < 2 ^ sh) : rne_shift (c * 2 ^ sh + r) sh = c := by
  have hp : 0 < 2 ^ sh := by positivity
  have hr : r < 2 ^ sh := by omega
  unfold rne_shift
  have h1 : (c * 2 ^ sh + r) / 2 ^ sh = c := by
    rw [Nat.add_comm, Nat.add_mul_div_right _ _ hp, Nat.div_eq_of_lt hr, Nat.zero_add]
  have h2 : (c * 2 ^ sh + r) % 2 ^ sh = r := by
    rw [Nat.add_comm, Nat.add_mul_mod_self_right, Nat.mod_eq_of_lt hr]
  simp only [h1, h2]
  rw [if_neg (by omega)]

/-- Rounding when the remainder is above one half of the unit. -/
theorem rne_shift_hi (c r sh : Nat) (h1 : 2 ^ sh < 2 * r) (h2 : r < 2 ^ sh) :
    rne_shift (c * 2 ^ sh + r) sh = c + 1 := by
  have hp : 0 < 2 ^ sh := by positivity
  unfold rne_shift
  have e1 : (c * 2 ^ sh + r) / 2 ^ sh = c := by
    rw [Nat.add_comm, Nat.add_mul_div_right _ _ hp, Nat.div_eq_of_lt h2, Nat.zero_add]
  have e2 : (c * 2 ^ sh + r) % 2 ^ sh = r := by
    rw [Nat.add_comm, Nat.add_mul_mod_self_right, Nat.mod_eq_of_lt h2]
  simp only [e1, e2]
  rw [if_pos (Or.inl h1)]

/-- Rounding at a tie goes to the even neighbour. -/
theorem rne_shift_tie (c r sh : Nat) (h : 2 * r = 2 ^ sh) :
    rne_shift (c * 2 ^ sh + r) sh = c + c % 2 := by
  have hp : 0 < 2 ^ sh := by positivity
  have hr : r < 2 ^ sh := by omega
  unfold rne_shift
  have e1 : (c * 2 ^ sh + r) / 2 ^ sh = c := by
    rw [Nat.add_comm, Nat.add_mul_div_right _ _ hp, Nat.div_eq_of_lt hr, Nat.zero_add]
  have e2 : (c * 2 ^ sh + r) % 2 ^ sh = r := by
    rw [Nat.add_comm, Nat.add_mul_mod_self_right, Nat.mod_eq_of_lt hr]
  simp only [e1, e2]
  by_cases hc : c % 2 = 1
  · rw [if_pos (Or.inr ⟨h, hc⟩), hc]
  · rw [if_neg (by omega)]
    omega

/-- Decomposition of a 32-bit pattern into its three fields. -/
theorem f32_decomp (x : Nat) (hx : x < 2 ^ 32) :
    x = (if f32_sign x then 1 else 0) * 2 ^ 31 + f32_exp x * 2 ^ 23 + f32_man x
      ∧ f32_exp x < 256 ∧ f32_man x < 2 ^ 23 := by
  unfold f32_sign f32_exp f32_man
  refine ⟨?_, by omega, by omega⟩
  by_cases h : x / 2 ^ 31 % 2 = 1
  · simp only [h, decide_True, if_true]
    omega
  · simp only [h, decide_False, Bool.false_eq_true, if_false]
    omega

/-- Fields of the pattern built by `pow_neg_two`. -/
theorem pow_neg_two_fields (m : Nat) (h : m ≤ 126) :
    f32_sign (pow_neg_two m) = false ∧ f32_sig (pow_neg_two m) = 2 ^ 23
      ∧ f32_qexp (pow_neg_two m) = -23 - (m : Int) ∧ f32_isNaN (pow_neg_two m) = false
      ∧ f32_isInf (pow_neg_two m) = false := by
  have hp : pow_neg_two m = 0 * 2 ^ 31 + (127 - m) * 2 ^ 23 + 0 := by
    unfold pow_neg_two
    simp only [Nat.shiftLeft_eq]
    omega
  obtain ⟨f1, f2, f3⟩ := f32_fields 0 (127 - m) 0 (by omega) (by omega) (by positivity)
  rw [← hp] at f1 f2 f3
  have hE : f32_exp (pow_neg_two m) ≠ 0 := by omega
  refine ⟨by simpa using f1, ?_, ?_, ?_, ?_⟩
  · unfold f32_sig; rw [if_neg hE, f3, Nat.add_zero]
  · unfold f32_qexp; rw [if_neg hE, f2]; omega
  · unfold f32_isNaN; rw [f3]; simp
  · unfold f32_isInf; rw [f2]
    have : ¬ (127 - m = 255) := by omega
    simp [this]

/-- Adding a power of two that is at most a quarter of the unit in the last place of a finite
pattern gives back the pattern. -/
theorem f32_add_tiny (S m : Nat) (hS : S < 2 ^ 32) (hf : f32_finite S) (hm : m ≤ 126)
    (h : -(m : Int) ≤ f32_qexp S - 2) : f32_add S (pow_neg_two m) = S := by
  obtain ⟨hdec, hE, ha⟩ := f32_decomp S hS
  obtain ⟨ys, ysig, yq, ynan, yinf⟩ := pow_neg_two_fields m hm
  obtain ⟨xnan, xinf⟩ := finite_not_special S hf
  have hE0 : f32_exp S ≠ 0 := by
    intro h0
    unfold f32_qexp at h
    rw [if_pos h0] at h
    omega
  have hq : f32_qexp S = (f32_exp S : Int) - 150 := by unfold f32_qexp; rw [if_neg hE0]
  have hsig : f32_sig S = 2 ^ 23 + f32_man S := by unfold f32_sig; rw [if_neg hE0]
  have hfin : f32_exp S ≠ 255 := hf
  rw [hq] at h
  obtain ⟨j, hj⟩ : ∃ j : Nat, f32_exp S + m = 152 + j := ⟨f32_exp S + m - 152, by omega⟩
  have hmin : min (f32_qexp S) (f32_qexp (pow_neg_two m)) = -23 - (m : Int) := by
    rw [hq, yq]; omega
  unfold f32_add
  simp only [xnan, ynan, xinf, yinf, Bool.or_self, Bool.false_eq_true, if_false, hmin]
  unfold f32_scaled
  have e1 : (f32_qexp S - (-23 - (m : Int))).toNat = 25 + j := by rw [hq]; omega
  have e2 : (f32_qexp (pow_neg_two m) - (-23 - (m : Int))).toNat = 0 := by rw [yq]; omega
  simp only [e1, e2, ys, ysig, hsig, Bool.false_eq_true, if_false, pow_zero, Nat.mul_one, one_mul]
  generalize hW : 2 ^ j = W
  have hWpos : 1 ≤ W := by rw [← hW]; exact Nat.one_le_two_pow
  have hpow : (2 : Nat) ^ (25 + j) = 2 ^ 25 * W := by rw [pow_add, hW]
  generalize hman : f32_man S = a at *
  generalize hexp : f32_exp S = E at *
  have hp48 : (2 : Nat) ^ (48 + j) = 2 ^ 48 * W := by rw [pow_add, hW]
  have hp49 : (2 : Nat) ^ (48 + j + 1) = 2 ^ 49 * W := by
    rw [show 48 + j + 1 = 49 + j by omega, pow_add, hW]
  have hp47 : (2 : Nat) ^ (47 + j) = 2 ^ 47 * W := by rw [pow_add, hW]
  have hp24 : (2 : Nat) ^ (24 + j) = 2 ^ 24 * W := by rw [pow_add, hW]
  have hX0 : (2 ^ 23 + a) * 2 ^ (25 + j) = 2 ^ 48 * W + a * (2 ^ 25 * W) := by
    rw [hpow]; ring
  have hX2 : a * (2 ^ 25 * W) + 2 ^ 25 * W ≤ 2 ^ 48 * W := by
    have := Nat.mul_le_mul_right (2 ^ 25 * W) (show a + 1 ≤ 2 ^ 23 by omega)
    have e : (a + 1) * (2 ^ 25 * W) = a * (2 ^ 25 * W) + 2 ^ 25 * W := by ring
    have e' : (2 : Nat) ^ 23 * (2 ^ 25 * W) = 2 ^ 48 * W := by ring
    omega
  have hX3 : 0 < a → 2 ^ 25 * W ≤ a * (2 ^ 25 * W) := by
    intro h0
    exact Nat.le_mul_of_pos_left _ h0
  rw [hX0]
  have hW2 : j = 0 ∨ 2 ≤ W := by
    rcases Nat.eq_zero_or_pos j with h0 | h0
    · exact Or.inl h0
    · right
      obtain ⟨i, rfl⟩ : ∃ i, j = i + 1 := ⟨j - 1, by omega⟩
      rw [← hW, pow_succ]
      have := Nat.one_le_two_pow (n := i)
      omega
  obtain ⟨Y, hYdef⟩ : ∃ Y, Y = a * (2 ^ 25 * W) := ⟨_, rfl⟩
  rw [← hYdef] at hX2 hX3 ⊢
  simp only [Nat.reducePow] at hp48 hp49 hp47 hp24 hpow hX2 hX3 hdec ha hYdef ⊢
  by_cases hs : f32_sign S = true
  · simp only [hs, if_true, Bool.true_and, Bool.false_eq_true, if_false] at hdec ⊢
    rw [if_neg (by omega)]
    have hlt : (-1 : Int) * ((281474976710656 * W + Y : Nat) : Int) + ((8388608 : Nat) : Int) < 0 := by
      omega
    have hna : ((-1 : Int) * ((281474976710656 * W + Y : Nat) : Int) + ((8388608 : Nat) : Int)).natAbs
        = 281474976710656 * W + Y - 8388608 := by omega
    simp only [hlt, decide_True, hna]
    unfold f32_round
    rw [if_neg (by omega)]
    simp only [if_true]
    by_cases ha0 : a = 0
    · subst ha0
      have hY : Y = 0 := by rw [hYdef]; simp
      subst hY
      have hl := ilog2_eq (281474976710656 * W + 0 - 8388608) (47 + j)
        (by rw [hp47]; omega) (by rw [show 47 + j + 1 = 48 + j by omega, hp48]; omega)
      have hrq : rnd_q (281474976710656 * W + 0 - 8388608) (-23 - (m : Int)) = (E : Int) - 151 := by
        unfold rnd_q; rw [hl]; omega
      have hrn : rnd_n (281474976710656 * W + 0 - 8388608) (-23 - (m : Int)) = 2 ^ 24 := by
        unfold rnd_n
        rw [hrq, if_neg (by omega)]
        have : ((E : Int) - 151 - (-23 - (m : Int))).toNat = 24 + j := by omega
        rw [this]
        have hM : 281474976710656 * W + 0 - 8388608
            = (2 ^ 24 - 1) * 2 ^ (24 + j) + (16777216 * W - 8388608) := by
          rw [hp24]; simp only [Nat.reducePow]; omega
        rw [hM]
        rcases hW2 with h0 | h2
        · subst h0
          have hW1 : W = 1 := by rw [← hW]; rfl
          subst hW1
          exact rne_shift_tie _ _ _ (by norm_num)
        · exact rne_shift_hi _ _ _ (by rw [hp24]; omega) (by rw [hp24]; omega)
      rw [hrq, hrn]
      have : ((E : Int) - 151 + 149).toNat = E - 2 := by omega
      rw [this]
      simp only [Nat.reducePow]
      rw [if_neg (by omega)]
      omega
    · have hY := hX3 (by omega)
      have hl := ilog2_eq (281474976710656 * W + Y - 8388608) (48 + j)
        (by rw [hp48]; omega) (by rw [hp49]; omega)
      have hrq : rnd_q (281474976710656 * W + Y - 8388608) (-23 - (m : Int)) = (E : Int) - 150 := by
        unfold rnd_q; rw [hl]; omega
      have hrn : rnd_n (281474976710656 * W + Y - 8388608) (-23 - (m : Int)) = 2 ^ 23 + a := by
        unfold rnd_n
        rw [hrq, if_neg (by omega)]
        have : ((E : Int) - 150 - (-23 - (m : Int))).toNat = 25 + j := by omega
        rw [this]
        obtain ⟨a', rfl⟩ : ∃ a', a = a' + 1 := ⟨a - 1, by omega⟩
        have hM : 281474976710656 * W + Y - 8388608
            = (2 ^ 23 + a') * 2 ^ (25 + j) + (33554432 * W - 8388608) := by
          rw [hpow, hYdef]
          have e : (a' + 1) * (33554432 * W) = a' * (33554432 * W) + 33554432 * W := by ring
          have e' : (2 ^ 23 + a') * (33554432 * W) = 281474976710656 * W + a' * (33554432 * W) := by
            ring
          rw [e, e']
          omega
        rw [hM]
        rw [rne_shift_hi _ _ _ (by rw [hpow]; omega) (by rw [hpow]; omega)]
        omega
      rw [hrq, hrn]
      have : ((E : Int) - 150 + 149).toNat = E - 1 := by omega
      rw [this]
      simp only [Nat.reducePow]
      rw [if_neg (by omega)]
      omega
  · simp only [hs, Bool.false_eq_true, if_false, Bool.false_and, Nat.zero_add, Nat.zero_mul] at hdec ⊢
    rw [if_neg (by omega)]
    have hnl : ¬ ((1 : Int) * ((281474976710656 * W + Y : Nat) : Int) + ((8388608 : Nat) : Int) < 0) := by
      omega
    have hna : ((1 : Int) * ((281474976710656 * W + Y : Nat) : Int) + ((8388608 : Nat) : Int)).natAbs
        = 281474976710656 * W + Y + 8388608 := by omega
    simp only [hnl, decide_False, hna]
    have hl := ilog2_eq (281474976710656 * W + Y + 8388608) (48 + j)
      (by rw [hp48]; omega) (by rw [hp49]; omega)
    have hrq : rnd_q (281474976710656 * W + Y + 8388608) (-23 - (m : Int)) = (E : Int) - 150 := by
      unfold rnd_q; rw [hl]; omega
    have hrn : rnd_n (281474976710656 * W + Y + 8388608) (-23 - (m : Int)) = 2 ^ 23 + a := by
      unfold rnd_n
      rw [hrq, if_neg (by omega)]
      have : ((E : Int) - 150 - (-23 - (m : Int))).toNat = 25 + j := by omega
      rw [this]
      have hM : 281474976710656 * W + Y + 8388608 = (2 ^ 23 + a) * 2 ^ (25 + j) + 8388608 := by
        rw [hpow, hYdef]; ring
      rw [hM]
      exact rne_shift_lo _ _ _ (by rw [hpow]; omega)
    unfold f32_round
    rw [if_neg (by omega), hrq, hrn]
    have : ((E : Int) - 150 + 149).toNat = E - 1 := by omega
    rw [this]
    simp only [Nat.reducePow, Bool.false_eq_true, if_false, Nat.zero_add]
    rw [if_neg (by omega)]
    omega

theorem f32_round_lt (neg : Bool) (m : Nat) (e : Int) : f32_round neg m e < 2 ^ 32 := by
  unfold f32_round
  cases neg <;> simp only [Bool.false_eq_true, if_false, if_true] <;> split <;>
    try split
  all_goals simp only [Nat.reducePow] at *
  all_goals omega

theorem f32_add_lt (x y : Nat) (hx : f32_finite x) (hy : f32_finite y) :
    f32_add x y < 2 ^ 32 := by
  obtain ⟨_, hadd⟩ := f32_add_repr x y hx hy
  rw [hadd]
  split
  · split <;> norm_num
  · exact f32_round_lt _ _ _

/-- Lower bound on the exponent chosen by the rounding. -/
theorem rnd_q_ge_of (m : Nat) (e g : Int) (hm : 0 < m)
    (h : (2 : ℚ) ^ (g + 23) ≤ (m : ℚ) * (2 : ℚ) ^ e) : g ≤ rnd_q m e := by
  obtain ⟨_, h1⟩ := ilog2_spec m hm
  have h1q : (m : ℚ) < (2 : ℚ) ^ (ilog2 m + 1) := by exact_mod_cast h1
  have hpos : (0 : ℚ) < 2 ^ e := by positivity
  have h2 : (m : ℚ) * 2 ^ e < (2 : ℚ) ^ (((ilog2 m + 1 : Nat) : Int) + e) := by
    rw [zpow_add₀ (by norm_num : (2 : ℚ) ≠ 0), zpow_natCast]
    exact mul_lt_mul_of_pos_right h1q hpos
  have h3 := (zpow_two_lt_iff _ _).1 (lt_of_le_of_lt h h2)
  unfold rnd_q
  push_cast at h3
  omega

/-- A sum that lies in the binade with unit `2^g` is rounded to a multiple of `2^g` at most
half a unit away, and stays in the closed binade. -/
theorem f32_add_near (x y : Nat) (g : Int) (hx : f32_finite x) (hy : f32_finite y)
    (hg1 : -149 < g) (hg2 : g ≤ 103)
    (hlo : (2 : ℚ) ^ (g + 23) ≤ |f32_toRat x + f32_toRat y|)
    (hhi : |f32_toRat x + f32_toRat y| < (2 : ℚ) ^ (g + 24)) :
    f32_finite (f32_add x y)
      ∧ ∃ N : Int, f32_toRat (f32_add x y) = (N : ℚ) * (2 : ℚ) ^ g
        ∧ |f32_toRat (f32_add x y) - (f32_toRat x + f32_toRat y)| ≤ (2 : ℚ) ^ (g - 1)
        ∧ 2 ^ 23 ≤ N.natAbs := by
  obtain ⟨hfin, herr⟩ := f32_add_err x y g hx hy (by omega) hg2 hhi
  refine ⟨hfin, ?_⟩
  obtain ⟨hsum, hadd⟩ := f32_add_repr x y hx hy
  generalize min (f32_qexp x) (f32_qexp y) = e at hsum hadd
  generalize f32_scaled x e + f32_scaled y e = a at hsum hadd
  have hpos : (0 : ℚ) < 2 ^ e := by positivity
  have ha : a ≠ 0 := by
    intro h0
    rw [hsum, h0] at hlo
    simp only [Int.cast_zero, zero_mul, abs_zero] at hlo
    have : (0 : ℚ) < 2 ^ (g + 23) := by positivity
    linarith
  have hm : 0 < a.natAbs := Int.natAbs_pos.2 ha
  have hmag : (a.natAbs : ℚ) * (2 : ℚ) ^ e = |f32_toRat x + f32_toRat y| := by
    rw [natAbs_cast_abs, ← abs_of_pos hpos, ← abs_mul, ← hsum]
  have hq1 := rnd_q_le a.natAbs e g hm (by omega) (by rw [hmag]; exact hhi)
  have hq2 := rnd_q_ge_of a.natAbs e g hm (by rw [hmag]; exact hlo)
  have hq : rnd_q a.natAbs e = g := by omega
  have hval := f32_round_toRat (decide (a < 0)) a.natAbs e hm
    (rnd_no_overflow _ _ hm (by omega))
  have hn := rnd_n_ge a.natAbs e hm (by omega)
  rw [hq] at hval
  rw [if_neg ha] at hadd
  refine ⟨(if decide (a < 0) = true then -1 else 1) * (rnd_n a.natAbs e : Int), ?_, herr, ?_⟩
  · rw [hadd, hval]
    split <;> push_cast <;> ring
  · split
    · simpa using hn
    · simpa using hn

/-- The unit in the last place of a finite pattern of magnitude at least `2^(g+23)` is at
least `2^g`. -/
theorem qexp_ge_of_val (S : Nat) (g : Int) (h : (2 : ℚ) ^ (g + 23) ≤ |f32_toRat S|) :
    g ≤ f32_qexp S := by
  have hs : f32_sig S < 2 ^ 24 := by
    unfold f32_sig f32_man
    split <;> omega
  have hsq : (f32_sig S : ℚ) < 2 ^ 24 := by exact_mod_cast hs
  have hpos : (0 : ℚ) < 2 ^ f32_qexp S := by positivity
  have habs : |f32_toRat S| = (f32_sig S : ℚ) * 2 ^ f32_qexp S := by
    unfold f32_toRat
    rw [abs_mul, abs_mul, abs_of_pos hpos, Nat.abs_cast]
    split <;> simp
  have h2 : |f32_toRat S| < (2 : ℚ) ^ (f32_qexp S + 24) := by
    rw [habs, zpow_add₀ (by norm_num : (2 : ℚ) ≠ 0), mul_comm]
    exact mul_lt_mul_of_pos_left (by exact_mod_cast hsq) hpos
  have h3 := (zpow_two_lt_iff _ _).1 (lt_of_le_of_lt h h2)
  omega

/-- `f32_add` is exact on finite patterns whose sum is `c * 2^G` with `|c| ≤ 2^24`. -/
theorem f32_add_exact_le (x y : Nat) (G c : Int) (hx : f32_finite x) (hy : f32_finite y)
    (hG1 : -149 ≤ G) (hG2 : G ≤ 102) (hc : c.natAbs ≤ 2 ^ 24)
    (hs : f32_toRat x + f32_toRat y = (c : ℚ) * (2 : ℚ) ^ G) :
    f32_finite (f32_add x y) ∧ f32_toRat (f32_add x y) = f32_toRat x + f32_toRat y := by
  by_cases h : c.natAbs < 2 ^ 24
  · exact f32_add_exact x y G c hx hy hG1 (by omega) h hs
  · have hc2 : c = 2 ^ 24 ∨ c = -2 ^ 24 := by omega
    have hz : (2 : ℚ) ^ (G + 1) = 2 * 2 ^ G := by
      rw [zpow_add₀ (by norm_num : (2 : ℚ) ≠ 0), zpow_one]; ring
    rcases hc2 with h1 | h1
    · refine f32_add_exact x y (G + 1) (2 ^ 23) hx hy (by omega) (by omega) (by norm_num) ?_
      rw [hs, h1, hz]; push_cast; ring
    · refine f32_add_exact x y (G + 1) (-2 ^ 23) hx hy (by omega) (by omega) (by norm_num) ?_
      rw [hs, h1, hz]; push_cast; ring

theorem inv_pow_eq_zpow (m : Nat) : (1 : ℚ) / 2 ^ m = (2 : ℚ) ^ (-(m : Int)) := by
  rw [zpow_neg, zpow_natCast, one_div]

/-- Adding `2^-m`, less than the spacing `2^G` of the binade the sum lies in, to a multiple of
`2^G`: the result is the pattern's value or one unit above, never more than `2 * 2^-m` above,
and its unit in the last place is at least `2^G`. -/
theorem add_frozen (x m : Nat) (G c : Int) (hx : f32_finite x) (hm : m ≤ 126)
    (hG1 : -(m : Int) < G) (hG2 : G ≤ 103)
    (hv : f32_toRat x = (c : ℚ) * (2 : ℚ) ^ G)
    (hc : (2 ^ 23 ≤ c ∧ c < 2 ^ 24) ∨ (-2 ^ 24 ≤ c ∧ c ≤ -2 ^ 23 - 1)) :
    f32_finite (f32_add x (pow_neg_two m))
      ∧ f32_toRat x ≤ f32_toRat (f32_add x (pow_neg_two m))
      ∧ f32_toRat (f32_add x (pow_neg_two m)) ≤ f32_toRat x + 2 / 2 ^ m
      ∧ G ≤ f32_qexp (f32_add x (pow_neg_two m)) := by
  obtain ⟨hy, hyv⟩ := pow_neg_two_spec m hm
  obtain ⟨d, hd⟩ : ∃ d : Nat, G + (m : Int) = (d : Int) + 1 := ⟨(G + m - 1).toNat, by omega⟩
  have hposG : (0 : ℚ) < 2 ^ G := by positivity
  have ht : (1 : ℚ) / 2 ^ m = (1 / 2 ^ (d + 1)) * 2 ^ G := by
    rw [inv_pow_eq_zpow, inv_pow_eq_zpow, ← zpow_add₀ (by norm_num : (2 : ℚ) ≠ 0)]
    congr 1
    push_cast
    omega
  have hf1 : (0 : ℚ) < 1 / 2 ^ (d + 1) := by positivity
  have hf2 : (1 : ℚ) / 2 ^ (d + 1) ≤ 1 / 2 := by
    rw [pow_succ, div_le_div_iff₀ (by positivity) (by norm_num)]
    have : (1 : ℚ) ≤ 2 ^ d := one_le_pow₀ (by norm_num)
    linarith
  generalize (1 : ℚ) / 2 ^ (d + 1) = f at ht hf1 hf2
  have hsum : f32_toRat x + f32_toRat (pow_neg_two m) = ((c : ℚ) + f) * 2 ^ G := by
    rw [hv, hyv, ht]; ring
  have h23 : (2 : ℚ) ^ (G + 23) = 2 ^ 23 * 2 ^ G := by
    rw [zpow_add₀ (by norm_num : (2 : ℚ) ≠ 0)]; norm_num; ring
  have h24 : (2 : ℚ) ^ (G + 24) = 2 ^ 24 * 2 ^ G := by
    rw [zpow_add₀ (by norm_num : (2 : ℚ) ≠ 0)]; norm_num; ring
  have hm1 : (2 : ℚ) ^ (G - 1) = 1 / 2 * 2 ^ G := by
    rw [show G - 1 = G + (-1) by ring, zpow_add₀ (by norm_num : (2 : ℚ) ≠ 0)]; norm_num; ring
  have habs : (2 : ℚ) ^ 23 ≤ |(c : ℚ) + f| ∧ |(c : ℚ) + f| < 2 ^ 24 := by
    rcases hc with ⟨c1, c2⟩ | ⟨c1, c2⟩
    · have c1q : (2 : ℚ) ^ 23 ≤ c := by exact_mod_cast c1
      have c2q : (c : ℚ) ≤ 2 ^ 24 - 1 := by
        have : c ≤ 2 ^ 24 - 1 := by omega
        exact_mod_cast this
      rw [abs_of_pos (by linarith)]
      constructor <;> linarith
    · have c1q : -(2 : ℚ) ^ 24 ≤ c := by exact_mod_cast c1
      have c2q : (c : ℚ) ≤ -2 ^ 23 - 1 := by exact_mod_cast c2
      rw [abs_of_neg (by linarith)]
      constructor <;> linarith
  have hlo : (2 : ℚ) ^ (G + 23) ≤ |f32_toRat x + f32_toRat (pow_neg_two m)| := by
    rw [hsum, abs_mul, abs_of_pos hposG, h23]
    exact mul_le_mul_of_nonneg_right habs.1 (le_of_lt hposG)
  have hhi : |f32_toRat x + f32_toRat (pow_neg_two m)| < (2 : ℚ) ^ (G + 24) := by
    rw [hsum, abs_mul, abs_of_pos hposG, h24]
    exact mul_lt_mul_of_pos_right habs.2 hposG
  obtain ⟨hfin, N, hN, herr, hN23⟩ :=
    f32_add_near x (pow_neg_two m) G hx hy (by omega) hG2 hlo hhi
  rw [hN, hsum, hm1] at herr
  have herr2 : |(N : ℚ) - ((c : ℚ) + f)| ≤ 1 / 2 := by
    have e : (N : ℚ) * 2 ^ G - ((c : ℚ) + f) * 2 ^ G = ((N : ℚ) - (c + f)) * 2 ^ G := by ring
    rw [e, abs_mul, abs_of_pos hposG] at herr
    exact le_of_mul_le_mul_right herr hposG
  obtain ⟨e1, e2⟩ := abs_le.1 herr2
  have k0 : c ≤ N := by
    have : ((c : ℚ) - 1) < N := by linarith
    have : c - 1 < N := by exact_mod_cast this
    omega
  have k1 : N ≤ c + 1 := by
    have : (N : ℚ) ≤ c + 1 := by linarith
    exact_mod_cast this
  refine ⟨hfin, ?_, ?_, ?_⟩
  · rw [hN, hv]
    exact mul_le_mul_of_nonneg_right (by exact_mod_cast k0) (le_of_lt hposG)
  · rw [hN, hv]
    have e : (2 : ℚ) / 2 ^ m = 2 * f * 2 ^ G := by
      rw [← mul_one_div, ht]; ring
    rw [e]
    have : (N : ℚ) ≤ c + 2 * f := by
      rcases (by omega : N = c ∨ N = c + 1) with h | h
      · rw [h]; linarith
      · rw [h] at e2 ⊢
        push_cast at e2 ⊢
        linarith
    have := mul_le_mul_of_nonneg_right this (le_of_lt hposG)
    linarith
  · apply qexp_ge_of_val
    rw [hN, abs_mul, abs_of_pos hposG, h23]
    apply mul_le_mul_of_nonneg_right _ (le_of_lt hposG)
    rw [← natAbs_cast_abs]
    exact_mod_cast hN23

/-- Adding `2^-m`, a multiple of the spacing `2^G`, to a multiple of `2^G` is exact as long as
the sum has at most 24 significant bits on that grid. -/
theorem add_exact_grid (x m : Nat) (G c : Int) (hx : f32_finite x) (hm : m ≤ 126)
    (hG0 : -149 ≤ G) (hG1 : G ≤ -(m : Int))
    (hv : f32_toRat x = (c : ℚ) * (2 : ℚ) ^ G)
    (hc : (c + 2 ^ (-(m : Int) - G).toNat).natAbs ≤ 2 ^ 24) :
    f32_finite (f32_add x (pow_neg_two m))
      ∧ f32_toRat (f32_add x (pow_neg_two m)) = f32_toRat x + 1 / 2 ^ m := by
  obtain ⟨hy, hyv⟩ := pow_neg_two_spec m hm
  obtain ⟨d, hd⟩ : ∃ d : Nat, (-(m : Int) - G).toNat = d := ⟨_, rfl⟩
  rw [hd] at hc
  have ht : (1 : ℚ) / 2 ^ m = 2 ^ d * 2 ^ G := by
    rw [inv_pow_eq_zpow, ← zpow_natCast, ← zpow_add₀ (by norm_num : (2 : ℚ) ≠ 0)]
    congr 1
    omega
  have hsum : f32_toRat x + f32_toRat (pow_neg_two m) = ((c + 2 ^ d : Int) : ℚ) * 2 ^ G := by
    rw [hv, hyv, ht]; push_cast; ring
  obtain ⟨h1, h2⟩ := f32_add_exact_le x (pow_neg_two m) G (c + 2 ^ d) hx hy hG0 (by omega) hc hsum
  exact ⟨h1, by rw [h2, hyv]⟩

theorem qexp_ge (x : Nat) : -149 ≤ f32_qexp x := by
  unfold f32_qexp
  split <;> omega

theorem sig_lt (x : Nat) : f32_sig x < 2 ^ 24 := by
  unfold f32_sig f32_man
  split <;> omega

/-- The sign bit decides the sign of the value. -/
theorem toRat_sign (x : Nat) :
    (f32_sign x = true → f32_toRat x ≤ 0) ∧ (f32_sign x = false → 0 ≤ f32_toRat x) := by
  have hpos : (0 : ℚ) < 2 ^ f32_qexp x := by positivity
  have hs : (0 : ℚ) ≤ (f32_sig x : ℚ) * 2 ^ f32_qexp x := by positivity
  unfold f32_toRat
  constructor
  · intro h
    rw [h, if_pos rfl]
    linarith
  · intro h
    rw [h]
    simp only [Bool.false_eq_true, if_false]
    linarith

/-- A finite nonzero pattern as an integer multiple of the spacing of the numbers above
it. -/
theorem grid_repr (x : Nat) (h0 : f32_toRat x ≠ 0)
    (hneg : f32_sign x = true → f32_toRat x ≤ -(1 / 2 ^ 125)) :
    ∃ c : Int, f32_toRat x = (c : ℚ) * (2 : ℚ) ^ f32_grid x ∧ -149 ≤ f32_grid x
      ∧ (f32_sign x = false →
          0 < c ∧ c < 2 ^ 24 ∧ f32_grid x = f32_qexp x ∧ (f32_exp x ≠ 0 → 2 ^ 23 ≤ c))
      ∧ (f32_sign x = true → -2 ^ 24 ≤ c ∧ c ≤ -2 ^ 23 - 1) := by
  have hq := qexp_ge x
  have hsl := sig_lt x
  have hpos : (0 : ℚ) < 2 ^ f32_qexp x := by positivity
  by_cases hs : f32_sign x = true
  · have hv : f32_toRat x = -((f32_sig x : ℚ) * 2 ^ f32_qexp x) := by
      unfold f32_toRat; rw [hs, if_pos rfl]; ring
    have hlow := hneg hs
    have hE : 2 ≤ f32_exp x := by
      by_contra hcon
      have hqe : f32_qexp x = -149 := by
        unfold f32_qexp
        split <;> omega
      rw [hv, hqe] at hlow
      have h1 : (f32_sig x : ℚ) < 2 ^ 24 := by exact_mod_cast hsl
      have h3 : (f32_sig x : ℚ) * 2 ^ (-149 : Int) < 2 ^ 24 * 2 ^ (-149 : Int) :=
        mul_lt_mul_of_pos_right h1 (by positivity)
      have h4 : (2 : ℚ) ^ 24 * 2 ^ (-149 : Int) = 1 / 2 ^ 125 := by
        rw [inv_pow_eq_zpow, ← zpow_natCast, ← zpow_add₀ (by norm_num : (2 : ℚ) ≠ 0)]
        norm_num
      linarith
    have hqe : f32_qexp x = (f32_exp x : Int) - 150 := by
      unfold f32_qexp; rw [if_neg (by omega)]
    have hsig : f32_sig x = 2 ^ 23 + f32_man x := by
      unfold f32_sig; rw [if_neg (by omega)]
    have hml : f32_man x < 2 ^ 23 := by unfold f32_man; omega
    by_cases hm0 : f32_man x = 0
    · have hg : f32_grid x = f32_qexp x - 1 := by
        unfold f32_grid; rw [hs, hm0]; rfl
      refine ⟨-2 ^ 24, ?_, by omega, ?_, fun _ => by omega⟩
      swap
      · intro h; rw [hs] at h; cases h
      rw [hv, hg, hsig, hm0, show f32_qexp x - 1 = f32_qexp x + (-1) by ring,
        zpow_add₀ (by norm_num : (2 : ℚ) ≠ 0)]
      push_cast
      norm_num
      ring
    · have hg : f32_grid x = f32_qexp x := by
        unfold f32_grid
        have : (f32_man x == 0) = false := by simpa using hm0
        rw [hs, this]; rfl
      refine ⟨-((f32_sig x : Nat) : Int), ?_, by omega, ?_, fun _ => by omega⟩
      swap
      · intro h; rw [hs] at h; cases h
      rw [hv, hg]
      push_cast
      ring
  · have hs' : f32_sign x = false := by simpa using hs
    have hv : f32_toRat x = (f32_sig x : ℚ) * 2 ^ f32_qexp x := by
      unfold f32_toRat; rw [hs']; simp
    have hg : f32_grid x = f32_qexp x := by
      unfold f32_grid; rw [hs']; rfl
    have hsig0 : f32_sig x ≠ 0 := by
      intro h
      apply h0
      rw [hv, h]
      simp
    refine ⟨((f32_sig x : Nat) : Int), ?_, by omega, fun _ => ⟨by omega, by omega, hg, ?_⟩, ?_⟩
    · rw [hv, hg]
      push_cast
      ring
    rotate_left
    · intro h; rw [hs'] at h; cases h
    · intro hE
      unfold f32_sig
      rw [if_neg hE]
      push_cast
      omega

theorem two_div_le (μ m : Nat) (h : μ < m) : (2 : ℚ) / 2 ^ m ≤ 1 / 2 ^ μ := by
  obtain ⟨j, rfl⟩ : ∃ j, m = μ + 1 + j := ⟨m - μ - 1, by omega⟩
  rw [div_le_div_iff₀ (by positivity) (by positivity), pow_add, pow_succ]
  have : (1 : ℚ) ≤ 2 ^ j := one_le_pow₀ (by norm_num)
  have h2 : (0 : ℚ) < 2 ^ μ := by positivity
  nlinarith

theorem inv_pow_le (a b : Nat) (h : a ≤ b) : (1 : ℚ) / 2 ^ b ≤ 1 / 2 ^ a := by
  rw [div_le_div_iff₀ (by positivity) (by positivity), one_mul, one_mul]
  exact pow_le_pow_right₀ (by norm_num) h

/-- One accumulation `res += pow_neg_two(m)` with room above the accumulator: the result is
exact when `2^-m` is a multiple of the spacing above the accumulator, and otherwise the
accumulator moves up by at most one unit and no smaller term changes it again. -/
theorem add_step (x m μ : Nat) (hx : f32_finite x) (hμ : μ < m) (hm : m ≤ 125)
    (hhi : f32_toRat x + 1 / 2 ^ μ ≤ 200) (hlo : -200 ≤ f32_toRat x) (htop : top_ok x μ) :
    f32_finite (f32_add x (pow_neg_two m)) ∧ f32_add x (pow_neg_two m) < 2 ^ 32
      ∧ f32_toRat x ≤ f32_toRat (f32_add x (pow_neg_two m))
      ∧ f32_toRat (f32_add x (pow_neg_two m)) ≤ f32_toRat x + 2 / 2 ^ m
      ∧ ((f32_toRat x = 0 ∨ f32_grid x ≤ -(m : Int)) →
          f32_toRat (f32_add x (pow_neg_two m)) = f32_toRat x + 1 / 2 ^ m
            ∧ top_ok (f32_add x (pow_neg_two m)) m)
      ∧ (¬ (f32_toRat x = 0 ∨ f32_grid x ≤ -(m : Int)) →
          ∀ m', m < m' → m' ≤ 126 →
            f32_add (f32_add x (pow_neg_two m)) (pow_neg_two m') = f32_add x (pow_neg_two m)) := by
  obtain ⟨hy, hyv⟩ := pow_neg_two_spec m (by omega)
  have hlt := f32_add_lt x (pow_neg_two m) hx hy
  have htm : (0 : ℚ) < 1 / 2 ^ m := by positivity
  have h2m : (2 : ℚ) / 2 ^ m = 1 / 2 ^ m + 1 / 2 ^ m := by ring
  have hμm := two_div_le μ m hμ
  generalize hS : f32_add x (pow_neg_two m) = S at *
  -- the part shared by the exact cases
  have exact_case : (f32_toRat x = 0 ∨ f32_grid x ≤ -(m : Int)) → f32_finite S →
      f32_toRat S = f32_toRat x + 1 / 2 ^ m →
      (0 < f32_toRat S → f32_toRat S + 1 / 2 ^ m ≤ (2 : ℚ) ^ (f32_qexp S + 24)) →
      f32_finite S ∧ S < 2 ^ 32 ∧ f32_toRat x ≤ f32_toRat S
      ∧ f32_toRat S ≤ f32_toRat x + 2 / 2 ^ m
      ∧ ((f32_toRat x = 0 ∨ f32_grid x ≤ -(m : Int)) →
          f32_toRat S = f32_toRat x + 1 / 2 ^ m ∧ top_ok S m)
      ∧ (¬ (f32_toRat x = 0 ∨ f32_grid x ≤ -(m : Int)) →
          ∀ m', m < m' → m' ≤ 126 → f32_add S (pow_neg_two m') = S) := by
    intro hE hfin hval hq
    refine ⟨hfin, hlt, by linarith, by linarith, fun _ => ⟨hval, ?_, hq⟩, fun h => absurd hE h⟩
    intro hneg
    have := htop.1 (by linarith)
    linarith
  by_cases h0 : f32_toRat x = 0
  · have hsum : f32_toRat x + f32_toRat (pow_neg_two m) = ((1 : Int) : ℚ) * (2 : ℚ) ^ (-(m : Int)) := by
      rw [h0, hyv, inv_pow_eq_zpow]; simp
    obtain ⟨hfin, hval⟩ := f32_add_exact x (pow_neg_two m) (-(m : Int)) 1 hx hy (by omega)
      (by omega) (by norm_num) hsum
    rw [hS] at hfin hval
    rw [hyv] at hval
    apply exact_case (Or.inl h0) hfin hval
    intro _
    have hq : -(m : Int) - 23 ≤ f32_qexp S := by
      apply qexp_ge_of_val
      rw [hval, h0, zero_add, abs_of_pos htm, inv_pow_eq_zpow]
      exact (zpow_two_le_iff _ _).2 (by omega)
    have h1 : f32_toRat S + 1 / 2 ^ m = (2 : ℚ) ^ (-(m : Int) + 1) := by
      rw [hval, h0, zero_add, zpow_add₀ (by norm_num : (2 : ℚ) ≠ 0), ← inv_pow_eq_zpow]
      ring
    rw [h1]
    exact (zpow_two_le_iff _ _).2 (by omega)
  · obtain ⟨sg1, sg2⟩ := toRat_sign x
    have hnegx : f32_sign x = true → f32_toRat x ≤ -(1 / 2 ^ 125) := by
      intro hs
      have h1 := sg1 hs
      have h2 := htop.1 (lt_of_le_of_ne h1 h0)
      have h3 := inv_pow_le μ 125 (by omega)
      linarith
    obtain ⟨c, hv, hG0, hpos, hneg⟩ := grid_repr x h0 hnegx
    have hposG : (0 : ℚ) < 2 ^ f32_grid x := by positivity
    have hc0 : c ≠ 0 := by
      intro h
      apply h0
      rw [hv, h]; simp
    have hG2 : f32_grid x ≤ 102 := by
      have h1 : (1 : ℚ) ≤ |(c : ℚ)| := by
        rw [← natAbs_cast_abs]
        have : 1 ≤ c.natAbs := by omega
        exact_mod_cast this
      have h2 : (2 : ℚ) ^ f32_grid x ≤ |f32_toRat x| := by
        rw [hv, abs_mul, abs_of_pos hposG]
        nlinarith
      have h3 : |f32_toRat x| ≤ 200 := by
        rw [abs_le]
        constructor
        · linarith
        · have : (0 : ℚ) < 1 / 2 ^ μ := by positivity
          linarith
      have h4 : (2 : ℚ) ^ f32_grid x < 2 ^ (8 : Int) := by
        have : (2 : ℚ) ^ (8 : Int) = 256 := by norm_num
        linarith
      have := (zpow_two_lt_iff _ _).1 h4
      omega
    by_cases hG : f32_grid x ≤ -(m : Int)
    · obtain ⟨d, hd⟩ : ∃ d : Nat, (-(m : Int) - f32_grid x).toNat = d := ⟨_, rfl⟩
      have ht : (1 : ℚ) / 2 ^ m = 2 ^ d * 2 ^ f32_grid x := by
        rw [inv_pow_eq_zpow, ← zpow_natCast, ← zpow_add₀ (by norm_num : (2 : ℚ) ≠ 0)]
        congr 1
        omega
      have hsumv : f32_toRat x + 1 / 2 ^ m = ((c + 2 ^ d : Int) : ℚ) * 2 ^ f32_grid x := by
        rw [hv, ht]; push_cast; ring
      have hd0 : (0 : Int) < 2 ^ d := by positivity
      have hle := inv_pow_le μ m (by omega)
      by_cases hs : f32_sign x = true
      · obtain ⟨c1, c2⟩ := hneg hs
        have hxneg : f32_toRat x < 0 := lt_of_le_of_ne (sg1 hs) h0
        have hroom := htop.1 hxneg
        have hc : (c + 2 ^ d).natAbs ≤ 2 ^ 24 := by
          have h1 : ((c + 2 ^ d : Int) : ℚ) * 2 ^ f32_grid x ≤ 0 := by
            rw [← hsumv]; linarith
          have h2 : ((c + 2 ^ d : Int) : ℚ) ≤ 0 := by
            by_contra hcon
            push_neg at hcon
            have := mul_pos hcon hposG
            linarith
          have h3 : c + 2 ^ d ≤ 0 := by exact_mod_cast h2
          omega
        obtain ⟨hfin, hval⟩ := add_exact_grid x m (f32_grid x) c hx (by omega) hG0 hG hv
          (by rw [hd]; exact hc)
        rw [hS] at hfin hval
        apply exact_case (Or.inr hG) hfin hval
        intro hSpos
        linarith
      · have hs' : f32_sign x = false := by simpa using hs
        obtain ⟨c1, c2, hgq, c3⟩ := hpos hs'
        have hxpos : 0 < f32_toRat x := lt_of_le_of_ne (sg2 hs') (Ne.symm h0)
        have hroom := htop.2 hxpos
        have h24 : (2 : ℚ) ^ (f32_qexp x + 24) = 2 ^ 24 * 2 ^ f32_grid x := by
          rw [hgq, zpow_add₀ (by norm_num : (2 : ℚ) ≠ 0)]; norm_num; ring
        have hc : (c + 2 ^ d).natAbs ≤ 2 ^ 24 := by
          have h1 : ((c + 2 ^ d : Int) : ℚ) * 2 ^ f32_grid x ≤ 2 ^ 24 * 2 ^ f32_grid x := by
            rw [← hsumv, ← h24]; linarith
          have h2 : ((c + 2 ^ d : Int) : ℚ) ≤ 2 ^ 24 := le_of_mul_le_mul_right h1 hposG
          have h3 : c + 2 ^ d ≤ 2 ^ 24 := by exact_mod_cast h2
          omega
        obtain ⟨hfin, hval⟩ := add_exact_grid x m (f32_grid x) c hx (by omega) hG0 hG hv
          (by rw [hd]; exact hc)
        rw [hS] at hfin hval
        apply exact_case (Or.inr hG) hfin hval
        intro _
        have hqq : f32_qexp x ≤ f32_qexp S := by
          by_cases hE : f32_exp x = 0
          · have : f32_qexp x = -149 := by unfold f32_qexp; rw [if_pos hE]
            rw [this]
            exact qexp_ge S
          · have c4 := c3 hE
            rw [← hgq]
            apply qexp_ge_of_val
            have hSpos : 0 < f32_toRat S := by linarith
            rw [abs_of_pos hSpos, zpow_add₀ (by norm_num : (2 : ℚ) ≠ 0)]
            have : (2 : ℚ) ^ (23 : Int) ≤ c := by
              have h6 : ((2 ^ 23 : Int) : ℚ) ≤ c := by exact_mod_cast c4
              have h7 : (2 : ℚ) ^ (23 : Int) = ((2 ^ 23 : Int) : ℚ) := by norm_num
              rw [h7]; exact h6
            have h5 : (2 : ℚ) ^ f32_grid x * 2 ^ (23 : Int) ≤ (c : ℚ) * 2 ^ f32_grid x := by
              rw [mul_comm]
              exact mul_le_mul_of_nonneg_right this (le_of_lt hposG)
            linarith
        have := (zpow_two_le_iff (f32_qexp x + 24) (f32_qexp S + 24)).2 (by omega)
        linarith
    · have hG' : -(m : Int) < f32_grid x := by omega
      have hc : (2 ^ 23 ≤ c ∧ c < 2 ^ 24) ∨ (-2 ^ 24 ≤ c ∧ c ≤ -2 ^ 23 - 1) := by
        by_cases hs : f32_sign x = true
        · exact Or.inr (hneg hs)
        · have hs' : f32_sign x = false := by simpa using hs
          obtain ⟨c1, c2, hgq, c3⟩ := hpos hs'
          refine Or.inl ⟨c3 ?_, c2⟩
          intro hE
          have : f32_qexp x = -149 := by unfold f32_qexp; rw [if_pos hE]
          omega
      obtain ⟨hfin, h1, h2, hq⟩ := add_frozen x m (f32_grid x) c hx (by omega) hG' (by omega) hv hc
      rw [hS] at hfin h1 h2 hq
      refine ⟨hfin, hlt, h1, h2, fun h => ?_, fun _ m' hm1 hm2 => ?_⟩
      · rcases h with h | h
        · exact absurd h h0
        · exact absurd h hG
      · exact f32_add_tiny S m' hlt hfin hm2 (by omega)

theorem top_ok_mono (x μ μ' : Nat) (h : top_ok x μ) (hle : μ ≤ μ') : top_ok x μ' := by
  have := inv_pow_le μ μ' hle
  exact ⟨fun h1 => by have := h.1 h1; linarith, fun h1 => by have := h.2 h1; linarith⟩

theorem grid_le_qexp (x : Nat) : f32_grid x ≤ f32_qexp x := by
  unfold f32_grid
  split <;> omega

theorem sq_iter_mono (ta tb : Nat) (h : ta ≤ tb) : ∀ i : Nat, sq_pat^[i] ta ≤ sq_pat^[i] tb := by
  intro i
  induction i with
  | zero => exact h
  | succ i ih =>
    rw [Function.iterate_succ_apply', Function.iterate_succ_apply']
    exact sq_pat_mono _ _ ih

/-- A larger argument needs no more squarings to reach `2.0`, and with the same number of
squarings it leaves no smaller value. -/
theorem pass_pat_mono (ta tb : Nat) (h1 : 2 ^ 23 < ta) (h : ta ≤ tb) (h2 : tb < 2 ^ 24) :
    (pass_pat tb).1 ≤ (pass_pat ta).1
      ∧ ((pass_pat ta).1 = (pass_pat tb).1 → (pass_pat ta).2 ≤ (pass_pat tb).2) := by
  obtain ⟨_, _, _, _, oa, la, ga, _⟩ := log2_step_pass ta h1 (by omega)
  obtain ⟨_, _, _, _, ob, lb, gb, _⟩ := log2_step_pass tb (by omega) h2
  constructor
  · by_contra hcon
    push_neg at hcon
    have := lb _ hcon
    have := sq_iter_mono ta tb h (pass_pat ta).1
    omega
  · intro he
    have := sq_iter_mono ta tb h (pass_pat ta).1
    rw [oa, ob, ← he]
    omega

/-- Once no term from `2^-M0` on changes the accumulator, the loop leaves it as it is. -/
theorem loop_final_frozen : ∀ (n t res m M0 : Nat), 2 ^ 23 < t → t < 2 ^ 24 →
    m + total_k n t ≤ 126 → M0 ≤ m + (pass_pat t).1 →
    (∀ m', M0 ≤ m' → m' ≤ 126 → f32_add res (pow_neg_two m') = res) →
    (loop_final n t res m).2.1 = res := by
  intro n
  induction n with
  | zero => intro t res m M0 _ _ _ _ _; rfl
  | succ n ih =>
    intro t res m M0 h1 h2 hm hM hfr
    obtain ⟨k1, _, a1, a2, _⟩ := log2_step_pass t h1 h2
    have etk : total_k (n + 1) t = (pass_pat t).1
        + (if (pass_pat t).2 = 2 ^ 23 then 0 else total_k n (pass_pat t).2) := rfl
    have elf : loop_final (n + 1) t res m
        = if (pass_pat t).2 = 2 ^ 23 then
            (2 ^ 23, f32_add res (pow_neg_two ((m + (pass_pat t).1) % 2 ^ 32)),
              (m + (pass_pat t).1) % 2 ^ 32)
          else
            loop_final n (pass_pat t).2
              (f32_add res (pow_neg_two ((m + (pass_pat t).1) % 2 ^ 32)))
              ((m + (pass_pat t).1) % 2 ^ 32) := rfl
    rw [etk] at hm
    have hmod : (m + (pass_pat t).1) % 2 ^ 32 = m + (pass_pat t).1 :=
      Nat.mod_eq_of_lt (by omega)
    rw [elf, hmod]
    have hadd := hfr (m + (pass_pat t).1) hM (by omega)
    rw [hadd]
    by_cases hone : (pass_pat t).2 = 2 ^ 23
    · rw [if_pos hone]
    · rw [if_neg hone]
      rw [if_neg hone] at hm
      exact ih (pass_pat t).2 res (m + (pass_pat t).1) M0 (by omega) a2 (by omega) (by omega) hfr

/-- With room `2^-μ` above the accumulator and all terms to come below `2^-μ`, the loop ends
with an accumulator between `res` and `res + 2^-μ`. -/
theorem loop_final_bound : ∀ (n t res m μ : Nat), 2 ^ 23 < t → t < 2 ^ 24 → f32_finite res →
    m + total_k n t ≤ 125 → μ < m + (pass_pat t).1 → top_ok res μ →
    f32_toRat res + 1 / 2 ^ μ ≤ 200 → -200 ≤ f32_toRat res →
    f32_finite (loop_final n t res m).2.1
      ∧ f32_toRat res ≤ f32_toRat (loop_final n t res m).2.1
      ∧ f32_toRat (loop_final n t res m).2.1 ≤ f32_toRat res + 1 / 2 ^ μ := by
  intro n
  induction n with
  | zero =>
    intro t res m μ _ _ hres _ _ _ _ _
    refine ⟨hres, le_refl _, ?_⟩
    show f32_toRat res ≤ _
    have : (0 : ℚ) < 1 / 2 ^ μ := by positivity
    linarith
  | succ n ih =>
    intro t res m μ h1 h2 hres hm hμ htop hhi hlo
    obtain ⟨k1, _, a1, a2, _⟩ := log2_step_pass t h1 h2
    have etk : total_k (n + 1) t = (pass_pat t).1
        + (if (pass_pat t).2 = 2 ^ 23 then 0 else total_k n (pass_pat t).2) := rfl
    have elf : loop_final (n + 1) t res m
        = if (pass_pat t).2 = 2 ^ 23 then
            (2 ^ 23, f32_add res (pow_neg_two ((m + (pass_pat t).1) % 2 ^ 32)),
              (m + (pass_pat t).1) % 2 ^ 32)
          else
            loop_final n (pass_pat t).2
              (f32_add res (pow_neg_two ((m + (pass_pat t).1) % 2 ^ 32)))
              ((m + (pass_pat t).1) % 2 ^ 32) := rfl
    rw [etk] at hm
    have hmod : (m + (pass_pat t).1) % 2 ^ 32 = m + (pass_pat t).1 :=
      Nat.mod_eq_of_lt (by omega)
    rw [elf, hmod]
    obtain ⟨s1, s2, s3, s4, s5, s6⟩ :=
      add_step res (m + (pass_pat t).1) μ hres hμ (by omega) hhi hlo htop
    have h2d := two_div_le μ (m + (pass_pat t).1) hμ
    generalize f32_add res (pow_neg_two (m + (pass_pat t).1)) = S at s1 s2 s3 s4 s5 s6 ⊢
    by_cases hone : (pass_pat t).2 = 2 ^ 23
    · rw [if_pos hone]
      exact ⟨s1, s3, by linarith⟩
    · rw [if_neg hone]
      rw [if_neg hone] at hm
      by_cases hE : f32_toRat res = 0 ∨ f32_grid res ≤ -((m + (pass_pat t).1 : Nat) : Int)
      · obtain ⟨e1, e2⟩ := s5 hE
        obtain ⟨k1', _⟩ := log2_step_pass (pass_pat t).2 (by omega) a2
        have e3 : (2 : ℚ) / 2 ^ (m + (pass_pat t).1)
            = 1 / 2 ^ (m + (pass_pat t).1) + 1 / 2 ^ (m + (pass_pat t).1) := by ring
        obtain ⟨i1, i2, i3⟩ := ih (pass_pat t).2 S (m + (pass_pat t).1) (m + (pass_pat t).1)
          (by omega) a2 s1 (by omega) (by omega) e2 (by linarith) (by linarith)
        exact ⟨i1, by linarith, by linarith⟩
      · have hfr := loop_final_frozen n (pass_pat t).2 S (m + (pass_pat t).1)
          (m + (pass_pat t).1 + 1) (by omega) a2 (by omega)
          (by
            obtain ⟨k1', _⟩ := log2_step_pass (pass_pat t).2 (by omega) a2
            omega)
          (fun m' hm1 hm2 => s6 hE m' (by omega) hm2)
        rw [hfr]
        exact ⟨s1, s3, by linarith⟩

theorem loop_final_succ (n t res m : Nat) (hm : m + (pass_pat t).1 < 2 ^ 32) :
    loop_final (n + 1) t res m
      = if (pass_pat t).2 = 2 ^ 23 then
          (2 ^ 23, f32_add res (pow_neg_two (m + (pass_pat t).1)), m + (pass_pat t).1)
        else
          loop_final n (pass_pat t).2 (f32_add res (pow_neg_two (m + (pass_pat t).1)))
            (m + (pass_pat t).1) := by
  have elf : loop_final (n + 1) t res m
      = if (pass_pat t).2 = 2 ^ 23 then
          (2 ^ 23, f32_add res (pow_neg_two ((m + (pass_pat t).1) % 2 ^ 32)),
            (m + (pass_pat t).1) % 2 ^ 32)
        else
          loop_final n (pass_pat t).2
            (f32_add res (pow_neg_two ((m + (pass_pat t).1) % 2 ^ 32)))
            ((m + (pass_pat t).1) % 2 ^ 32) := rfl
  rw [elf, Nat.mod_eq_of_lt hm]

theorem total_k_succ (n t : Nat) : total_k (n + 1) t = (pass_pat t).1
    + (if (pass_pat t).2 = 2 ^ 23 then 0 else total_k n (pass_pat t).2) := rfl

/-- From the same accumulator and the same total, the loop started on the larger of two
values ends with the larger accumulator. -/
theorem loop_final_mono : ∀ (n ta tb res m : Nat), 2 ^ 23 < ta → ta ≤ tb → tb < 2 ^ 24 →
    f32_finite res → res < 2 ^ 32 → m + total_k n ta ≤ 125 → m + total_k n tb ≤ 125 →
    top_ok res m → f32_toRat res + 1 / 2 ^ m ≤ 200 → -200 ≤ f32_toRat res →
    f32_toRat (loop_final n ta res m).2.1 ≤ f32_toRat (loop_final n tb res m).2.1 := by
  intro n
  induction n with
  | zero => intro ta tb res m _ _ _ _ _ _ _ _ _ _; exact le_refl _
  | succ n ih =>
    intro ta tb res m h1 hab h2 hres hres32 hma hmb htop hhi hlo
    obtain ⟨ka1, _, oa1, oa2, _⟩ := log2_step_pass ta h1 (by omega)
    obtain ⟨kb1, _, ob1, ob2, _⟩ := log2_step_pass tb (by omega) h2
    obtain ⟨pk, po⟩ := pass_pat_mono ta tb h1 hab h2
    have hma' := hma
    have hmb' := hmb
    rw [total_k_succ] at hma hmb
    by_cases hk : (pass_pat ta).1 = (pass_pat tb).1
    · -- same number of squarings: the same term is added
      have po' := po hk
      rw [loop_final_succ n ta res m (by omega), loop_final_succ n tb res m (by omega), ← hk]
      rw [← hk] at hmb
      obtain ⟨s1, s2, s3, s4, s5, s6⟩ :=
        add_step res (m + (pass_pat ta).1) m hres (by omega) (by omega) hhi hlo htop
      have h2d := two_div_le m (m + (pass_pat ta).1) (by omega)
      generalize f32_add res (pow_neg_two (m + (pass_pat ta).1)) = S at s1 s2 s3 s4 s5 s6 ⊢
      by_cases hE : f32_toRat res = 0 ∨ f32_grid res ≤ -((m + (pass_pat ta).1 : Nat) : Int)
      · obtain ⟨e1, e2⟩ := s5 hE
        have e3 : (2 : ℚ) / 2 ^ (m + (pass_pat ta).1)
            = 1 / 2 ^ (m + (pass_pat ta).1) + 1 / 2 ^ (m + (pass_pat ta).1) := by ring
        by_cases honea : (pass_pat ta).2 = 2 ^ 23
        · rw [if_pos honea]
          by_cases honeb : (pass_pat tb).2 = 2 ^ 23
          · rw [if_pos honeb]
          · rw [if_neg honeb]
            rw [if_neg honeb] at hmb
            obtain ⟨kb1', _⟩ := log2_step_pass (pass_pat tb).2 (by omega) ob2
            exact (loop_final_bound n (pass_pat tb).2 S (m + (pass_pat ta).1)
              (m + (pass_pat ta).1) (by omega) ob2 s1 (by omega) (by omega) e2 (by linarith)
              (by linarith)).2.1
        · have honeb : (pass_pat tb).2 ≠ 2 ^ 23 := by omega
          rw [if_neg honea, if_neg honeb]
          rw [if_neg honea] at hma
          rw [if_neg honeb] at hmb
          exact ih (pass_pat ta).2 (pass_pat tb).2 S (m + (pass_pat ta).1) (by omega) po' ob2
            s1 s2 (by omega) (by omega) e2 (by linarith) (by linarith)
      · -- the term is below the spacing: both runs stay at `S`
        have fra : (if (pass_pat ta).2 = 2 ^ 23 then ((2 : Nat) ^ 23, S, m + (pass_pat ta).1)
            else loop_final n (pass_pat ta).2 S (m + (pass_pat ta).1)).2.1 = S := by
          by_cases hone : (pass_pat ta).2 = 2 ^ 23
          · rw [if_pos hone]
          · rw [if_neg hone]
            rw [if_neg hone] at hma
            obtain ⟨k1', _⟩ := log2_step_pass (pass_pat ta).2 (by omega) oa2
            exact loop_final_frozen n (pass_pat ta).2 S (m + (pass_pat ta).1)
              (m + (pass_pat ta).1 + 1) (by omega) oa2 (by omega) (by omega)
              (fun m' hm1 hm2 => s6 hE m' (by omega) hm2)
        have frb : (if (pass_pat tb).2 = 2 ^ 23 then ((2 : Nat) ^ 23, S, m + (pass_pat ta).1)
            else loop_final n (pass_pat tb).2 S (m + (pass_pat ta).1)).2.1 = S := by
          by_cases hone : (pass_pat tb).2 = 2 ^ 23
          · rw [if_pos hone]
          · rw [if_neg hone]
            rw [if_neg hone] at hmb
            obtain ⟨k1', _⟩ := log2_step_pass (pass_pat tb).2 (by omega) ob2
            exact loop_final_frozen n (pass_pat tb).2 S (m + (pass_pat ta).1)
              (m + (pass_pat ta).1 + 1) (by omega) ob2 (by omega) (by omega)
              (fun m' hm1 hm2 => s6 hE m' (by omega) hm2)
        rw [fra, frb]
    · -- the larger value needs fewer squarings: its first term is larger
      have hlt : (pass_pat tb).1 < (pass_pat ta).1 := by omega
      have hile := inv_pow_le m (m + (pass_pat tb).1) (by omega)
      obtain ⟨_, _, ua⟩ := loop_final_bound (n + 1) ta res m (m + (pass_pat tb).1) h1 (by omega)
        hres hma' (by omega) (top_ok_mono res m _ htop (by omega)) (by linarith) hlo
      rw [loop_final_succ n tb res m (by omega)]
      obtain ⟨s1, s2, s3, s4, s5, s6⟩ :=
        add_step res (m + (pass_pat tb).1) m hres (by omega) (by omega) hhi hlo htop
      have h2d := two_div_le m (m + (pass_pat tb).1) (by omega)
      by_cases hE : f32_toRat res = 0 ∨ f32_grid res ≤ -((m + (pass_pat tb).1 : Nat) : Int)
      · obtain ⟨e1, e2⟩ := s5 hE
        generalize f32_add res (pow_neg_two (m + (pass_pat tb).1)) = S at s1 s2 s3 s4 s5 s6 e1 e2 ⊢
        have e3 : (2 : ℚ) / 2 ^ (m + (pass_pat tb).1)
            = 1 / 2 ^ (m + (pass_pat tb).1) + 1 / 2 ^ (m + (pass_pat tb).1) := by ring
        by_cases honeb : (pass_pat tb).2 = 2 ^ 23
        · rw [if_pos honeb]
          show _ ≤ f32_toRat S
          linarith
        · rw [if_neg honeb]
          rw [if_neg honeb] at hmb
          obtain ⟨kb1', _⟩ := log2_step_pass (pass_pat tb).2 (by omega) ob2
          have := (loop_final_bound n (pass_pat tb).2 S (m + (pass_pat tb).1)
            (m + (pass_pat tb).1) (by omega) ob2 s1 (by omega) (by omega) e2 (by linarith)
            (by linarith)).2.1
          linarith
      · -- no term of the run on `ta` changes `res`
        have hgq := grid_le_qexp res
        have fa : (loop_final (n + 1) ta res m).2.1 = res :=
          loop_final_frozen (n + 1) ta res m (m + (pass_pat ta).1) h1 (by omega) (by omega)
            (le_refl _)
            (fun m' hm1 hm2 => f32_add_tiny res m' hres32 hres hm2 (by
              push_neg at hE
              omega))
        rw [fa]
        generalize f32_add res (pow_neg_two (m + (pass_pat tb).1)) = S at s1 s2 s3 s4 s5 s6 ⊢
        have frb : (if (pass_pat tb).2 = 2 ^ 23 then ((2 : Nat) ^ 23, S, m + (pass_pat tb).1)
            else loop_final n (pass_pat tb).2 S (m + (pass_pat tb).1)).2.1 = S := by
          by_cases hone : (pass_pat tb).2 = 2 ^ 23
          · rw [if_pos hone]
          · rw [if_neg hone]
            rw [if_neg hone] at hmb
            obtain ⟨k1', _⟩ := log2_step_pass (pass_pat tb).2 (by omega) ob2
            exact loop_final_frozen n (pass_pat tb).2 S (m + (pass_pat tb).1)
              (m + (pass_pat tb).1 + 1) (by omega) ob2 (by omega) (by omega)
              (fun m' hm1 hm2 => s6 hE m' (by omega) hm2)
        rw [frb]
        exact s3

/-- With fuel for 24 tests of the inner loop condition, `approx_log2` returns
`log2_result`. -/
theorem approx_log2_result (x fuel : Nat) (hf : 24 ≤ fuel) :
    approx_log2 fuel x = some (log2_result x) := by
  have hm : x % 2 ^ 23 < 2 ^ 23 := Nat.mod_lt _ (by positivity)
  unfold approx_log2 log2_result
  rw [approx_log2_run_eq]
  by_cases h0 : x % 2 ^ 23 = 0
  · rw [if_pos h0, if_pos h0]; rfl
  · rw [if_neg h0, if_neg h0]
    obtain ⟨r, hr, hret, _⟩ := loop_ret 9 (2 ^ 23 + x % 2 ^ 23)
      (f32_of_int (((x / 2 ^ 23 % 256 : Nat) : Int) - 127)) 0 (by omega) (by omega)
    rw [hr fuel hf, ← hret]
    rfl

theorem toRat_abs_lt (S : Nat) : |f32_toRat S| < (2 : ℚ) ^ (f32_qexp S + 24) := by
  have hsq : (f32_sig S : ℚ) < 2 ^ 24 := by exact_mod_cast sig_lt S
  have hpos : (0 : ℚ) < 2 ^ f32_qexp S := by positivity
  have habs : |f32_toRat S| = (f32_sig S : ℚ) * 2 ^ f32_qexp S := by
    unfold f32_toRat
    rw [abs_mul, abs_mul, abs_of_pos hpos, Nat.abs_cast]
    split <;> simp
  rw [habs, zpow_add₀ (by norm_num : (2 : ℚ) ≠ 0), mul_comm]
  exact mul_lt_mul_of_pos_left (by exact_mod_cast hsq) hpos

/-- The accumulator starts with room for terms below `2^0`: the exponent plus one does not
leave the binade of the exponent. -/
theorem top_ok_of_int (e : Int) (he : e.natAbs ≤ 127) : top_ok (f32_of_int e) 0 := by
  have hval := f32_of_int_toRat e (by omega)
  unfold top_ok
  rw [hval]
  constructor
  · intro h
    have h1 : e < 0 := by exact_mod_cast h
    have h2 : e + 1 ≤ 0 := by omega
    have : ((e + 1 : Int) : ℚ) ≤ 0 := by exact_mod_cast h2
    push_cast at this
    simpa using this
  · intro h
    have h1 : 0 < e := by exact_mod_cast h
    have hlt := toRat_abs_lt (f32_of_int e)
    rw [hval, abs_of_pos h] at hlt
    have hq : 0 < f32_qexp (f32_of_int e) + 24 := by
      have h3 : (2 : ℚ) ^ (0 : Int) < 2 ^ (f32_qexp (f32_of_int e) + 24) := by
        have : (1 : ℚ) ≤ e := by exact_mod_cast h1
        simp only [zpow_zero]
        linarith
      exact (zpow_two_lt_iff _ _).1 h3
    obtain ⟨j, hj⟩ : ∃ j : Nat, f32_qexp (f32_of_int e) + 24 = (j : Int) :=
      ⟨(f32_qexp (f32_of_int e) + 24).toNat, by omega⟩
    rw [hj, zpow_natCast] at hlt ⊢
    have h4 : e < 2 ^ j := by exact_mod_cast hlt
    have h5 : e + 1 ≤ 2 ^ j := by omega
    have : ((e + 1 : Int) : ℚ) ≤ ((2 ^ j : Int) : ℚ) := by exact_mod_cast h5
    push_cast at this
    simpa using this

theorem top_ok_start (e : Int) (h1 : -127 ≤ e) (h2 : e ≤ 128) : top_ok (f32_of_int e) 0 := by
  by_cases h128 : e = 128
  · subst h128
    have hval := f32_of_int_toRat 128 (by norm_num)
    unfold top_ok
    rw [hval]
    have : f32_qexp (f32_of_int 128) = -16 := by decide
    rw [this]
    constructor
    · intro h; norm_num at h
    · intro _; norm_num
  · exact top_ok_of_int e (by omega)

/-- The result lies between the exponent and the exponent plus one. -/
theorem log2_result_bounds (x : Nat) :
    f32_finite (log2_result x)
      ∧ ((((x / 2 ^ 23 % 256 : Nat) : Int) - 127 : Int) : ℚ) ≤ f32_toRat (log2_result x)
      ∧ f32_toRat (log2_result x) ≤ ((((x / 2 ^ 23 % 256 : Nat) : Int) - 127 : Int) : ℚ) + 1 := by
  have hm : x % 2 ^ 23 < 2 ^ 23 := Nat.mod_lt _ (by positivity)
  have hE : x / 2 ^ 23 % 256 < 256 := Nat.mod_lt _ (by norm_num)
  unfold log2_result
  generalize he : (((x / 2 ^ 23 % 256 : Nat) : Int) - 127) = e
  have heb : e.natAbs ≤ 128 := by omega
  have hfin := f32_of_int_finite e (by omega)
  have hval := f32_of_int_toRat e (by omega)
  have heq : |(e : ℚ)| ≤ 128 := by
    rw [← natAbs_cast_abs]
    exact_mod_cast heb
  obtain ⟨q1, q2⟩ := abs_le.1 heq
  by_cases h0 : x % 2 ^ 23 = 0
  · rw [if_pos h0, hval]
    exact ⟨hfin, le_refl _, by linarith⟩
  · rw [if_neg h0]
    have hb := total_k_bound 9 (2 ^ 23 + x % 2 ^ 23) (le_refl _) (by omega) (by omega)
    obtain ⟨k1, _⟩ := log2_step_pass (2 ^ 23 + x % 2 ^ 23) (by omega) (by omega)
    have htop := top_ok_start e (by omega) (by omega)
    obtain ⟨b1, b2, b3⟩ := loop_final_bound 9 (2 ^ 23 + x % 2 ^ 23) (f32_of_int e) 0 0
      (by omega) (by omega) hfin (by omega) (by omega) htop (by rw [hval]; norm_num; linarith)
      (by rw [hval]; linarith)
    rw [hval] at b2 b3
    refine ⟨b1, b2, ?_⟩
    simpa using b3

/-- On the patterns with sign bit 0, `approx_log2` is nondecreasing. -/
theorem log2_result_mono (a b : Nat) (hab : a < b) (hb : b < 2 ^ 31) :
    f32_toRat (log2_result a) ≤ f32_toRat (log2_result b) := by
  obtain ⟨_, la, ua⟩ := log2_result_bounds a
  obtain ⟨_, lb, ub⟩ := log2_result_bounds b
  have hma : a % 2 ^ 23 < 2 ^ 23 := Nat.mod_lt _ (by positivity)
  have hmb : b % 2 ^ 23 < 2 ^ 23 := Nat.mod_lt _ (by positivity)
  have hEa : a / 2 ^ 23 % 256 = a / 2 ^ 23 := Nat.mod_eq_of_lt (by omega)
  have hEb : b / 2 ^ 23 % 256 = b / 2 ^ 23 := Nat.mod_eq_of_lt (by omega)
  have hEle : a / 2 ^ 23 ≤ b / 2 ^ 23 := Nat.div_le_div_right (le_of_lt hab)
  by_cases hE : a / 2 ^ 23 = b / 2 ^ 23
  · -- same exponent: the mantissa fields are ordered
    have hmlt : a % 2 ^ 23 < b % 2 ^ 23 := by omega
    by_cases h0 : a % 2 ^ 23 = 0
    · have : log2_result a = f32_of_int (((a / 2 ^ 23 % 256 : Nat) : Int) - 127) := by
        unfold log2_result; rw [if_pos h0]
      rw [this, f32_of_int_toRat _ (by omega), hEa, hE, ← hEb]
      exact lb
    · unfold log2_result
      rw [if_neg h0, if_neg (by omega), hEa, hEb, hE]
      generalize he : (((b / 2 ^ 23 : Nat) : Int) - 127) = e
      have heb : e.natAbs ≤ 128 := by omega
      have hval := f32_of_int_toRat e (by omega)
      have heq : |(e : ℚ)| ≤ 128 := by
        rw [← natAbs_cast_abs]
        exact_mod_cast heb
      obtain ⟨q1, q2⟩ := abs_le.1 heq
      have hba := total_k_bound 9 (2 ^ 23 + a % 2 ^ 23) (le_refl _) (by omega) (by omega)
      have hbb := total_k_bound 9 (2 ^ 23 + b % 2 ^ 23) (le_refl _) (by omega) (by omega)
      exact loop_final_mono 9 (2 ^ 23 + a % 2 ^ 23) (2 ^ 23 + b % 2 ^ 23) (f32_of_int e) 0
        (by omega) (by omega) (by omega) (f32_of_int_finite e (by omega)) (f32_round_lt _ _ _)
        (by omega) (by omega) (top_ok_start e (by omega) (by omega)) (by rw [hval]; norm_num; linarith)
        (by rw [hval]; linarith)
  · -- a smaller exponent: the result for `a` is at most the exponent of `b`
    have hlt : a / 2 ^ 23 < b / 2 ^ 23 := by omega
    rw [hEa] at ua
    rw [hEb] at lb
    have : ((((a / 2 ^ 23 : Nat) : Int) - 127 : Int) : ℚ) + 1
        ≤ ((((b / 2 ^ 23 : Nat) : Int) - 127 : Int) : ℚ) := by
      have h1 : (((a / 2 ^ 23 : Nat) : Int) - 127) + 1 ≤ (((b / 2 ^ 23 : Nat) : Int) - 127) := by
        omega
      exact_mod_cast h1
    linarith

/-- Magnitude of a pattern: the value with the sign dropped. -/
theorem toRat_mag (x : Nat) :
    f32_toRat x = (if f32_sign x then -1 else 1) * ((f32_sig x : ℚ) * (2 : ℚ) ^ f32_qexp x) := by
  unfold f32_toRat; ring

/-- The next pattern of a finite pattern is one unit in the last place further from zero. -/
theorem mag_succ (p : Nat) (hp : p + 1 < 0x7f800000) :
    (f32_sig (p + 1) : ℚ) * (2 : ℚ) ^ f32_qexp (p + 1)
      = (f32_sig p : ℚ) * (2 : ℚ) ^ f32_qexp p + (2 : ℚ) ^ f32_qexp p := by
  have hE : p / 2 ^ 23 % 256 = p / 2 ^ 23 := Nat.mod_eq_of_lt (by omega)
  have hE' : (p + 1) / 2 ^ 23 % 256 = (p + 1) / 2 ^ 23 := Nat.mod_eq_of_lt (by omega)
  have hm : p % 2 ^ 23 < 2 ^ 23 := Nat.mod_lt _ (by positivity)
  by_cases hc : p % 2 ^ 23 + 1 < 2 ^ 23
  · have e1 : (p + 1) / 2 ^ 23 = p / 2 ^ 23 := by omega
    have e2 : (p + 1) % 2 ^ 23 = p % 2 ^ 23 + 1 := by omega
    have hq : f32_qexp (p + 1) = f32_qexp p := by
      unfold f32_qexp f32_exp; rw [hE, hE', e1]
    have hs : f32_sig (p + 1) = f32_sig p + 1 := by
      unfold f32_sig f32_exp f32_man
      rw [hE, hE', e1, e2]
      split <;> omega
    rw [hq, hs]
    push_cast
    ring
  · have e1 : (p + 1) / 2 ^ 23 = p / 2 ^ 23 + 1 := by omega
    have e2 : (p + 1) % 2 ^ 23 = 0 := by omega
    have e3 : p % 2 ^ 23 = 2 ^ 23 - 1 := by omega
    have hs' : f32_sig (p + 1) = 2 ^ 23 := by
      unfold f32_sig f32_exp f32_man
      rw [hE', e1, e2, if_neg (by omega), Nat.add_zero]
    have hq' : f32_qexp (p + 1) = ((p / 2 ^ 23 : Nat) : Int) - 149 := by
      unfold f32_qexp f32_exp
      rw [hE', e1, if_neg (by omega)]
      push_cast
      omega
    by_cases h0 : p / 2 ^ 23 = 0
    · have hs : f32_sig p = 2 ^ 23 - 1 := by
        unfold f32_sig f32_exp f32_man
        rw [hE, if_pos h0, e3]
      have hq : f32_qexp p = -149 := by
        unfold f32_qexp f32_exp
        rw [hE, if_pos h0]
      rw [hs', hq', hs, hq, h0]
      norm_num
    · have hs : f32_sig p = 2 ^ 23 + (2 ^ 23 - 1) := by
        unfold f32_sig f32_exp f32_man
        rw [hE, if_neg h0, e3]
      have hq : f32_qexp p = ((p / 2 ^ 23 : Nat) : Int) - 150 := by
        unfold f32_qexp f32_exp
        rw [hE, if_neg h0]
      rw [hs', hq', hs, hq, show ((p / 2 ^ 23 : Nat) : Int) - 149
        = (((p / 2 ^ 23 : Nat) : Int) - 150) + 1 by ring, zpow_add₀ (by norm_num : (2 : ℚ) ≠ 0)]
      norm_num
      ring

/-- On the finite patterns with sign bit 0 the value is strictly increasing. -/
theorem mag_strict_mono (p p' : Nat) (h : p < p') (hp : p' < 0x7f800000) :
    (f32_sig p : ℚ) * (2 : ℚ) ^ f32_qexp p < (f32_sig p' : ℚ) * (2 : ℚ) ^ f32_qexp p' := by
  induction p' with
  | zero => omega
  | succ n ih =>
    rw [mag_succ n hp]
    have hpos : (0 : ℚ) < 2 ^ f32_qexp n := by positivity
    rcases Nat.lt_succ_iff_lt_or_eq.1 h with h1 | h1
    · have := ih h1 (by omega)
      linarith
    · rw [h1]
      linarith

/-- Sign bit and magnitude pattern of a 32-bit pattern. -/
theorem sign_mag_fields (x : Nat) (hf : f32_finite x) :
    f32_sig x = f32_sig (x % 2 ^ 31) ∧ f32_qexp x = f32_qexp (x % 2 ^ 31)
      ∧ x % 2 ^ 31 < 0x7f800000 := by
  have h1 : f32_exp x = f32_exp (x % 2 ^ 31) := by unfold f32_exp; omega
  have h2 : f32_man x = f32_man (x % 2 ^ 31) := by unfold f32_man; omega
  refine ⟨?_, ?_, ?_⟩
  · unfold f32_sig; rw [h1, h2]
  · unfold f32_qexp; rw [h1]
  · unfold f32_finite f32_exp at hf
    omega

/-- On finite patterns the order of the values is the order of the sign-magnitude keys. -/
theorem key_le_of_toRat_le (x y : Nat) (hfx : f32_finite x) (hfy : f32_finite y)
    (h : f32_toRat x ≤ f32_toRat y) :
    f32_key x ≤ f32_key y := by
  obtain ⟨sx, qx, px⟩ := sign_mag_fields x hfx
  obtain ⟨sy, qy, py⟩ := sign_mag_fields y hfy
  rw [toRat_mag x, toRat_mag y, sx, qx, sy, qy] at h
  have hz : (f32_sig 0 : ℚ) * (2 : ℚ) ^ f32_qexp 0 = 0 := by
    have : f32_sig 0 = 0 := by decide
    rw [this]; simp
  have hpos : ∀ p, 0 < p → p < 0x7f800000 →
      (0 : ℚ) < (f32_sig p : ℚ) * (2 : ℚ) ^ f32_qexp p := by
    intro p h1 h2
    have := mag_strict_mono 0 p h1 h2
    rw [hz] at this
    exact this
  have hnn : ∀ p, p < 0x7f800000 → (0 : ℚ) ≤ (f32_sig p : ℚ) * (2 : ℚ) ^ f32_qexp p := by
    intro p _
    positivity
  by_contra hcon
  push_neg at hcon
  unfold f32_key at hcon
  generalize x % 2 ^ 31 = p at *
  generalize y % 2 ^ 31 = p' at *
  by_cases hsx : f32_sign x = true <;> by_cases hsy : f32_sign y = true <;>
    simp only [hsx, hsy, if_true, if_false, Bool.false_eq_true] at h hcon
  · have hlt : p < p' := by omega
    have := mag_strict_mono p p' hlt py
    linarith
  · omega
  · have h1 := hnn p px
    have h2 := hnn p' py
    rcases Nat.eq_zero_or_pos p with h0 | h0
    · have h3 : 0 < p' := by omega
      have := hpos p' h3 py
      linarith
    · have := hpos p h0 px
      linarith
  · have hlt : p' < p := by omega
    have := mag_strict_mono p' p hlt px
    linarith

/-- A pattern above `+0.0f` in the order of `<` has sign bit 0 and is not zero. -/
theorem pos_of_lt (a c : Nat) (hc : c < 2 ^ 32) (hk : 0 ≤ f32_key a)
    (h : f32_lt a c = true) : c < 2 ^ 31 ∧ f32_key c = (c : Int) ∧ f32_key a < (c : Int) := by
  unfold f32_lt at h
  simp only [Bool.and_eq_true, decide_eq_true_eq] at h
  obtain ⟨_, hlt⟩ := h
  generalize f32_key a = K at hk hlt ⊢
  have hs : f32_sign c = false := by
    by_contra hcon
    have hs : f32_sign c = true := by simpa using hcon
    unfold f32_key at hlt
    rw [hs] at hlt
    simp only [if_true] at hlt
    omega
  have h31 : c < 2 ^ 31 := by
    unfold f32_sign at hs
    simp only [decide_eq_false_iff_not] at hs
    omega
  have hk : f32_key c = (c : Int) := by
    unfold f32_key
    rw [hs]
    simp only [Bool.false_eq_true, if_false]
    rw [Nat.mod_eq_of_lt h31]
  exact ⟨h31, hk, by rw [← hk]; exact hlt⟩

/-- C3 (monotonicity): for floats `a`, `b` with `0 < a < b` in the order of the operator
`<` (so `a` is finite and positive, subnormal or normal, and `b` is a larger finite float or
`+∞`), both calls of `approx_log2` return (with fuel for 24 tests of the inner loop
condition), the results are finite, and the result for `a` is at most the result for `b`,
as rational values and for the operator `<=`. -/
theorem C3_monotonicity (a b : Nat) (ha : a < 2 ^ 32) (hb : b < 2 ^ 32)
    (h0 : f32_lt 0 a = true) (hab : f32_lt a b = true) :
    ∃ ra rb : Nat, (∀ fuel, 24 ≤ fuel →
        approx_log2 fuel a = some ra ∧ approx_log2 fuel b = some rb)
      ∧ f32_finite ra ∧ f32_finite rb ∧ f32_toRat ra ≤ f32_toRat rb
      ∧ f32_le ra rb = true := by
  obtain ⟨a31, ka, apos⟩ := pos_of_lt 0 a ha (by decide) h0
  obtain ⟨b31, kb, hlt⟩ := pos_of_lt a b hb (by rw [ka]; omega) hab
  rw [ka] at hlt
  have hab' : a < b := by exact_mod_cast hlt
  obtain ⟨fa, _, _⟩ := log2_result_bounds a
  obtain ⟨fb, _, _⟩ := log2_result_bounds b
  have hmono := log2_result_mono a b hab' b31
  refine ⟨log2_result a, log2_result b, fun fuel hf =>
    ⟨approx_log2_result a fuel hf, approx_log2_result b fuel hf⟩, fa, fb, hmono, ?_⟩
  unfold f32_le
  rw [(finite_not_special _ fa).1, (finite_not_special _ fb).1]
  simp only [Bool.not_false, Bool.true_and, decide_eq_true_eq]
  exact key_le_of_toRat_le _ _ fa fb hmono

/-- Witness for C3 at `a = 1.5f`, `b = 2.5f`. -/
theorem C3_monotonicity_witness :
    (0x3fc00000 < 2 ^ 32 ∧ 0x40200000 < 2 ^ 32 ∧ f32_lt 0 0x3fc00000 = true
        ∧ f32_lt 0x3fc00000 0x40200000 = true)
      ∧ ∃ ra rb : Nat, (∀ fuel, 24 ≤ fuel →
          approx_log2 fuel 0x3fc00000 = some ra ∧ approx_log2 fuel 0x40200000 = some rb)
        ∧ f32_finite ra ∧ f32_finite rb ∧ f32_toRat ra ≤ f32_toRat rb
        ∧ f32_le ra rb = true :=
  ⟨⟨by norm_num, by norm_num, by decide, by decide⟩,
    C3_monotonicity 0x3fc00000 0x40200000 (by norm_num) (by norm_num) (by decide) (by decide)⟩

/-! ## The squaring count, the trace of a run, and the Decomposer on any pattern -/

/-- The test `f < 4.0f` on a pattern in `[1, 4)`. -/
theorem pat_lt_four (t : Nat) (h1 : 2 ^ 23 ≤ t) (h2 : t < 3 * 2 ^ 23) :
    f32_lt (0x3f000000 + t) f32_four = true := by
  have hk := pat_key t h1 h2
  have hn := (pat_not_special t h1 h2).1
  have hk4 : f32_key f32_four = 0x40800000 := by decide
  have hn4 : f32_isNaN f32_four = false := by decide
  unfold f32_lt
  rw [hn, hn4, hk, hk4]
  simp only [Bool.not_false, Bool.true_and, decide_eq_true_eq]
  omega

/-- The test `2.0f <= f` on a pattern in `[1, 4)`. -/
theorem pat_two_le (t : Nat) (h1 : 2 ^ 23 ≤ t) (h2 : t < 3 * 2 ^ 23) :
    f32_le f32_two (0x3f000000 + t) = decide (2 ^ 24 ≤ t) := by
  have hk := pat_key t h1 h2
  have hn := (pat_not_special t h1 h2).1
  have hk2 : f32_key f32_two = 0x40000000 := by decide
  have hn2 : f32_isNaN f32_two = false := by decide
  unfold f32_le
  rw [hn, hn2, hk, hk2]
  simp only [Bool.not_false, Bool.true_and]
  congr 1
  apply propext
  constructor <;> intro h <;> omega

/-- Value of a pattern in `[2, 4)`. -/
theorem pat_toRat_hi (t : Nat) (h1 : 2 ^ 24 ≤ t) (h2 : t < 3 * 2 ^ 23) :
    f32_toRat (0x3f000000 + t) = ((t - 2 ^ 23 : Nat) : ℚ) / 2 ^ 22 := by
  obtain ⟨hs, hq⟩ := pat_sig_qexp t (by omega) h2
  obtain ⟨hsg, _, _⟩ := pat_fields t (by omega) h2
  rw [if_neg (by omega)] at hs hq
  unfold f32_toRat
  rw [hs, hq, hsg]
  simp only [Bool.false_eq_true, if_false, one_mul]
  rw [zpow_neg, div_eq_mul_inv]
  norm_num

/-- C11 (count of squarings): for a float `v` with `1 < v < 2`, `log2_step` returns after
`k + 1` tests of its loop condition, having squared (and rounded) the value `k` times, with
`1 ≤ k ≤ 23`; `k` is the least number of squarings after which the value is `>= 2.0`; that
value is below `4.0`, and the value left in `f` is exactly half of it, in `[1, 2)`. -/
theorem C11_squaring_count (v : Nat) (hv : v < 2 ^ 32)
    (h1 : f32_lt f32_one v = true) (h2 : f32_lt v f32_two = true) :
    ∃ k f', 1 ≤ k ∧ k ≤ 23
      ∧ (∀ fuel, k < fuel → log2_step fuel v = some (k, f'))
      ∧ (∀ i, i < k → f32_lt ((fun f => f32_mul f f)^[i] v) f32_two = true)
      ∧ f32_le f32_two ((fun f => f32_mul f f)^[k] v) = true
      ∧ f32_lt ((fun f => f32_mul f f)^[k] v) f32_four = true
      ∧ 2 ≤ f32_toRat ((fun f => f32_mul f f)^[k] v)
      ∧ f32_toRat ((fun f => f32_mul f f)^[k] v) < 4
      ∧ f' = f32_half ((fun f => f32_mul f f)^[k] v)
      ∧ f32_toRat f' = f32_toRat ((fun f => f32_mul f f)^[k] v) / 2
      ∧ f32_le f32_one f' = true ∧ f32_lt f' f32_two = true
      ∧ 1 ≤ f32_toRat f' ∧ f32_toRat f' < 2 := by
  obtain ⟨ha, hb⟩ := (between_one_two v hv).1 ⟨h1, h2⟩
  unfold f32_one at ha
  unfold f32_two at hb
  obtain ⟨t, rfl⟩ : ∃ t, v = 0x3f000000 + t := ⟨v - 0x3f000000, by omega⟩
  have t1 : 2 ^ 23 < t := by omega
  have t2 : t < 2 ^ 24 := by omega
  obtain ⟨k, k1, k2, hmin, hk, hk3, hrun⟩ := log2_step_spec t t1 t2
  have hit := mul_self_iter t (le_of_lt t1) t2 k hmin
  have o1 : 2 ^ 23 ≤ sq_pat^[k] t - 2 ^ 23 := by omega
  have o2 : sq_pat^[k] t - 2 ^ 23 < 2 ^ 24 := by omega
  have e4 := pat_toRat_hi _ hk hk3
  have hhalf := pat_half _ hk hk3
  have e2 := pat_toRat _ o1 o2
  generalize sq_pat^[k] t - 2 ^ 23 = u at o1 o2 e4 e2 hrun hhalf ⊢
  have hlo : (2 : ℚ) ^ 23 ≤ (u : ℚ) := by exact_mod_cast o1
  have hhi : (u : ℚ) < 2 ^ 24 := by exact_mod_cast o2
  refine ⟨k, 0x3f000000 + u, k1, k2, hrun, ?_, ?_, ?_, ?_, ?_, ?_, ?_, ?_,
    ?_, ?_, ?_⟩
  · intro i hi
    obtain ⟨c1, c2, _⟩ := sq_iter_lower t (le_of_lt t1) (by omega) i
      (fun j hj => hmin j (lt_trans hj hi))
    rw [mul_self_iter t (le_of_lt t1) t2 i (fun j hj => hmin j (lt_trans hj hi)),
      pat_lt_two _ c1 c2]
    simp only [decide_eq_true_eq]
    exact hmin i hi
  · rw [hit, pat_two_le _ (by omega) hk3]
    simpa using hk
  · rw [hit]
    exact pat_lt_four _ (by omega) hk3
  · rw [hit, e4, le_div_iff₀ (by positivity)]
    linarith
  · rw [hit, e4, div_lt_iff₀ (by positivity)]
    linarith
  · rw [hit, hhalf]
  · rw [hit, e4, e2]
    ring
  · have := pat_key u o1 (by omega)
    have hn := (pat_not_special u o1 (by omega)).1
    have hk1 : f32_key f32_one = 0x3f800000 := by decide
    have hn1 : f32_isNaN f32_one = false := by decide
    unfold f32_le
    rw [hn, hn1, this, hk1]
    simp only [Bool.not_false, Bool.true_and, decide_eq_true_eq]
    omega
  · rw [pat_lt_two _ o1 (by omega)]
    simpa using o2
  · rw [e2, le_div_iff₀ (by positivity)]
    linarith
  · rw [e2, div_lt_iff₀ (by positivity)]
    linarith

/-- Witness for C11 at `v = 1.5f` (pattern `0x3fc00000`): one squaring gives `2.25`. -/
theorem C11_squaring_count_witness :
    (0x3fc00000 < 2 ^ 32 ∧ f32_lt f32_one 0x3fc00000 = true
        ∧ f32_lt 0x3fc00000 f32_two = true)
      ∧ ∃ k f', 1 ≤ k ∧ k ≤ 23
      ∧ (∀ fuel, k < fuel → log2_step fuel 0x3fc00000 = some (k, f'))
      ∧ (∀ i, i < k → f32_lt ((fun f => f32_mul f f)^[i] 0x3fc00000) f32_two = true)
      ∧ f32_le f32_two ((fun f => f32_mul f f)^[k] 0x3fc00000) = true
      ∧ f32_lt ((fun f => f32_mul f f)^[k] 0x3fc00000) f32_four = true
      ∧ 2 ≤ f32_toRat ((fun f => f32_mul f f)^[k] 0x3fc00000)
      ∧ f32_toRat ((fun f => f32_mul f f)^[k] 0x3fc00000) < 4
      ∧ f' = f32_half ((fun f => f32_mul f f)^[k] 0x3fc00000)
      ∧ f32_toRat f' = f32_toRat ((fun f => f32_mul f f)^[k] 0x3fc00000) / 2
      ∧ f32_le f32_one f' = true ∧ f32_lt f' f32_two = true
      ∧ 1 ≤ f32_toRat f' ∧ f32_toRat f' < 2 :=
  ⟨⟨by decide, by decide, by decide⟩,
    C11_squaring_count 0x3fc00000 (by decide) (by decide) (by decide)⟩

/-- The passes of the `for` loop of `approx_log2` follow one another by `loop_body`; each adds
at least 1 to the running total, which never wraps and stays at most `m + total_k n t`. -/
theorem loop_trace : ∀ (n t res m a k0 : Nat), 2 ^ 23 < t → t < 2 ^ 24 →
    m + total_k n t < 2 ^ 32 →
    ∃ r : Run, (∀ fuel, 24 ≤ fuel → approx_log2_loop fuel n (0x3f000000 + t) res m = some r)
      ∧ List.Chain (fun p q => loop_body p q ∧ 1 ≤ q.k ∧ q.m = p.m + q.k ∧ p.m < q.m)
          ⟨a, k0, 0x3f000000 + t, m, res⟩ r.passes
      ∧ (∀ p ∈ r.passes, p.m ≤ m + total_k n t)
      ∧ r.passes.length ≤ n := by
  intro n
  induction n with
  | zero =>
    intro t res m a k0 _ _ _
    exact ⟨⟨res, []⟩, fun fuel _ => rfl, List.Chain.nil, by simp, by simp⟩
  | succ n ih =>
    intro t res m a k0 h1 h2 hm
    obtain ⟨k1, k2, a1, a2, _, _, _, hstep⟩ := log2_step_pass t h1 h2
    have etk : total_k (n + 1) t = (pass_pat t).1
        + (if (pass_pat t).2 = 2 ^ 23 then 0 else total_k n (pass_pat t).2) := rfl
    rw [etk] at hm ⊢
    have hmod : (m + (pass_pat t).1) % 2 ^ 32 = m + (pass_pat t).1 :=
      Nat.mod_eq_of_lt (by omega)
    have hR : (fun p q : Pass => loop_body p q ∧ 1 ≤ q.k ∧ q.m = p.m + q.k ∧ p.m < q.m)
        ⟨a, k0, 0x3f000000 + t, m, res⟩
        ⟨0x3f000000 + t, (pass_pat t).1, 0x3f000000 + (pass_pat t).2,
          (m + (pass_pat t).1) % 2 ^ 32,
          f32_add res (pow_neg_two ((m + (pass_pat t).1) % 2 ^ 32))⟩ := by
      refine ⟨⟨rfl, hstep, rfl, rfl⟩, k1, hmod, ?_⟩
      show m < (m + (pass_pat t).1) % 2 ^ 32
      rw [hmod]; omega
    by_cases hone : (pass_pat t).2 = 2 ^ 23
    · refine ⟨⟨f32_add res (pow_neg_two ((m + (pass_pat t).1) % 2 ^ 32)),
            [⟨0x3f000000 + t, (pass_pat t).1, 0x3f000000 + (pass_pat t).2,
              (m + (pass_pat t).1) % 2 ^ 32,
              f32_add res (pow_neg_two ((m + (pass_pat t).1) % 2 ^ 32))⟩]⟩,
        fun fuel hf => by rw [approx_log2_loop_succ fuel n t res m hf h1 h2, if_pos hone],
        List.Chain.cons hR List.Chain.nil, ?_, by simp⟩
      intro p hpm
      simp only [List.mem_singleton] at hpm
      subst hpm
      show (m + (pass_pat t).1) % 2 ^ 32 ≤ _
      rw [hmod]; omega
    · rw [if_neg hone] at hm ⊢
      obtain ⟨r, hr, hch, hall, hlen⟩ := ih (pass_pat t).2
        (f32_add res (pow_neg_two ((m + (pass_pat t).1) % 2 ^ 32)))
        ((m + (pass_pat t).1) % 2 ^ 32) (0x3f000000 + t) (pass_pat t).1 (by omega) a2
        (by rw [hmod]; omega)
      refine ⟨⟨r.ret, ⟨0x3f000000 + t, (pass_pat t).1, 0x3f000000 + (pass_pat t).2,
              (m + (pass_pat t).1) % 2 ^ 32,
              f32_add res (pow_neg_two ((m + (pass_pat t).1) % 2 ^ 32))⟩ :: r.passes⟩,
        fun fuel hf => by
          rw [approx_log2_loop_succ fuel n t res m hf h1 h2, if_neg hone, hr fuel hf],
        List.Chain.cons hR hch, ?_, by simp only [List.length_cons]; omega⟩
      intro p hpm
      simp only [List.mem_cons] at hpm
      rcases hpm with rfl | hpm
      · show (m + (pass_pat t).1) % 2 ^ 32 ≤ _
        rw [hmod]; omega
      · have := hall p hpm
        rw [hmod] at this
        omega

/-- In a chain of passes that each add at least 1 to the running total, the total after the
pass of index `j` (counted from 0) is at least `j + 1` more than at the start. -/
theorem chain_total_ge : ∀ (l : List Pass) (p0 : Pass),
    List.Chain (fun p q => loop_body p q ∧ 1 ≤ q.k ∧ q.m = p.m + q.k ∧ p.m < q.m) p0 l →
    ∀ j p, l[j]? = some p → p0.m + j + 1 ≤ p.m := by
  intro l
  induction l with
  | nil => intro p0 _ j p h; simp at h
  | cons q l ih =>
    intro p0 hch j p h
    rw [List.chain_cons] at hch
    obtain ⟨⟨_, hk, hm, _⟩, hrest⟩ := hch
    cases j with
    | zero =>
      simp only [List.getElem?_cons_zero, Option.some.injEq] at h
      subst h
      omega
    | succ j =>
      simp only [List.getElem?_cons_succ] at h
      have := ih q hrest j p h
      omega

/-- The passes of a run of `approx_log2` on any pattern: they follow one another by
`loop_body` from the state left by `get_exponent_and_normalize` with the running total 0, and
the running total never exceeds 119. -/
theorem run_trace (x : Nat) :
    ∃ r : Run, (∀ fuel, 24 ≤ fuel → approx_log2_run fuel x = some r)
      ∧ List.Chain (fun p q => loop_body p q ∧ 1 ≤ q.k ∧ q.m = p.m + q.k ∧ p.m < q.m)
          ⟨x, 0, (get_exponent_and_normalize x).2, 0, (get_exponent_and_normalize x).1⟩
          r.passes
      ∧ (∀ p ∈ r.passes, p.m ≤ 119)
      ∧ r.passes.length ≤ 9 := by
  have hx : x % 2 ^ 23 < 2 ^ 23 := Nat.mod_lt _ (by positivity)
  rw [get_exponent_and_normalize_eq]
  by_cases h0 : x % 2 ^ 23 = 0
  · refine ⟨⟨f32_of_int (((x / 2 ^ 23 % 256 : Nat) : Int) - 127), []⟩, fun fuel _ => ?_,
      List.Chain.nil, by simp, by simp⟩
    rw [approx_log2_run_eq, if_pos h0]
  · have hb := total_k_bound 9 (2 ^ 23 + x % 2 ^ 23) (le_refl _) (by omega) (by omega)
    obtain ⟨r, hr, hch, hall, hlen⟩ := loop_trace 9 (2 ^ 23 + x % 2 ^ 23)
      (f32_of_int (((x / 2 ^ 23 % 256 : Nat) : Int) - 127)) 0 x 0 (by omega) (by omega)
      (by omega)
    have e : 0x3f800000 + x % 2 ^ 23 = 0x3f000000 + (2 ^ 23 + x % 2 ^ 23) := by omega
    refine ⟨r, fun fuel hf => ?_, ?_, fun p hp => ?_, hlen⟩
    · rw [approx_log2_run_eq, if_neg h0]
      exact hr fuel hf
    · simp only
      rw [e]
      exact hch
    · have := hall p hp
      omega

/-- The pattern built by `pow_neg_two` for `m ≤ 126`. -/
theorem pow_neg_two_pattern (m : Nat) (h : m ≤ 126) :
    pow_neg_two m = (127 - m) * 2 ^ 23 ∧ f32_posNormal (pow_neg_two m) := by
  have hp : pow_neg_two m = (127 - m) * 2 ^ 23 := by
    unfold pow_neg_two
    simp only [Nat.shiftLeft_eq]
    omega
  refine ⟨hp, ?_⟩
  rw [hp]
  unfold f32_posNormal
  constructor <;> omega

/-- C12 (helper precondition inside the Accumulator): on every input pattern, in particular
every finite positive normal one, each running total `m` that a pass hands to `pow_neg_two`
(the accumulator after the pass is `res + pow_neg_two(m)`) is at most 119, hence at most 127:
the `uint32_t` subtraction `127 - m` does not wrap, and the term is the positive normal float
`2^-m`, neither negative nor infinite. -/
theorem C12_helper_precondition (x : Nat) :
    ∃ r : Run, (∀ fuel, 24 ≤ fuel → approx_log2_run fuel x = some r)
      ∧ List.Chain (fun p q => q.res = f32_add p.res (pow_neg_two q.m))
          ⟨x, 0, (get_exponent_and_normalize x).2, 0, (get_exponent_and_normalize x).1⟩
          r.passes
      ∧ ∀ p ∈ r.passes, p.m ≤ 119 ∧ p.m ≤ 127
          ∧ (127 + 2 ^ 32 - p.m % 2 ^ 32) % 2 ^ 32 + p.m = 127
          ∧ pow_neg_two p.m = (127 - p.m) * 2 ^ 23
          ∧ f32_sign (pow_neg_two p.m) = false ∧ f32_finite (pow_neg_two p.m)
          ∧ f32_posNormal (pow_neg_two p.m)
          ∧ f32_toRat (pow_neg_two p.m) = 1 / 2 ^ p.m ∧ 0 < f32_toRat (pow_neg_two p.m) := by
  obtain ⟨r, hr, hch, hall, _⟩ := run_trace x
  refine ⟨r, hr, hch.imp (fun p q h => h.1.2.2.2), fun p hp => ?_⟩
  have hm := hall p hp
  obtain ⟨f1, _, _, _, _⟩ := pow_neg_two_fields p.m (by omega)
  obtain ⟨g1, g2⟩ := pow_neg_two_pattern p.m (by omega)
  obtain ⟨s1, s2⟩ := pow_neg_two_spec p.m (by omega)
  refine ⟨hm, by omega, by omega, g1, f1, s1, g2, s2, ?_⟩
  rw [s2]
  positivity

/-- C14 (accumulated squaring count): on every input pattern the passes of `approx_log2`
follow one another by `loop_body`, starting from the running total 0; each pass adds the count
returned by `log2_step`, which is at least 1, so the total strictly increases (without
wrapping), is at least `j + 1` after the pass of index `j` (counted from 0), and at least 9
after a ninth pass; the term added in a pass is `pow_neg_two` of the total after that pass. -/
theorem C14_running_total (x : Nat) :
    ∃ r : Run, (∀ fuel, 24 ≤ fuel → approx_log2_run fuel x = some r)
      ∧ List.Chain (fun p q => loop_body p q ∧ 1 ≤ q.k ∧ q.m = p.m + q.k ∧ p.m < q.m)
          ⟨x, 0, (get_exponent_and_normalize x).2, 0, (get_exponent_and_normalize x).1⟩
          r.passes
      ∧ (∀ j p, r.passes[j]? = some p → j + 1 ≤ p.m)
      ∧ (r.passes.length = 9 → ∀ p, r.passes.getLast? = some p → 9 ≤ p.m) := by
  obtain ⟨r, hr, hch, _, _⟩ := run_trace x
  have hidx := chain_total_ge r.passes _ hch
  refine ⟨r, hr, hch, fun j p h => ?_, fun hlen p hp => ?_⟩
  · have := hidx j p h
    simp only [Nat.zero_add] at this
    exact this
  · rw [List.getLast?_eq_getElem?, hlen] at hp
    have := hidx 8 p hp
    omega

/-- C13 (bit-level effect of the Decomposer): on every pattern `x`,
`get_exponent_and_normalize` overwrites the value with `0x3f800000 | (x & 0x7fffff)`, which has
sign bit 0, exponent field 127 and the mantissa field of `x`, and returns the float of the
integer `((x >> 23) & 0xff) - 127`, the exponent field of `x` minus 127, between -127 and
128; for the exponent field 0 it returns `-127.0f` (pattern `0xc2fe0000`). -/
theorem C13_decomposer_bits (x : Nat) :
    (get_exponent_and_normalize x).2 = 0x3f800000 ||| (x &&& 0x7fffff)
      ∧ f32_sign (get_exponent_and_normalize x).2 = false
      ∧ f32_exp (get_exponent_and_normalize x).2 = 127
      ∧ f32_man (get_exponent_and_normalize x).2 = f32_man x
      ∧ (get_exponent_and_normalize x).1
          = f32_of_int ((((x >>> 23) &&& 0xff : Nat) : Int) - 127)
      ∧ (x >>> 23) &&& 0xff = f32_exp x
      ∧ f32_toRat (get_exponent_and_normalize x).1 = (((f32_exp x : Int) - 127 : Int) : ℚ)
      ∧ -127 ≤ (f32_exp x : Int) - 127 ∧ (f32_exp x : Int) - 127 ≤ 128
      ∧ (f32_exp x = 0 → (get_exponent_and_normalize x).1 = 0xc2fe0000
          ∧ f32_toRat (get_exponent_and_normalize x).1 = -127) := by
  have hx : x % 2 ^ 23 < 2 ^ 23 := Nat.mod_lt _ (by positivity)
  have hE : f32_exp x < 256 := by unfold f32_exp; omega
  have hsh : (x >>> 23) &&& 0xff = f32_exp x := by
    unfold f32_exp
    rw [Nat.shiftRight_eq_div_pow]
    exact Nat.and_pow_two_sub_one_eq_mod (x / 2 ^ 23) 8
  have heq := get_exponent_and_normalize_eq x
  have h1 : (get_exponent_and_normalize x).1 = f32_of_int ((f32_exp x : Int) - 127) := by
    rw [heq]; rfl
  have h2 : (get_exponent_and_normalize x).2 = 0 * 2 ^ 31 + 127 * 2 ^ 23 + x % 2 ^ 23 := by
    rw [heq]
    show 0x3f800000 + x % 2 ^ 23 = _
    omega
  obtain ⟨f1, f2, f3⟩ := f32_fields 0 127 (x % 2 ^ 23) (by omega) (by omega) hx
  rw [← h2] at f1 f2 f3
  have hval := f32_of_int_toRat ((f32_exp x : Int) - 127) (by omega)
  refine ⟨rfl, by simpa using f1, f2, f3, ?_, hsh, ?_, by omega, by omega, ?_⟩
  · rw [h1, hsh]
  · rw [h1, hval]
  · intro h0
    rw [h1, h0]
    refine ⟨by decide, ?_⟩
    rw [f32_of_int_toRat _ (by decide)]
    norm_num

/-- C15 (idempotent re-normalization): applied to a value it has normalized,
`get_exponent_and_normalize` returns the exponent `0.0f` (pattern 0) and leaves the pattern as
it is.  The function reads nothing but its argument, so on the same input pattern it gives
the same exponent and the same normalized value. -/
theorem C15_renormalize_idempotent (x : Nat) :
    get_exponent_and_normalize (get_exponent_and_normalize x).2
        = (0, (get_exponent_and_normalize x).2)
      ∧ f32_toRat (get_exponent_and_normalize (get_exponent_and_normalize x).2).1 = 0
      ∧ (∀ y, y = x → (get_exponent_and_normalize y).1 = (get_exponent_and_normalize x).1
          ∧ (get_exponent_and_normalize y).2 = (get_exponent_and_normalize x).2) := by
  have hx : x % 2 ^ 23 < 2 ^ 23 := Nat.mod_lt _ (by positivity)
  have h2 : (get_exponent_and_normalize x).2 = 0x3f800000 + x % 2 ^ 23 := by
    rw [get_exponent_and_normalize_eq]
  have h3 : get_exponent_and_normalize (0x3f800000 + x % 2 ^ 23)
      = (0, 0x3f800000 + x % 2 ^ 23) := by
    rw [get_exponent_and_normalize_eq]
    have e1 : (0x3f800000 + x % 2 ^ 23) / 2 ^ 23 % 256 = 127 := by omega
    have e2 : (0x3f800000 + x % 2 ^ 23) % 2 ^ 23 = x % 2 ^ 23 := by omega
    rw [e1, e2]
    have : f32_of_int (((127 : Nat) : Int) - 127) = 0 := by decide
    rw [this]
  refine ⟨by rw [h2, h3], ?_, fun y hy => by rw [hy]; exact ⟨rfl, rfl⟩⟩
  rw [h2, h3]
  simp [f32_toRat, f32_sig, f32_exp, f32_man]

/-- Clearing bit 31 keeps the exponent and mantissa fields and clears the sign. -/
theorem clear_sign_fields (x : Nat) :
    x &&& 0x7fffffff = x % 2 ^ 31 ∧ f32_sign (x &&& 0x7fffffff) = false
      ∧ f32_exp (x &&& 0x7fffffff) = f32_exp x ∧ f32_man (x &&& 0x7fffffff) = f32_man x := by
  have h : x &&& 0x7fffffff = x % 2 ^ 31 := Nat.and_pow_two_sub_one_eq_mod x 31
  rw [h]
  refine ⟨rfl, ?_, ?_, ?_⟩
  · unfold f32_sign
    simp only [decide_eq_false_iff_not]
    omega
  · unfold f32_exp; omega
  · unfold f32_man; omega

/-- C16 (the sign bit is ignored): on every pattern `x`, `approx_log2` makes the same run and
returns the same float on `x` and on `x` with bit 31 cleared, whose value is the absolute
value of `x`; the result is a finite float, not a NaN; for instance `approx_log2(-4.0)` is
`2.0`. -/
theorem C16_sign_ignored (x fuel : Nat) :
    get_exponent_and_normalize (x &&& 0x7fffffff) = get_exponent_and_normalize x
      ∧ approx_log2_run fuel (x &&& 0x7fffffff) = approx_log2_run fuel x
      ∧ approx_log2 fuel (x &&& 0x7fffffff) = approx_log2 fuel x
      ∧ f32_sign (x &&& 0x7fffffff) = false
      ∧ f32_toRat (x &&& 0x7fffffff) = |f32_toRat x|
      ∧ (24 ≤ fuel → ∃ r, approx_log2 fuel x = some r ∧ f32_finite r ∧ f32_isNaN r = false)
      ∧ approx_log2 fuel 0xc0800000 = some 0x40000000 := by
  obtain ⟨hc, hs, hE, hM⟩ := clear_sign_fields x
  have e1 : (x &&& 0x7fffffff) % 2 ^ 23 = x % 2 ^ 23 := hM
  have e2 : (x &&& 0x7fffffff) / 2 ^ 23 % 256 = x / 2 ^ 23 % 256 := hE
  have hrun : approx_log2_run fuel (x &&& 0x7fffffff) = approx_log2_run fuel x := by
    rw [approx_log2_run_eq, approx_log2_run_eq, e1, e2]
  refine ⟨?_, hrun, ?_, hs, ?_, fun hf => ?_, ?_⟩
  · rw [get_exponent_and_normalize_eq, get_exponent_and_normalize_eq, e1, e2]
  · unfold approx_log2
    rw [hrun]
  · have hsig : f32_sig (x &&& 0x7fffffff) = f32_sig x := by unfold f32_sig; rw [hE, hM]
    have hq : f32_qexp (x &&& 0x7fffffff) = f32_qexp x := by unfold f32_qexp; rw [hE]
    have hnn : (0 : ℚ) ≤ (f32_sig x : ℚ) * (2 : ℚ) ^ f32_qexp x := by positivity
    rw [toRat_mag, toRat_mag x, hs, hsig, hq]
    simp only [Bool.false_eq_true, if_false, one_mul]
    split
    · rw [neg_one_mul, abs_neg, abs_of_nonneg hnn]
    · rw [one_mul, abs_of_nonneg hnn]
  · obtain ⟨hfin, _, _⟩ := log2_result_bounds x
    exact ⟨log2_result x, approx_log2_result x fuel hf, hfin, (finite_not_special _ hfin).1⟩
  · unfold approx_log2
    rw [approx_log2_run_eq, if_pos (by decide)]
    decide

/-- C17 (zero mantissa field): on every pattern whose mantissa field is zero, whatever its
sign bit and exponent field, `approx_log2` returns the float of the exponent field minus 127
without any pass of the loop (for any fuel); in particular `approx_log2(+0.0)` is `-127.0`
(pattern `0xc2fe0000`) and `approx_log2(+∞)` is `128.0` (pattern `0x43000000`). -/
theorem C17_zero_mantissa (x fuel : Nat) (h : f32_man x = 0) :
    approx_log2_run fuel x = some ⟨f32_of_int ((f32_exp x : Int) - 127), []⟩
      ∧ approx_log2 fuel x = some (f32_of_int ((f32_exp x : Int) - 127))
      ∧ f32_toRat (f32_of_int ((f32_exp x : Int) - 127)) = (((f32_exp x : Int) - 127 : Int) : ℚ)
      ∧ approx_log2 fuel 0 = some 0xc2fe0000 ∧ f32_toRat 0xc2fe0000 = -127
      ∧ approx_log2 fuel 0x7f800000 = some 0x43000000 ∧ f32_toRat 0x43000000 = 128 := by
  have hE : f32_exp x < 256 := by unfold f32_exp; omega
  have h0 : x % 2 ^ 23 = 0 := h
  have hrun : approx_log2_run fuel x = some ⟨f32_of_int ((f32_exp x : Int) - 127), []⟩ := by
    rw [approx_log2_run_eq, if_pos h0]
    rfl
  have a1 : f32_of_int (-127) = 0xc2fe0000 := by decide
  have a2 : f32_of_int 128 = 0x43000000 := by decide
  have v1 := f32_of_int_toRat (-127) (by decide)
  have v2 := f32_of_int_toRat 128 (by decide)
  rw [a1] at v1
  rw [a2] at v2
  refine ⟨hrun, ?_, f32_of_int_toRat _ (by omega), ?_, ?_, ?_, ?_⟩
  · unfold approx_log2
    rw [hrun]
    rfl
  · unfold approx_log2
    rw [approx_log2_run_eq, if_pos (by decide)]
    decide
  · rw [v1]; norm_num
  · unfold approx_log2
    rw [approx_log2_run_eq, if_pos (by decide)]
    decide
  · rw [v2]; norm_num

/-- Witness for C17 at `+∞` (pattern `0x7f800000`). -/
theorem C17_zero_mantissa_witness :
    f32_man 0x7f800000 = 0
      ∧ approx_log2_run 0 0x7f800000 = some ⟨f32_of_int ((f32_exp 0x7f800000 : Int) - 127), []⟩
      ∧ approx_log2 0 0x7f800000 = some (f32_of_int ((f32_exp 0x7f800000 : Int) - 127)) :=
  ⟨by decide, (C17_zero_mantissa 0x7f800000 0 (by decide)).1,
    (C17_zero_mantissa 0x7f800000 0 (by decide)).2.1⟩

/-! ## How a run stops -/

/-- How the `for` loop of `approx_log2` stops: entered with passes left, it makes at least one
pass, returns the accumulator of the last pass made, and no pass but the last leaves
`1.0`; the last pass leaves `1.0` unless all the passes allowed were made. -/
theorem loop_stop : ∀ (n t res m : Nat), 2 ^ 23 < t → t < 2 ^ 24 →
    ∃ r : Run, (∀ fuel, 24 ≤ fuel → approx_log2_loop fuel n (0x3f000000 + t) res m = some r)
      ∧ (0 < n → r.passes ≠ [])
      ∧ r.ret = ((r.passes.getLast?).map Pass.res).getD res
      ∧ (∀ p, r.passes.getLast? = some p →
          f32_eq p.out f32_one = true ∨ r.passes.length = n)
      ∧ (∀ j p, r.passes[j]? = some p → j + 1 < r.passes.length →
          f32_eq p.out f32_one = false) := by
  intro n
  induction n with
  | zero =>
    intro t res m _ _
    exact ⟨⟨res, []⟩, fun fuel _ => rfl, fun h => absurd h (lt_irrefl 0), rfl,
      fun p h => by simp at h, fun j p h => by simp at h⟩
  | succ n ih =>
    intro t res m h1 h2
    obtain ⟨_, _, a1, a2, _⟩ := log2_step_pass t h1 h2
    have heq := pat_eq_one (pass_pat t).2 a1 (by omega)
    by_cases hone : (pass_pat t).2 = 2 ^ 23
    · refine ⟨⟨f32_add res (pow_neg_two ((m + (pass_pat t).1) % 2 ^ 32)),
            [⟨0x3f000000 + t, (pass_pat t).1, 0x3f000000 + (pass_pat t).2,
              (m + (pass_pat t).1) % 2 ^ 32,
              f32_add res (pow_neg_two ((m + (pass_pat t).1) % 2 ^ 32))⟩]⟩,
        fun fuel hf => by rw [approx_log2_loop_succ fuel n t res m hf h1 h2, if_pos hone],
        fun _ => by simp, rfl, fun p hp => ?_, fun j p hp hj => ?_⟩
      · simp only [List.getLast?_singleton, Option.some.injEq] at hp
        subst hp
        left
        show f32_eq (0x3f000000 + (pass_pat t).2) f32_one = true
        rw [heq]
        simpa using hone
      · simp only [List.length_singleton] at hj
        omega
    · obtain ⟨r, hr, hne, hret, hlast, hidx⟩ := ih (pass_pat t).2
        (f32_add res (pow_neg_two ((m + (pass_pat t).1) % 2 ^ 32)))
        ((m + (pass_pat t).1) % 2 ^ 32) (by omega) a2
      refine ⟨⟨r.ret, ⟨0x3f000000 + t, (pass_pat t).1, 0x3f000000 + (pass_pat t).2,
              (m + (pass_pat t).1) % 2 ^ 32,
              f32_add res (pow_neg_two ((m + (pass_pat t).1) % 2 ^ 32))⟩ :: r.passes⟩,
        fun fuel hf => by
          rw [approx_log2_loop_succ fuel n t res m hf h1 h2, if_neg hone, hr fuel hf],
        fun _ => by simp, ?_, fun p hp => ?_, fun j p hp hj => ?_⟩
      · show r.ret = _
        rw [hret]
        cases hrp : r.passes with
        | nil => rfl
        | cons q qs =>
          obtain ⟨z, hz⟩ : ∃ z, (q :: qs).getLast? = some z :=
            ⟨_, List.getLast?_eq_getLast _ (by simp)⟩
          rw [List.getLast?_cons_cons, hz]
          rfl
      · simp only at hp
        cases hrp : r.passes with
        | nil =>
          rw [hrp] at hp
          right
          have hn0 : n = 0 := by
            by_contra hcon
            exact hne (by omega) hrp
          simp only [List.length_singleton]
          omega
        | cons q qs =>
          rw [hrp, List.getLast?_cons_cons] at hp
          rw [hrp] at hlast
          rcases hlast p hp with h | h
          · exact Or.inl h
          · right
            simp only [List.length_cons] at h ⊢
            omega
      · simp only [List.length_cons] at hj
        cases j with
        | zero =>
          simp only [List.getElem?_cons_zero, Option.some.injEq] at hp
          subst hp
          show f32_eq (0x3f000000 + (pass_pat t).2) f32_one = false
          rw [heq]
          simpa using hone
        | succ j =>
          simp only [List.getElem?_cons_succ] at hp
          exact hidx j p hp (by omega)

/-- C8 (totality): on every input pattern, in particular on every finite positive normal
input, `approx_log2` returns a finite float, the same for every sufficient fuel, after at
most 9 calls of `log2_step`, each of which returns.  No pass is made exactly when the
normalized value is `1.0` (the test `f == 1.0f` before the loop), and then the exponent is
returned; otherwise the accumulator of the last pass is returned, and the loop stops after the
first pass that leaves `1.0` (the test `f == 1.0f` in the loop) or after the ninth pass. -/
theorem C8_totality (x : Nat) :
    ∃ r : Run, (∀ fuel, 24 ≤ fuel →
        approx_log2_run fuel x = some r ∧ approx_log2 fuel x = some r.ret)
      ∧ r.passes.length ≤ 9
      ∧ (r.passes.length = 9
          ∨ (r.passes = [] ∧ f32_eq (get_exponent_and_normalize x).2 f32_one = true)
          ∨ ∃ p, r.passes.getLast? = some p ∧ p.out = f32_one)
      ∧ (r.passes = [] ↔ f32_eq (get_exponent_and_normalize x).2 f32_one = true)
      ∧ (r.passes = [] → r.ret = (get_exponent_and_normalize x).1)
      ∧ (∀ p, r.passes.getLast? = some p →
          r.ret = p.res ∧ (f32_eq p.out f32_one = true ∨ r.passes.length = 9))
      ∧ (∀ j p, r.passes[j]? = some p → j + 1 < r.passes.length →
          f32_eq p.out f32_one = false)
      ∧ List.Chain loop_body
          ⟨x, 0, (get_exponent_and_normalize x).2, 0, (get_exponent_and_normalize x).1⟩
          r.passes
      ∧ f32_finite r.ret := by
  obtain ⟨r, hr, hlen, hstop, _⟩ := approx_log2_run_total x
  obtain ⟨r2, hr2, hch, _, _⟩ := run_trace x
  have e2 : r2 = r := Option.some.inj ((hr2 24 (le_refl _)).symm.trans (hr 24 (le_refl _)))
  subst e2
  have hx : x % 2 ^ 23 < 2 ^ 23 := Nat.mod_lt _ (by positivity)
  have hres : approx_log2 24 x = some r2.ret := by
    unfold approx_log2
    rw [hr 24 (le_refl _)]
    rfl
  have hfin : f32_finite r2.ret := by
    have h1 := approx_log2_result x 24 (le_refl _)
    rw [hres] at h1
    rw [Option.some.inj h1]
    exact (log2_result_bounds x).1
  have hnorm : (get_exponent_and_normalize x).2 = 0x3f000000 + (2 ^ 23 + x % 2 ^ 23) := by
    rw [get_exponent_and_normalize_eq]
    show 0x3f800000 + x % 2 ^ 23 = _
    omega
  have heq := pat_eq_one (2 ^ 23 + x % 2 ^ 23) (by omega) (by omega)
  rw [← hnorm] at heq
  have hrun := hr 24 (le_refl _)
  rw [approx_log2_run_eq] at hrun
  have hfuel : ∀ fuel, 24 ≤ fuel →
      approx_log2_run fuel x = some r2 ∧ approx_log2 fuel x = some r2.ret := by
    intro fuel hf
    refine ⟨hr fuel hf, ?_⟩
    unfold approx_log2
    rw [hr fuel hf]
    rfl
  by_cases h0 : x % 2 ^ 23 = 0
  · rw [if_pos h0] at hrun
    have hr0 : r2 = ⟨f32_of_int (((x / 2 ^ 23 % 256 : Nat) : Int) - 127), []⟩ :=
      (Option.some.inj hrun).symm
    have hp : r2.passes = [] := by rw [hr0]
    have ht : f32_eq (get_exponent_and_normalize x).2 f32_one = true := by
      rw [heq]
      simpa using h0
    refine ⟨r2, hfuel, hlen, Or.inr (Or.inl ⟨hp, ht⟩), ⟨fun _ => ht, fun _ => hp⟩, fun _ => ?_,
      fun p h => ?_, fun j p h => ?_, hch.imp (fun p q h => h.1), hfin⟩
    · rw [hr0, get_exponent_and_normalize_eq]
    · rw [hp] at h
      simp at h
    · rw [hp] at h
      simp at h
  · rw [if_neg h0] at hrun
    obtain ⟨r3, hr3, hne, hret, hlast, hidx⟩ := loop_stop 9 (2 ^ 23 + x % 2 ^ 23)
      (f32_of_int (((x / 2 ^ 23 % 256 : Nat) : Int) - 127)) 0 (by omega) (by omega)
    have e3 : r3 = r2 := Option.some.inj ((hr3 24 (le_refl _)).symm.trans hrun)
    subst e3
    have hp : r3.passes ≠ [] := hne (by norm_num)
    have hf : f32_eq (get_exponent_and_normalize x).2 f32_one = false := by
      rw [heq]
      simpa using h0
    refine ⟨r3, hfuel, hlen, ?_, ⟨fun h => absurd h hp, fun h => ?_⟩, fun h => absurd h hp,
      fun p h => ⟨?_, hlast p h⟩, hidx, hch.imp (fun p q h => h.1), hfin⟩
    · rcases hstop with h | h | h
      · exact Or.inl h
      · exact absurd h hp
      · exact Or.inr (Or.inr h)
    · rw [hf] at h
      cases h
    · rw [hret, h]
      rfl

end ApproxLog2
